import Mathlib

/-!
# xast-util-from-xml: the event-to-tree layer of `lib/index.js`

A shallow embedding of `fromXml`'s handlers: the doctype grammar parser
(`ondoctype`), the error translator (`onerror`, `onsgmldeclaration`, `fail`),
the position clock (`now`), the tree builder (`enter`, `exit`) and the position
reconciler (`oncomment`, `ontext`); and of `fromXml` itself, as the run of the
handlers over the events of the tokenizer.

Conventions of the embedding.

* A JavaScript string is the list of its UTF-16 code units (`Str`), so
  `value.length` is `List.length` and `value.charCodeAt(i)` is the `i`-th
  element.  String literals of the source are written with `lit`.
* `number | null` (a character code or the end-of-input sentinel) is
  `Option Nat`.
* The tokenizer (`sax`) is outside the embedding.  What a handler reads from it,
  `parser.line`, `parser.column` and `parser.position`, is the `Cursor` that
  comes with every event.
* A `throw` keeps the state the handler had reached: a handler returns a
  `Result`, either `ok` with the new builder or `thrown` with the exception and
  the builder at the moment of the throw.
-/

namespace FromXml

/-! ## Strings -/

/-- JavaScript string: its UTF-16 code units. -/
abbrev Str := List Nat

/-- Source string literal (ASCII only, so code units are code points). -/
def lit (s : String) : Str := s.toList.map Char.toNat

/-- Source `String.fromCharCode(code)`: the argument is truncated to 16 bits; the
one-unit string is identified with its code unit. -/
def fromCharCode (code : Nat) : Nat := code % 65536

/-- Source `value.slice(start, index)` for `0 ≤ start`, `0 ≤ index`; an `undefined`
start counts as `0`. -/
def slice (value : Str) (start : Option Nat) (index : Nat) : Str :=
  (value.drop (start.getD 0)).take (index - start.getD 0)

/-- Source `value.charCodeAt(index)`; `none` stands for `NaN` (index out of range). -/
def charCodeAt (value : Str) (index : Nat) : Option Nat := value.get? index

/-! ## Character classes (`lib/index.js`, lines 456-501) -/

/-- The class of `isNameStartChar`, tested on one code unit: `:`, `A-Z`, `_`,
`a-z`, U+00C0-00D6, U+00D8-00F6, U+00F8-02FF, U+0370-037D, U+037F-1FFF, U+200C,
U+200D, U+2070-218F, U+2C00-2FEF, U+3001-D7FF, U+F900-FDCF, U+FDF0-FFFD. -/
def nameStartClass (u : Nat) : Bool :=
  u == 58 || (65 ≤ u && u ≤ 90) || u == 95 || (97 ≤ u && u ≤ 122) ||
  (0xC0 ≤ u && u ≤ 0xD6) || (0xD8 ≤ u && u ≤ 0xF6) || (0xF8 ≤ u && u ≤ 0x2FF) ||
  (0x370 ≤ u && u ≤ 0x37D) || (0x37F ≤ u && u ≤ 0x1FFF) || u == 0x200C || u == 0x200D ||
  (0x2070 ≤ u && u ≤ 0x218F) || (0x2C00 ≤ u && u ≤ 0x2FEF) || (0x3001 ≤ u && u ≤ 0xD7FF) ||
  (0xF900 ≤ u && u ≤ 0xFDCF) || (0xFDF0 ≤ u && u ≤ 0xFFFD)

/-- The second class of `isNameChar`, tested on one code unit: `-`, `.`, a
digit (`\d`), U+00B7, U+0300-036F, U+203F, U+2040. -/
def nameExtraClass (u : Nat) : Bool :=
  u == 45 || u == 46 || (48 ≤ u && u ≤ 57) || u == 0xB7 || (0x300 ≤ u && u ≤ 0x36F) ||
  u == 0x203F || u == 0x2040

/-- The class `[\t\n\r ]`, tested on one code unit. -/
def spaceClass (u : Nat) : Bool :=
  u == 9 || u == 10 || u == 13 || u == 32

/-- The class `[\n\r !#$%'-;=?-Z_a-z]`, tested on one code unit: `'-;` is the
range U+0027..U+003B and `?-Z` the range U+003F..U+005A. -/
def pubidClass (u : Nat) : Bool :=
  u == 10 || u == 13 || u == 32 || u == 33 || u == 35 || u == 36 || u == 37 ||
  (39 ≤ u && u ≤ 59) || u == 61 || (63 ≤ u && u ≤ 90) || u == 95 || (97 ≤ u && u ≤ 122)

/-- Source `isNameStartChar(code)`. -/
def isNameStartChar : Option Nat → Bool
  | none => false
  | some code => nameStartClass (fromCharCode code)

/-- Source `isNameChar(code)`. -/
def isNameChar : Option Nat → Bool
  | none => false
  | some code => isNameStartChar (some code) || nameExtraClass (fromCharCode code)

/-- Source `isSpace(code)`. -/
def isSpace : Option Nat → Bool
  | none => false
  | some code => spaceClass (fromCharCode code)

/-- Source `isPubidChar(code)`. -/
def isPubidChar : Option Nat → Bool
  | none => false
  | some code => pubidClass (fromCharCode code)

/-! ## The doctype grammar parser: one iteration of the loop of `ondoctype` -/

/-- The values of `state` in `ondoctype`. -/
inductive State where
  | BEGIN | BEFORE_NAME | IN_NAME | AFTER_NAME | IN_EID
  | AFTER_PUBLIC | AFTER_SYSTEM | BEFORE_PUBLIC_LITERAL | IN_PUBLIC_LITERAL
  | AFTER_PUBLIC_LITERAL | BEFORE_SYSTEM_LITERAL | IN_SYSTEM_LITERAL
  | AFTER_SYSTEM_LITERAL
  deriving DecidableEq, Repr

/-- The fields `name`, `public` and `system` of the doctype node under
construction; `none` is `null`. -/
structure Doctype where
  name : Str
  «public» : Option Str
  system : Option Str
  deriving DecidableEq, Repr

/-- The local variables of `ondoctype` other than `index`. -/
structure Vars where
  node : Doctype
  state : State
  returnState : Option State
  buffer : Option Str
  bufferIndex : Option Nat
  start : Option Nat
  marker : Option Nat
  deriving DecidableEq, Repr

/-- The arguments of a call `fail(reason, id)`. -/
structure Failure where
  reason : Str
  id : Str
  deriving DecidableEq, Repr

/-- The variables before the loop: `node = {name: '', public: null, system:
null}`, `state = 'BEGIN'`, everything else `undefined`. -/
def Vars.initial : Vars :=
  { node := { name := [], «public» := none, system := none }
    state := State.BEGIN
    returnState := none, buffer := none, bufferIndex := none
    start := none, marker := none }

/-- The character read in one iteration:
`index === value.length ? null : value.charCodeAt(index)`. -/
def codeAt (value : Str) (index : Nat) : Option Nat :=
  if index = value.length then none else charCodeAt value index

/-- Strict equality `code === other` where `code` is a number or `null` and
`other` is a number that may be `NaN` (`buffer.charCodeAt(i)`) or a number that
may be `undefined` (`marker`): true only for two equal numbers. -/
def strictEq : Option Nat → Option Nat → Bool
  | some a, some b => a == b
  | _, _ => false

/-- The body of the `switch (state)` of `ondoctype` for one `code` at one
`index`: the variables after the iteration, or the arguments of the `fail` it
calls. -/
def step (value : Str) (index : Nat) (v : Vars) : Except Failure Vars :=
  let code := codeAt value index
  match v.state with
  | State.BEGIN =>
    if isSpace code then .ok { v with state := State.BEFORE_NAME }
    else .error ⟨lit "Expected doctype name", lit "doctype-name"⟩
  | State.BEFORE_NAME =>
    if isSpace code then .ok v
    else if isNameStartChar code then
      .ok { v with state := State.IN_NAME, start := some index }
    else .error ⟨lit "Expected start of doctype name", lit "doctype-name"⟩
  | State.IN_NAME =>
    if isNameChar code then .ok v
    else if isSpace code || code == none then
      .ok { v with state := State.AFTER_NAME,
                   node := { v.node with name := slice value v.start index } }
    else if code == some 91 then
      .error ⟨lit "Unexpected internal subset", lit "doctype-internal-subset"⟩
    else
      .error ⟨lit "Expected doctype name character, whitespace, or doctype end",
        lit "doctype-name"⟩
  | State.AFTER_NAME =>
    if code == none then .ok v
    else if isSpace code then .ok v
    else if code == some 80 then
      .ok { v with state := State.IN_EID, returnState := some State.AFTER_PUBLIC,
                   buffer := some (lit "PUBLIC"), bufferIndex := some 0 }
    else if code == some 83 then
      .ok { v with state := State.IN_EID, returnState := some State.AFTER_SYSTEM,
                   buffer := some (lit "SYSTEM"), bufferIndex := some 0 }
    else if code == some 91 then
      .error ⟨lit "Unexpected internal subset", lit "doctype-internal-subset"⟩
    else
      .error ⟨lit
        "Expected external identifier (`PUBLIC` or `SYSTEM`), whitespace, or doctype end",
        lit "doctype-external-identifier"⟩
  | State.IN_EID =>
    match v.returnState, v.buffer, v.bufferIndex with
    | some returnState, some buffer, some bufferIndex =>
      if buffer ≠ [] ∧ strictEq code (charCodeAt buffer (bufferIndex + 1)) then
        if bufferIndex + 1 = buffer.length - 1 then
          .ok { v with bufferIndex := some (bufferIndex + 1), state := returnState }
        else .ok { v with bufferIndex := some (bufferIndex + 1) }
      else
        .error ⟨lit "Expected external identifier (`PUBLIC` or `SYSTEM`)",
          lit "doctype-external-identifier"⟩
    | _, _, _ =>
      .error ⟨lit "Expected external identifier (`PUBLIC` or `SYSTEM`)",
        lit "doctype-external-identifier"⟩
  | State.AFTER_PUBLIC =>
    if isSpace code then .ok { v with state := State.BEFORE_PUBLIC_LITERAL }
    else .error ⟨lit "Expected whitespace after `PUBLIC`", lit "doctype-public-literal"⟩
  | State.AFTER_SYSTEM =>
    if isSpace code then .ok { v with state := State.BEFORE_SYSTEM_LITERAL }
    else .error ⟨lit "Expected whitespace after `SYSTEM`", lit "doctype-system-literal"⟩
  | State.BEFORE_PUBLIC_LITERAL =>
    if isSpace code then .ok v
    else if code == some 34 || code == some 39 then
      .ok { v with state := State.IN_PUBLIC_LITERAL, start := some (index + 1),
                   marker := code }
    else
      .error ⟨lit "Expected quote or apostrophe to start public literal",
        lit "doctype-public-literal"⟩
  | State.IN_PUBLIC_LITERAL =>
    if strictEq code v.marker then
      .ok { v with state := State.AFTER_PUBLIC_LITERAL,
                   node := { v.node with «public» := some (slice value v.start index) } }
    else if isPubidChar code then .ok v
    else
      .error ⟨lit "Expected pubid character in public literal",
        lit "doctype-public-literal"⟩
  | State.AFTER_PUBLIC_LITERAL =>
    if isSpace code then .ok { v with state := State.BEFORE_SYSTEM_LITERAL }
    else
      .error ⟨lit "Expected whitespace after public literal",
        lit "doctype-system-literal"⟩
  | State.BEFORE_SYSTEM_LITERAL =>
    if isSpace code then .ok v
    else if code == some 34 || code == some 39 then
      .ok { v with state := State.IN_SYSTEM_LITERAL, start := some (index + 1),
                   marker := code }
    else
      .error ⟨lit "Expected quote or apostrophe to start system literal",
        lit "doctype-system-literal"⟩
  | State.IN_SYSTEM_LITERAL =>
    if code == none then
      .error ⟨lit "Expected quote or apostrophe to end system literal",
        lit "doctype-system-literal"⟩
    else if strictEq code v.marker then
      .ok { v with state := State.AFTER_SYSTEM_LITERAL,
                   node := { v.node with system := some (slice value v.start index) } }
    else .ok v
  | State.AFTER_SYSTEM_LITERAL =>
    if code == none then .ok v
    else if isSpace code then .ok v
    else if code == some 91 then
      .error ⟨lit "Unexpected internal subset", lit "internal-subset"⟩
    else .error ⟨lit "Expected whitespace or end of doctype", lit "system-literal"⟩

/-- The loop `while (++index <= value.length) { ... }` of `ondoctype`, entered
with `index` about to take the value of the second argument and `n` iterations
left to run.  A `fail` leaves the loop at once. -/
def loop (value : Str) : Nat → Nat → Vars → Except Failure Vars
  | 0, _, v => .ok v
  | n + 1, index, v =>
    match step value index v with
    | .error e => .error e
    | .ok w => loop value n (index + 1) w

/-- The whole loop of `ondoctype`: `index` runs over `0, ..., value.length`
(`value.length + 1` iterations, the last one on the end-of-input sentinel),
starting from `Vars.initial`. -/
def parseDoctype (value : Str) : Except Failure Vars :=
  loop value (value.length + 1) 0 Vars.initial

/-! ## Points, the position clock and thrown values -/

/-- Point of `unist`: 1-based `line` and `column`, 0-based `offset`. -/
structure Point where
  line : Nat
  column : Nat
  offset : Nat
  deriving DecidableEq, Repr

/-- What the handlers read from the tokenizer: `parser.line`, `parser.column`
(both 0-based) and `parser.position`, as they stand while one event is handled. -/
structure Cursor where
  line : Nat
  column : Nat
  position : Nat
  deriving DecidableEq, Repr

/-- Source `now()`. -/
def now (parser : Cursor) : Point :=
  { line := parser.line + 1, column := parser.column + 1, offset := parser.position }

/-- The arguments `new VFileMessage(reason, place, origin)` is built from. -/
structure VFileMessage where
  reason : Str
  place : Point
  origin : Str
  deriving DecidableEq, Repr

/-- A thrown value: the `VFileMessage` of `fail`, a `new Error(reason)` of the
internal guards, or the `TypeError` of a property read on `undefined`. -/
inductive Thrown where
  | message (m : VFileMessage)
  | error (reason : Str)
  | typeError
  deriving DecidableEq, Repr

/-! ## Nodes and the builder state -/

/-- The `position` field of a node: `end` is `undefined` (`none`) between
`enter` and `exit`. -/
structure Position where
  start : Point
  «end» : Option Point
  deriving DecidableEq, Repr

/-- The `type` field of a node. -/
inductive NodeType where
  | root | element | text | comment | cdata | instruction | doctype
  deriving DecidableEq, Repr

/-- A node object: its `type` and the properties the handlers read or write,
each `none` when the object does not have it (for `public` and `system` also
when it is `null`). -/
inductive Node where
  | mk (type : NodeType) (name : Option Str) (attributes : Option (List (Str × Str)))
      («public» : Option Str) (system : Option Str) (value : Option Str)
      (children : Option (List Node)) (position : Option Position)

/-- The property `type`. -/
def Node.type : Node → NodeType
  | .mk t _ _ _ _ _ _ _ => t

/-- The property `name`. -/
def Node.name : Node → Option Str
  | .mk _ n _ _ _ _ _ _ => n

/-- The property `attributes`. -/
def Node.attributes : Node → Option (List (Str × Str))
  | .mk _ _ a _ _ _ _ _ => a

/-- The property `public`. -/
def Node.«public» : Node → Option Str
  | .mk _ _ _ p _ _ _ _ => p

/-- The property `system`. -/
def Node.system : Node → Option Str
  | .mk _ _ _ _ s _ _ _ => s

/-- The property `value`. -/
def Node.value : Node → Option Str
  | .mk _ _ _ _ _ v _ _ => v

/-- The property `children`. -/
def Node.children : Node → Option (List Node)
  | .mk _ _ _ _ _ _ c _ => c

/-- The property `position`. -/
def Node.position : Node → Option Position
  | .mk _ _ _ _ _ _ _ p => p

/-- The assignment `node.position = position`. -/
def Node.setPosition (position : Option Position) : Node → Node
  | .mk t n a p s v c _ => .mk t n a p s v c position

/-- The assignment `node.position.end = point` (nothing to assign to when the
node has no `position`). -/
def Node.setEnd (point : Point) (node : Node) : Node :=
  match node.position with
  | none => node
  | some position => node.setPosition (some { position with «end» := some point })

/-- The call `node.children.push(child)` on a node that has `children`. -/
def Node.pushChild (node child : Node) : Node :=
  match node with
  | .mk t n a p s v c position => .mk t n a p s v (some (c.getD [] ++ [child])) position

/-- The assignment `node.value = value`. -/
def Node.setValue (value : Str) : Node → Node
  | .mk t n a p s _ c position => .mk t n a p s (some value) c position

/-- The state the handlers of one `fromXml` call share.

`stack` is the open-node stack from its top (the head) down to `stack[0]` (the
last element).  In the source an entered node is at once the last child of the
node below it and the top of the stack; here it lives on the stack only, with
the children it has received so far, and `exit` hands it to the node below.
`position` is the variable `position` (the clock baseline), and
`searchLastIndex` is `search.lastIndex` of the regular expression `search`. -/
structure Builder where
  stack : List Node
  position : Point
  searchLastIndex : Nat

/-- How a handler ends: normally, or by a `throw`, in both cases with the
builder state it has reached. -/
inductive Result where
  | ok (b : Builder)
  | thrown (e : Thrown) (b : Builder)

/-- Sequencing of two statements: the second runs only when the first has not
thrown. -/
def Result.andThen (r : Result) (f : Builder → Result) : Result :=
  match r with
  | .ok b => f b
  | .thrown e b => .thrown e b

/-- Source `fail(reason, id)`:
`throw new VFileMessage(reason, now(), 'xast-util-from-xml:' + id)`. -/
def fail (parser : Cursor) (reason id : Str) (b : Builder) : Result :=
  .thrown (.message { reason := reason, place := now parser,
                      origin := lit "xast-util-from-xml:" ++ id }) b

/-- Source `enter(node)`: the node gets `position = {start: position, end: undefined}`,
becomes a child of the stack top (a `TypeError` when there is no top or the top
has no `children`), is pushed, and `position = now()`. -/
def enter (parser : Cursor) (node : Node) (b : Builder) : Result :=
  match b.stack with
  | [] => .thrown .typeError b
  | top :: _ =>
    match top.children with
    | none => .thrown .typeError b
    | some _ =>
      .ok { b with
        stack := node.setPosition (some { start := b.position, «end» := none }) :: b.stack
        position := now parser }

/-- Source `exit()`: pops `tail` (an `Error` when there is none or it has no
`position`), then `position = now()` and `tail.position.end = position`; the
sealed node is the last child of the node below it. -/
def exit (parser : Cursor) (b : Builder) : Result :=
  match b.stack with
  | [] => .thrown (.error (lit "Expected tail")) b
  | tail :: rest =>
    match tail.position with
    | none => .thrown (.error (lit "Expected tail")) { b with stack := rest }
    | some _ =>
      .ok { b with
        stack := (match rest with
          | [] => []
          | parent :: below => parent.pushChild (tail.setEnd (now parser)) :: below)
        position := now parser }

/-! ## The error translator -/

/-- Whether `pattern` occurs at the very start of the input. -/
def startsWith : Str → Str → Bool
  | _, [] => true
  | [], _ :: _ => false
  | a :: input, b :: pattern => a == b && startsWith input pattern

/-- Source `message.indexOf(pattern)` on the input from `index` on: the first index
at which `pattern` occurs, `none` for `-1`. -/
def indexOfFrom (pattern : Str) : Str → Nat → Option Nat
  | [], index => if startsWith [] pattern then some index else none
  | a :: input, index =>
    if startsWith (a :: input) pattern then some index
    else indexOfFrom pattern input (index + 1)

/-- Source `message.indexOf(pattern)`. -/
def indexOf (message pattern : Str) : Option Nat := indexOfFrom pattern message 0

/-- Source `onerror(error)`, on `error.message`: the message is cut at the first
`'\nLine'` when there is one, and `fail(..., 'sax')`. -/
def onerror (parser : Cursor) (message : Str) (b : Builder) : Result :=
  match indexOf message (lit "\nLine") with
  | none => fail parser message (lit "sax") b
  | some index => fail parser (slice message (some 0) index) (lit "sax") b

/-- Source `onsgmldeclaration()`. -/
def onsgmldeclaration (parser : Cursor) (b : Builder) : Result :=
  fail parser (lit "Unexpected SGML declaration") (lit "unexpected-sgml") b

/-! ## The handlers that build nodes -/

/-- Source `ondoctype(value)`: the loop, then `enter(node)` and `exit()`; a `fail` in
the loop throws before anything is entered. -/
def ondoctype (parser : Cursor) (value : Str) (b : Builder) : Result :=
  match parseDoctype value with
  | .error f => fail parser f.reason f.id b
  | .ok v =>
    (enter parser
      (.mk .doctype (some v.node.name) none v.node.«public» v.node.system none none none)
      b).andThen (exit parser)

/-- Source `onprocessinginstruction(value)` with `value.name` and `value.body`. -/
def onprocessinginstruction (parser : Cursor) (name body : Str) (b : Builder) : Result :=
  (enter parser (.mk .instruction (some name) none none none (some body) none none)
    b).andThen (exit parser)

/-- Applies `f` to the last element of a list. -/
def modifyLast (f : Node → Node) : List Node → List Node
  | [] => []
  | [a] => [f a]
  | a :: b :: rest => a :: modifyLast f (b :: rest)

/-- Applies `f` to the last child of a node. -/
def Node.modifyLastChild (f : Node → Node) : Node → Node
  | .mk t n a p s v c position => .mk t n a p s v (c.map (modifyLast f)) position

/-- The two closing statements of `oncomment` and `ontext`:
`node.position.end = actualEnd` and `position = actualEnd`, where `node` is the
node just entered and exited, that is the last child of the stack top. -/
def reconcile (actualEnd : Point) (b : Builder) : Builder :=
  { b with
    stack := (match b.stack with
      | [] => []
      | top :: below => top.modifyLastChild (Node.setEnd actualEnd) :: below)
    position := actualEnd }

/-- Source `oncomment(value)`: `actualEnd` is `now()` with `column` and `offset`
advanced by one. -/
def oncomment (parser : Cursor) (value : Str) (b : Builder) : Result :=
  let actualEnd : Point :=
    { line := (now parser).line, column := (now parser).column + 1,
      offset := (now parser).offset + 1 }
  ((enter parser (.mk .comment none none none none (some value) none none)
    b).andThen (exit parser)).andThen fun b2 => .ok (reconcile actualEnd b2)

/-- Source `oncdataopen()`. -/
def oncdataopen (parser : Cursor) (b : Builder) : Result :=
  enter parser (.mk .cdata none none none none (some []) none none) b

/-- Source `oncdatavalue(value)`: `stack[stack.length - 1].value += value`; on a node
without `value` the sum starts from the text `undefined`. -/
def oncdatavalue (value : Str) (b : Builder) : Result :=
  match b.stack with
  | [] => .thrown .typeError b
  | top :: below =>
    .ok { b with
      stack := top.setValue (top.value.getD (lit "undefined") ++ value) :: below }

/-- Source `onopen(value)` with `value.name` and `value.attributes`. -/
def onopen (parser : Cursor) (name : Str) (attributes : List (Str × Str))
    (b : Builder) : Result :=
  enter parser (.mk .element (some name) (some attributes) none none none (some []) none) b

/-! ## The text reconciler: the line-break scan of `ontext` -/

/-- One attempt of `/\r?\n|\r/` at the start of the input: the length of the
match.  `\r?\n` is tried first (with the `\r`, then without), then `\r`. -/
def matchBreak (input : Str) : Option Nat :=
  match input with
  | [] => none
  | c :: rest =>
    if c = 13 ∧ rest.head? = some 10 then some 2
    else if c = 10 then some 1
    else if c = 13 then some 1
    else none

/-- The search of `exec` through the input that starts at `index`: the
`match.index` and `match[0].length` of the leftmost match. -/
def searchFrom : Str → Nat → Option (Nat × Nat)
  | [], _ => none
  | c :: rest, index =>
    match matchBreak (c :: rest) with
    | some length => some (index, length)
    | none => searchFrom rest (index + 1)

/-- Source `search.exec(value)` with `search.lastIndex = lastIndex`: the match, and the
`lastIndex` it leaves (the end of the match, `0` when there is none). -/
def exec (value : Str) (lastIndex : Nat) : Option (Nat × Nat) × Nat :=
  if value.length < lastIndex then (none, 0)
  else
    match searchFrom (value.drop lastIndex) lastIndex with
    | some (index, length) => (some (index, length), index + length)
    | none => (none, 0)

/-- The variables of the loop of `ontext`, with `search.lastIndex`. -/
structure Scan where
  actualEnd : Point
  start : Nat
  lastIndex : Nat
  deriving DecidableEq, Repr

/-- The body of `while (start < value.length)` in `ontext`. -/
def scanStep (value : Str) (s : Scan) : Scan :=
  match exec value s.start with
  | (some (index, length), lastIndex) =>
    { actualEnd := { s.actualEnd with line := s.actualEnd.line + 1, column := 1 }
      start := index + length
      lastIndex := lastIndex }
  | (none, lastIndex) =>
    { actualEnd :=
        { s.actualEnd with column := s.actualEnd.column + (value.length - s.start) }
      start := value.length
      lastIndex := lastIndex }

/-- At most `n` iterations of `while (start < value.length)`. -/
def scanLoop (value : Str) : Nat → Scan → Scan
  | 0, s => s
  | n + 1, s => if s.start < value.length then scanLoop value n (scanStep value s) else s

/-- The loop of `ontext` from `start = 0` and `actualEnd = position`.  Every
iteration moves `start` forward, so `value.length` iterations are enough: the
loop has stopped by then (`scanText_start`) and would do nothing more
(`scanText_enough`). -/
def scanText (value : Str) (position : Point) (lastIndex : Nat) : Scan :=
  scanLoop value value.length { actualEnd := position, start := 0, lastIndex := lastIndex }

/-- Source `ontext(value)`: the scan, `actualEnd.offset += value.length`, `enter`,
`exit`, and the corrected end. -/
def ontext (parser : Cursor) (value : Str) (b : Builder) : Result :=
  let s := scanText value b.position b.searchLastIndex
  let actualEnd : Point := { s.actualEnd with offset := s.actualEnd.offset + value.length }
  ((enter parser (.mk .text none none none none (some value) none none)
    { b with searchLastIndex := s.lastIndex }).andThen (exit parser)).andThen
    fun b2 => .ok (reconcile actualEnd b2)

/-! ## The doctype grammar, as the specification words it -/

/-- Grammar `S*`: every character is one that `isSpace` takes (tab, LF, CR, space). -/
def Spaces (s : Str) : Prop := ∀ c ∈ s, isSpace (some c) = true

instance (s : Str) : Decidable (Spaces s) := by
  unfold Spaces
  infer_instance

/-- Grammar `S+`. -/
def Spaces1 (s : Str) : Prop := s ≠ [] ∧ Spaces s

/-- Grammar `Name`: one name-start character, then name characters. -/
def IsName (n : Str) : Prop :=
  ∃ c cs, n = c :: cs ∧ isNameStartChar (some c) = true ∧ ∀ d ∈ cs, isNameChar (some d) = true

/-- A quote (`"`, 34) or an apostrophe (`'`, 39). -/
def IsQuote (q : Nat) : Prop := q = 34 ∨ q = 39

/-- Grammar `SystemLiteral` with the text `body` between its delimiters: a quote or
apostrophe, characters other than it, and the same delimiter. -/
def IsSystemLiteral (l body : Str) : Prop :=
  ∃ q, IsQuote q ∧ l = q :: (body ++ [q]) ∧ q ∉ body

/-- Grammar `PubidLiteral` with the text `body` between its delimiters: a quote or
apostrophe, pubid characters other than it, and the same delimiter. -/
def IsPubidLiteral (l body : Str) : Prop :=
  ∃ q, IsQuote q ∧ l = q :: (body ++ [q]) ∧ ∀ c ∈ body, isPubidChar (some c) = true ∧ c ≠ q

/-- The form `S+ Name S*`, with the name `n`. -/
def NameOnly (v n : Str) : Prop :=
  ∃ s1 s2, v = s1 ++ n ++ s2 ∧ Spaces1 s1 ∧ IsName n ∧ Spaces s2

/-- The form `S+ Name S+ 'SYSTEM' S+ SystemLiteral S*`, with the name `n` and
the text `sys` of the system literal. -/
def WithSystem (v n sys : Str) : Prop :=
  ∃ s1 s2 s3 l s4, v = s1 ++ n ++ s2 ++ lit "SYSTEM" ++ s3 ++ l ++ s4 ∧
    Spaces1 s1 ∧ IsName n ∧ Spaces1 s2 ∧ Spaces1 s3 ∧ IsSystemLiteral l sys ∧ Spaces s4

/-- The form `S+ Name S+ 'PUBLIC' S+ PubidLiteral S+ SystemLiteral S*`, with the
name `n` and the texts `pub` and `sys` of the two literals. -/
def WithPublic (v n pub sys : Str) : Prop :=
  ∃ s1 s2 s3 pl s4 sl s5,
    v = s1 ++ n ++ s2 ++ lit "PUBLIC" ++ s3 ++ pl ++ s4 ++ sl ++ s5 ∧
    Spaces1 s1 ∧ IsName n ∧ Spaces1 s2 ∧ Spaces1 s3 ∧ IsPubidLiteral pl pub ∧
    Spaces1 s4 ∧ IsSystemLiteral sl sys ∧ Spaces s5

/-- The three forms of an accepted doctype body. -/
def DoctypeGrammar (v : Str) : Prop :=
  (∃ n, NameOnly v n) ∨ (∃ n sys, WithSystem v n sys) ∨ (∃ n pub sys, WithPublic v n pub sys)

/-! ## Readers of a handler's result -/

/-- The place of the message a handler has thrown through `fail`. -/
def Result.place : Result → Option Point
  | .thrown (.message m) _ => some m.place
  | _ => none

/-- The reason of the message a handler has thrown through `fail`. -/
def Result.reason : Result → Option Str
  | .thrown (.message m) _ => some m.reason
  | _ => none

/-- The origin of the message a handler has thrown through `fail`. -/
def Result.origin : Result → Option Str
  | .thrown (.message m) _ => some m.origin
  | _ => none

/-- The state `fromXml` starts from: `stack = [{type: 'root', children: []}]` and
`position = now()`, read on the tokenizer as it stands when the call begins;
`lastIndex` is what earlier calls have left in `search.lastIndex`. -/
def Builder.initial (parser : Cursor) (lastIndex : Nat) : Builder :=
  { stack := [.mk .root none none none none none (some []) none]
    position := now parser
    searchLastIndex := lastIndex }

/-! ## The events of the tokenizer and `fromXml` -/

/-- An event of the tokenizer, named after the handler slot of `parser` it
calls, with the arguments the handler reads. -/
inductive Event where
  | doctype (value : Str)
  | sgmldeclaration
  | processinginstruction (name body : Str)
  | text (value : Str)
  | comment (value : Str)
  | opencdata
  | cdata (value : Str)
  | closecdata
  | opentag (name : Str) (attributes : List (Str × Str))
  | closetag
  | error (message : Str)
  deriving DecidableEq, Repr

/-- The wiring of `fromXml`: the handler each event calls (`onclosecdata` and
`onclosetag` are both `exit`), with the tokenizer as it stands at the event. -/
def handle (parser : Cursor) : Event → Builder → Result
  | .doctype value => ondoctype parser value
  | .sgmldeclaration => onsgmldeclaration parser
  | .processinginstruction name body => onprocessinginstruction parser name body
  | .text value => ontext parser value
  | .comment value => oncomment parser value
  | .opencdata => oncdataopen parser
  | .cdata value => oncdatavalue value
  | .closecdata => exit parser
  | .opentag name attributes => onopen parser name attributes
  | .closetag => exit parser
  | .error message => onerror parser message

/-- Source `parser.write(doc).close()`, seen from the handlers: the events of
the document in the order of their arrival, each with the tokenizer as it
stands then.  An exception of a handler ends the call. -/
def run : List (Cursor × Event) → Builder → Result
  | [], b => .ok b
  | (parser, event) :: rest, b => (handle parser event b).andThen (run rest)

/-- The nodes below an open node as the source holds them: each has the open
node above it as its last child already. -/
def adopt : Node → List Node → List Node
  | _, [] => []
  | child, parent :: below => parent.pushChild child :: adopt (parent.pushChild child) below

/-- The open-node stack as the source holds it, top first: there an entered
node is the last child of the node below it from `enter` on. -/
def sourceStack : List Node → List Node
  | [] => []
  | top :: rest => top :: adopt top rest

/-- Source `stack[0]`, `none` for `undefined`. -/
def Builder.root (b : Builder) : Option Node := (sourceStack b.stack).getLast?

/-- Source `fromXml(doc)`: the handlers start from `stack = [root]` and
`position = now()`, the events run, and `stack[0]` is returned.  The document
is given by the tokenizer `start` as it stands before the first character and
by the events it makes; `lastIndex` is what earlier calls have left in
`search.lastIndex`. -/
def fromXml (start : Cursor) (lastIndex : Nat) (events : List (Cursor × Event)) :
    Except Thrown (Option Node) :=
  match run events (Builder.initial start lastIndex) with
  | .ok b => .ok b.root
  | .thrown e _ => .error e

/-! ## Columns inside a doctype declaration, as the specification words them -/

/-- Following the specification ("the 1-based column immediately after the
offending character"): the doctype event fires when the tokenizer has read the
closing `>` of the declaration, so on a declaration written on one line the
clock column `parser.column + 1` is the column just after that `>`, the
end-of-input sentinel (`index = value.length`) stands for the `>` itself, and
the character at `index` of the body lies `value.length - index` columns before
it. -/
def columnAfter (parser : Cursor) (value : Str) (index : Nat) : Nat :=
  parser.column + 1 - (value.length - index)

/-! ## The end of a text, as the specification words it -/

/-- Following the specification: the number of line breaks of a text, its
leftmost non-overlapping occurrences of CRLF, LF or CR, read from the left; a
CRLF pair counts once. -/
def countBreaks : Str → Nat
  | [] => 0
  | [c] => if c = 10 ∨ c = 13 then 1 else 0
  | c :: d :: rest =>
    if c = 13 ∧ d = 10 then countBreaks rest + 1
    else if c = 10 ∨ c = 13 then countBreaks (d :: rest) + 1
    else countBreaks (d :: rest)

/-- Following the specification: the characters after the last line break, that
is the longest end of the text without LF and CR. -/
def afterLastBreak (v : Str) : Str :=
  (v.reverse.takeWhile fun c => c != 10 && c != 13).reverse

/-- Following the specification: the end of a text `v` that starts at `p`. The
offset advances by the length, the line by the number of line breaks, and the
column by the length when there is no line break and is otherwise one more than
the number of characters after the last line break. -/
def textEnd (p : Point) (v : Str) : Point :=
  { line := p.line + countBreaks v
    column := if countBreaks v = 0 then p.column + v.length else 1 + (afterLastBreak v).length
    offset := p.offset + v.length }

/-! ## The first line of a message, as the specification words it -/

/-- Following the specification ("the text before the first line break"): the
longest start of the message without LF and CR. -/
def firstLine (message : Str) : Str :=
  message.takeWhile fun c => c != 10 && c != 13

/-! ## Character sets, as the specification words them -/

/-- Following the specification: the XML `PubidChar` set as it is listed there,
space, CR, LF, a letter `a-z` or `A-Z`, a digit `0-9`, or one of
`- ' ( ) + , . / : = ? ; ! * # @ $ _ %` (in that order below). -/
def XmlPubidChar (c : Nat) : Prop :=
  c = 32 ∨ c = 13 ∨ c = 10 ∨ (97 ≤ c ∧ c ≤ 122) ∨ (65 ≤ c ∧ c ≤ 90) ∨ (48 ≤ c ∧ c ≤ 57) ∨
  c = 45 ∨ c = 39 ∨ c = 40 ∨ c = 41 ∨ c = 43 ∨ c = 44 ∨ c = 46 ∨ c = 47 ∨ c = 58 ∨
  c = 61 ∨ c = 63 ∨ c = 59 ∨ c = 33 ∨ c = 42 ∨ c = 35 ∨ c = 64 ∨ c = 36 ∨ c = 95 ∨ c = 37

instance (c : Nat) : Decidable (XmlPubidChar c) := by
  unfold XmlPubidChar
  infer_instance

/-- Following the specification: the XML `NameStartChar` production restricted
to the Basic Multilingual Plane. -/
def XmlNameStartChar (c : Nat) : Prop :=
  c = 58 ∨ (65 ≤ c ∧ c ≤ 90) ∨ c = 95 ∨ (97 ≤ c ∧ c ≤ 122) ∨ (0xC0 ≤ c ∧ c ≤ 0xD6) ∨
  (0xD8 ≤ c ∧ c ≤ 0xF6) ∨ (0xF8 ≤ c ∧ c ≤ 0x2FF) ∨ (0x370 ≤ c ∧ c ≤ 0x37D) ∨
  (0x37F ≤ c ∧ c ≤ 0x1FFF) ∨ (0x200C ≤ c ∧ c ≤ 0x200D) ∨ (0x2070 ≤ c ∧ c ≤ 0x218F) ∨
  (0x2C00 ≤ c ∧ c ≤ 0x2FEF) ∨ (0x3001 ≤ c ∧ c ≤ 0xD7FF) ∨ (0xF900 ≤ c ∧ c ≤ 0xFDCF) ∨
  (0xFDF0 ≤ c ∧ c ≤ 0xFFFD)

/-- Following the specification: what `isNameChar` takes besides the name-start
characters, `-`, `.`, a digit `0-9`, U+00B7, U+0300-036F or U+203F-2040. -/
def XmlNameExtraChar (c : Nat) : Prop :=
  c = 45 ∨ c = 46 ∨ (48 ≤ c ∧ c ≤ 57) ∨ c = 0xB7 ∨ (0x300 ≤ c ∧ c ≤ 0x36F) ∨
  (0x203F ≤ c ∧ c ≤ 0x2040)

/-- A surrogate code unit, one half of a character outside the Basic
Multilingual Plane. -/
def IsSurrogate (c : Nat) : Prop := 0xD800 ≤ c ∧ c ≤ 0xDFFF

instance (c : Nat) : Decidable (IsSurrogate c) := by
  unfold IsSurrogate
  infer_instance

/-! ## Where the loop of `ondoctype` stands -/

/-- The loop of `ondoctype` has run over a start of the body `value` without a
`fail`: it stands before the remainder `rest` and holds the variables `v`. -/
def Reading (value rest : Str) (v : Vars) : Prop :=
  ∃ index, index ≤ value.length ∧ value.drop index = rest ∧
    loop value index 0 Vars.initial = .ok v

/-! ## Kinds of events and their nesting -/

/-- The events that call `enter` alone: element-open and CDATA-open. -/
def Event.isEnter : Event → Bool
  | .opentag _ _ => true
  | .opencdata => true
  | _ => false

/-- The events that call `exit` alone: element-close and CDATA-close. -/
def Event.isExit : Event → Bool
  | .closetag => true
  | .closecdata => true
  | _ => false

/-- The leaf events, whose handlers call `enter` and `exit` together: doctype,
processing instruction, comment and text. -/
def Event.isLeaf : Event → Bool
  | .doctype _ => true
  | .processinginstruction _ _ => true
  | .comment _ => true
  | .text _ => true
  | _ => false

/-- Following the specification: the number of enter events that are not yet
closed after the events, counted from `depth`; `none` when an exit event comes
while no enter event is left to close. -/
def nesting : Nat → List (Cursor × Event) → Option Nat
  | depth, [] => some depth
  | depth, (_, event) :: rest =>
    if event.isEnter then nesting (depth + 1) rest
    else if event.isExit then
      match depth with
      | 0 => none
      | d + 1 => nesting d rest
    else nesting depth rest

/-- The builder a handler has reached, whether it has returned or thrown. -/
def Result.builder : Result → Builder
  | .ok b => b
  | .thrown _ b => b

/-- The stack is not empty, the node at its bottom is a root, which has no
position, and every node above it has a position. -/
def RootAtBottom (stack : List Node) : Prop :=
  ∃ above root, stack = above ++ [root] ∧ root.type = .root ∧ root.position = none ∧
    ∀ n ∈ above, n.position ≠ none

/-- What a handler leaves that the result of `fromXml` can depend on: the
exception, or the stack and the baseline (and not `search.lastIndex`). -/
def Result.visible : Result → Except Thrown (List Node × Point)
  | .ok b => .ok (b.stack, b.position)
  | .thrown e _ => .error e

/-! ## Trees, orders on points, and the clock against the baseline -/

/-- The children of a node; a node without `children` has none. -/
def Node.kids (n : Node) : List Node := n.children.getD []

/-- Node `m` lies in the tree under `n`: it is a child of `n` or lies under a
child of `n`. -/
inductive Descendant : Node → Node → Prop
  | child {n m : Node} : m ∈ n.kids → Descendant n m
  | deeper {n c m : Node} : c ∈ n.kids → Descendant c m → Descendant n m

/-- Order of two points by `offset`. -/
def offsetLe (p q : Point) : Bool := decide (p.offset ≤ q.offset)

/-- Document order of two points: by `line`, and by `column` on one line. -/
def lineColumnLe (p q : Point) : Bool :=
  decide (p.line < q.line ∨ (p.line = q.line ∧ p.column ≤ q.column))

/-- The clock is never behind the baseline, in the order `le`: through the run
of the events from the builder `b`, at every event handled the baseline
`position` is at most `now()`. -/
def ahead (le : Point → Point → Bool) : List (Cursor × Event) → Builder → Bool
  | [], _ => true
  | (parser, event) :: rest, b =>
    le b.position (now parser) &&
      match handle parser event b with
      | .ok b2 => ahead le rest b2
      | .thrown _ _ => true

/-- Node `x` starts no later than node `y` in the order `le`. -/
def StartsBefore (le : Point → Point → Bool) (x y : Node) : Prop :=
  ∀ px py, x.position = some px → y.position = some py → le px.start py.start = true

/-- The tree of a node is in order: every node of it that has an end starts
no later than it ends, every text node ends where `textEnd` says from its start
and value, and the children of every node have a position and start in the
order of the list. -/
inductive Ordered (le : Point → Point → Bool) : Node → Prop
  | mk {n : Node} :
      (∀ s e, n.position = some { start := s, «end» := some e } → le s e = true) →
      (n.type = .text → ∃ s value, n.value = some value ∧
        n.position = some { start := s, «end» := some (textEnd s value) }) →
      (∀ x ∈ n.kids, x.position ≠ none) →
      n.kids.Pairwise (StartsBefore le) →
      (∀ x ∈ n.kids, Ordered le x) → Ordered le n

/-- The tree of a node is sealed: the node and every node under it have
`position.start` and `position.end`. -/
inductive Sealed : Node → Prop
  | mk {n : Node} :
      (∃ s e, n.position = some { start := s, «end» := some e }) →
      (∀ x ∈ n.kids, Sealed x) → Sealed n

/-- An open node `frame` of the stack, against the point `q` that the next
node entered above or inside it starts from: its children satisfy `K`, start no
later than `q` and in the order of the list; it is no text node; and its
position, when it has one, has no end yet and starts no later than `q`. -/
def FrameOk (K : Node → Prop) (le : Point → Point → Bool) (q : Point) (frame : Node) : Prop :=
  (∀ x ∈ frame.kids, K x ∧ ∃ px, x.position = some px ∧ le px.start q = true) ∧
  frame.kids.Pairwise (StartsBefore le) ∧
  frame.type ≠ .text ∧
  ∀ pos, frame.position = some pos → pos.«end» = none ∧ le pos.start q = true

/-- The open-node stack against the baseline `q`: the top is a frame against
`q`, and every node below is a frame against the start of the node above it;
only the bottom node may be without position. -/
def Frames (K : Node → Prop) (le : Point → Point → Bool) : Point → List Node → Prop
  | _, [] => True
  | q, frame :: below =>
    FrameOk K le q frame ∧
      match frame.position with
      | some pos => Frames K le pos.start below
      | none => below = []

/-- Following the specification: the tokenizer's offsets never decrease from
one event to the next. -/
def offsetsNeverDecrease : List (Cursor × Event) → Bool
  | [] => true
  | [_] => true
  | a :: b :: rest => decide (a.1.position ≤ b.1.position) && offsetsNeverDecrease (b :: rest)

/-! ## The nodes entered under a node -/

/-- The nodes entered under the stack top.  `Entered top p li events ns top2 p2
li2`: the events, in which every enter event has its exit event, are handled
with `top` as the stack top from the baseline `p` and `search.lastIndex = li`;
`ns` lists, in the order of arrival, the nodes that are entered while `top` is
the stack top, each as it is when it is sealed; and `top2`, `p2`, `li2` are the
top, the baseline and `search.lastIndex` after the events.  A leaf event enters
its node; an enter event enters a node that stays the top through the events
`inner` up to its exit event, while the nodes `kids` are entered under it; a
CDATA chunk enters nothing. -/
inductive Entered :
    Node → Point → Nat → List (Cursor × Event) → List Node → Node → Point → Nat → Prop
  | done (top : Node) (p : Point) (li : Nat) : Entered top p li [] [] top p li
  | leaf {top top2 n : Node} {p p1 p2 : Point} {li li1 li2 : Nat} {parser : Cursor}
      {e : Event} {rest : List (Cursor × Event)} {ns : List Node} :
      e.isLeaf = true →
      handle parser e ⟨[top], p, li⟩ = .ok ⟨[top.pushChild n], p1, li1⟩ →
      Entered (top.pushChild n) p1 li1 rest ns top2 p2 li2 →
      Entered top p li ((parser, e) :: rest) (n :: ns) top2 p2 li2
  | chunk {top top1 top2 : Node} {p p2 : Point} {li li2 : Nat} {parser : Cursor}
      {value : Str} {rest : List (Cursor × Event)} {ns : List Node} :
      handle parser (.cdata value) ⟨[top], p, li⟩ = .ok ⟨[top1], p, li⟩ →
      Entered top1 p li rest ns top2 p2 li2 →
      Entered top p li ((parser, .cdata value) :: rest) ns top2 p2 li2
  | nested {top top2 node node1 : Node} {p p1 p2 p3 : Point} {li li1 li2 li3 : Nat}
      {parser close : Cursor} {e x : Event} {inner rest : List (Cursor × Event)}
      {kids ns : List Node} :
      e.isEnter = true → x.isExit = true →
      handle parser e ⟨[top], p, li⟩ = .ok ⟨[node, top], p1, li1⟩ →
      Entered node p1 li1 inner kids node1 p2 li2 →
      Entered (top.pushChild (node1.setEnd (now close))) (now close) li2 rest ns top2 p3 li3 →
      Entered top p li ((parser, e) :: (inner ++ (close, x) :: rest))
        (node1.setEnd (now close) :: ns) top2 p3 li3

/-- The result of a handler on a stack that has the nodes `below` under it. -/
def Result.onto (below : List Node) : Result → Result
  | .ok b => .ok { b with stack := b.stack ++ below }
  | .thrown e b => .thrown e { b with stack := b.stack ++ below }

/-- The nodes entered under the stack top by events that may leave enter
events open.  `EnteredOpen top p li events ns tree`: as in `Entered`, with
`tree` the node `top` after the events as the source holds it, where a node
that is still open is already the last child of the node below it.  Either
every enter event has its exit event; or, after events `seg` of that kind, an
enter event that is never closed enters a node, under which the events `rest`
enter nodes in turn, and which is the last of the nodes entered under `top`. -/
inductive EnteredOpen :
    Node → Point → Nat → List (Cursor × Event) → List Node → Node → Prop
  | closed {top top2 : Node} {p p2 : Point} {li li2 : Nat} {events : List (Cursor × Event)}
      {ns : List Node} :
      Entered top p li events ns top2 p2 li2 → EnteredOpen top p li events ns top2
  | leftOpen {top top1 node node2 : Node} {p p1 p2 : Point} {li li1 li2 : Nat}
      {parser : Cursor} {e : Event} {seg rest : List (Cursor × Event)} {ns kids : List Node} :
      Entered top p li seg ns top1 p1 li1 → e.isEnter = true →
      handle parser e ⟨[top1], p1, li1⟩ = .ok ⟨[node, top1], p2, li2⟩ →
      EnteredOpen node p2 li2 rest kids node2 →
      EnteredOpen top p li (seg ++ (parser, e) :: rest) (ns ++ [node2]) (top1.pushChild node2)

/-! # Statements and proofs -/

/-! ## Lemmas on the loop of `ondoctype` -/

theorem codeAt_eq_head (value : Str) (i : Nat) : codeAt value i = (value.drop i).head? := by
  unfold codeAt charCodeAt
  split
  · next h => subst h; simp
  · simp [List.head?_drop, List.get?_eq_getElem?]

theorem codeAt_of_drop_cons {value : Str} {i c : Nat} {w : Str} (h : value.drop i = c :: w) :
    codeAt value i = some c := by
  rw [codeAt_eq_head, h]; rfl

theorem codeAt_of_drop_nil {value : Str} {i : Nat} (h : value.drop i = []) :
    codeAt value i = none := by
  rw [codeAt_eq_head, h]; rfl

theorem drop_succ_of_drop_cons {value : Str} {i c : Nat} {w : Str} (h : value.drop i = c :: w) :
    value.drop (i + 1) = w := by
  rw [← List.drop_drop, h]; rfl

theorem drop_add_of_drop_append {value : Str} {i : Nat} {seg rest : Str}
    (h : value.drop i = seg ++ rest) : value.drop (i + seg.length) = rest := by
  rw [← List.drop_drop, h, List.drop_left]

theorem spaceClass_iff (u : Nat) : spaceClass u = true ↔ u = 9 ∨ u = 10 ∨ u = 13 ∨ u = 32 := by
  simp [spaceClass, or_assoc]

/-- On a UTF-16 code unit, `isSpace` holds for tab, LF, CR and space only. -/
theorem isSpace_iff_of_unit {c : Nat} (hc : c < 65536) :
    isSpace (some c) = true ↔ c = 9 ∨ c = 10 ∨ c = 13 ∨ c = 32 := by
  simp only [isSpace, fromCharCode, Nat.mod_eq_of_lt hc, spaceClass_iff]

theorem isSpace_not_nameChar {c : Nat} (h : isSpace (some c) = true) :
    isNameChar (some c) = false := by
  simp only [isSpace, spaceClass_iff] at h
  simp only [isNameChar, isNameStartChar]
  rcases h with h | h | h | h <;> rw [h] <;> decide

theorem isSpace_not_nameStartChar {c : Nat} (h : isSpace (some c) = true) :
    isNameStartChar (some c) = false := by
  have := isSpace_not_nameChar h
  simp only [isNameChar, Bool.or_eq_false_iff] at this
  exact this.1

theorem isSpace_not_quote {c : Nat} (h : isSpace (some c) = true) : c ≠ 34 ∧ c ≠ 39 := by
  constructor <;> rintro rfl <;> revert h <;> decide

/-- One iteration on a character that the state machine takes. -/
theorem loop_cons_ok {value : Str} {i : Nat} {v v2 : Vars} (n : Nat)
    (h : step value i v = .ok v2) : loop value (n + 1) i v = loop value n (i + 1) v2 := by
  simp only [loop, h]

/-- One iteration on a character that the state machine refuses. -/
theorem loop_cons_fails {value : Str} {i : Nat} {v r : Vars} (n : Nat)
    (h : ∀ v2, step value i v ≠ .ok v2) : loop value (n + 1) i v ≠ .ok r := by
  simp only [loop]
  cases hs : step value i v with
  | error e => simp
  | ok v2 => exact absurd hs (h v2)

/-- The last iteration, on the end-of-input sentinel. -/
theorem loop_one {value : Str} {i : Nat} (v : Vars) : loop value 1 i v = step value i v := by
  simp only [loop]
  cases step value i v <;> rfl

/-- A run of characters on which the state stays as it is, is skipped. -/
theorem loop_skip {value : Str} {v : Vars} (P : Nat → Prop)
    (hstay : ∀ j c, codeAt value j = some c → P c → step value j v = .ok v) :
    ∀ (seg rest : Str) (i : Nat), value.drop i = seg ++ rest → (∀ c ∈ seg, P c) →
      loop value ((seg ++ rest).length + 1) i v =
        loop value (rest.length + 1) (i + seg.length) v := by
  intro seg
  induction seg with
  | nil => intro rest i _ _; rfl
  | cons c seg ih =>
    intro rest i hw hP
    rw [List.cons_append, List.length_cons,
      loop_cons_ok _ (hstay i c (codeAt_of_drop_cons hw) (hP c (List.mem_cons_self _ _))),
      ih rest (i + 1) (drop_succ_of_drop_cons hw) (fun d hd => hP d (List.mem_cons_of_mem _ hd))]
    simp only [List.length_cons]
    congr 1
    omega

/-- Every string splits into its longest run of characters with `p` and a rest
that is empty or starts with a character without `p`. -/
theorem split_run (p : Nat → Bool) (w : Str) :
    ∃ seg rest, w = seg ++ rest ∧ (∀ c ∈ seg, p c = true) ∧
      (rest = [] ∨ ∃ c rest2, rest = c :: rest2 ∧ p c = false) := by
  refine ⟨w.takeWhile p, w.dropWhile p, (List.takeWhile_append_dropWhile p w).symm,
    fun c hc => List.mem_takeWhile_imp hc, ?_⟩
  cases h : w.dropWhile p with
  | nil => exact Or.inl rfl
  | cons c rest =>
    refine Or.inr ⟨c, rest, rfl, ?_⟩
    have := List.head?_dropWhile_not p w
    rw [h] at this
    simpa using this

/-- In the states that skip whitespace, a whitespace character changes nothing. -/
theorem stay_space (value : Str) {v : Vars}
    (hq : v.state = State.BEFORE_NAME ∨ v.state = State.AFTER_NAME ∨
      v.state = State.BEFORE_PUBLIC_LITERAL ∨ v.state = State.BEFORE_SYSTEM_LITERAL ∨
      v.state = State.AFTER_SYSTEM_LITERAL) :
    ∀ j c, codeAt value j = some c → isSpace (some c) = true → step value j v = .ok v := by
  intro j c hc hs
  rcases hq with hq | hq | hq | hq | hq <;> simp [step, hq, hc, hs]

/-- State `AFTER_SYSTEM_LITERAL`: only whitespace up to the end. -/
theorem phase_AFTER_SYSTEM_LITERAL {value : Str} {v : Vars} {i : Nat} {w : Str}
    (hw : value.drop i = w) (hq : v.state = State.AFTER_SYSTEM_LITERAL) (r : Vars) :
    loop value (w.length + 1) i v = .ok r ↔ Spaces w ∧ r = v := by
  have hstay := stay_space value (Or.inr (Or.inr (Or.inr (Or.inr hq))))
  constructor
  · intro h
    obtain ⟨seg, rest, rfl, hseg, hrest⟩ := split_run (fun c => isSpace (some c)) w
    rw [loop_skip _ hstay _ _ i hw hseg] at h
    have hw2 := drop_add_of_drop_append hw
    rcases hrest with rfl | ⟨c, rest, rfl, hns⟩
    · rw [List.length_nil, loop_one] at h
      simp [step, hq, codeAt_of_drop_nil hw2] at h
      exact ⟨by simpa using hseg, h.symm⟩
    · exfalso
      refine loop_cons_fails _ (fun v2 => ?_) h
      simp [step, hq, codeAt_of_drop_cons hw2, hns]
      split_ifs <;> simp
  · rintro ⟨hs, rfl⟩
    have hw0 : value.drop i = w ++ [] := by simpa using hw
    have := loop_skip _ hstay w [] i hw0 hs
    simp only [List.append_nil] at this
    rw [this, List.length_nil, loop_one]
    simp [step, hq, codeAt_of_drop_nil (drop_add_of_drop_append hw0)]

/-- State `IN_SYSTEM_LITERAL`: anything up to the first `marker`, which closes the
literal. -/
theorem phase_IN_SYSTEM_LITERAL {value : Str} {v : Vars} {i m : Nat} {w : Str}
    (hw : value.drop i = w) (hq : v.state = State.IN_SYSTEM_LITERAL)
    (hm : v.marker = some m) (r : Vars) :
    loop value (w.length + 1) i v = .ok r ↔
      ∃ body rest, w = body ++ m :: rest ∧ m ∉ body ∧
        loop value (rest.length + 1) (i + body.length + 1)
          { v with state := State.AFTER_SYSTEM_LITERAL,
                   node := { v.node with system := some (slice value v.start (i + body.length)) } }
          = .ok r := by
  have hstay : ∀ j c, codeAt value j = some c → c ≠ m → step value j v = .ok v := by
    intro j c hc hne
    simp [step, strictEq, hq, hc, hm, hne]
  constructor
  · intro h
    obtain ⟨seg, rest, rfl, hseg, hrest⟩ := split_run (fun c => decide (c ≠ m)) w
    have hseg2 : ∀ c ∈ seg, c ≠ m := fun c hc => by simpa using hseg c hc
    rw [loop_skip _ hstay _ _ i hw hseg2] at h
    have hw2 := drop_add_of_drop_append hw
    rcases hrest with rfl | ⟨c, rest, rfl, hns⟩
    · exfalso
      rw [List.length_nil, loop_one] at h
      simp [step, strictEq, hq, codeAt_of_drop_nil hw2] at h
    · have hcm : c = m := by simpa using hns
      subst hcm
      have hstep : step value (i + seg.length) v = .ok
          { v with state := State.AFTER_SYSTEM_LITERAL,
                   node := { v.node with
                     system := some (slice value v.start (i + seg.length)) } } := by
        simp [step, strictEq, hq, codeAt_of_drop_cons hw2, hm]
      rw [List.length_cons, loop_cons_ok _ hstep] at h
      exact ⟨seg, rest, rfl, fun hmem => hseg2 c hmem rfl, h⟩
  · rintro ⟨body, rest, rfl, hnot, h⟩
    have hseg2 : ∀ c ∈ body, c ≠ m := fun c hc hcm => hnot (hcm ▸ hc)
    rw [loop_skip _ hstay _ _ i hw hseg2]
    have hw2 := drop_add_of_drop_append hw
    have hstep : step value (i + body.length) v = .ok
        { v with state := State.AFTER_SYSTEM_LITERAL,
                 node := { v.node with
                   system := some (slice value v.start (i + body.length)) } } := by
      simp [step, strictEq, hq, codeAt_of_drop_cons hw2, hm]
    rw [List.length_cons, loop_cons_ok _ hstep]
    exact h

/-- The states that ask for one whitespace character and move on. -/
theorem phase_one_space {value : Str} {v next : Vars} {i : Nat} {w : Str}
    (hw : value.drop i = w)
    (hyes : ∀ c, codeAt value i = some c → isSpace (some c) = true → step value i v = .ok next)
    (hno : ∀ code, codeAt value i = code → isSpace code = false → ∀ v2, step value i v ≠ .ok v2)
    (r : Vars) :
    loop value (w.length + 1) i v = .ok r ↔
      ∃ c rest, w = c :: rest ∧ isSpace (some c) = true ∧
        loop value (rest.length + 1) (i + 1) next = .ok r := by
  constructor
  · intro h
    cases w with
    | nil => exact absurd h (loop_cons_fails _ (hno none (codeAt_of_drop_nil hw) rfl))
    | cons c rest =>
      cases hs : isSpace (some c) with
      | false => exact absurd h (loop_cons_fails _ (hno _ (codeAt_of_drop_cons hw) hs))
      | true =>
        rw [List.length_cons, loop_cons_ok _ (hyes c (codeAt_of_drop_cons hw) hs)] at h
        exact ⟨c, rest, rfl, hs, h⟩
  · rintro ⟨c, rest, rfl, hs, h⟩
    rw [List.length_cons, loop_cons_ok _ (hyes c (codeAt_of_drop_cons hw) hs)]
    exact h

/-- State `BEGIN`. -/
theorem phase_BEGIN {value : Str} {v : Vars} {i : Nat} {w : Str}
    (hw : value.drop i = w) (hq : v.state = State.BEGIN) (r : Vars) :
    loop value (w.length + 1) i v = .ok r ↔
      ∃ c rest, w = c :: rest ∧ isSpace (some c) = true ∧
        loop value (rest.length + 1) (i + 1) { v with state := State.BEFORE_NAME } = .ok r :=
  phase_one_space hw (fun c hc hs => by simp [step, hq, hc, hs])
    (fun code hc hs v2 => by simp [step, hq, hc, hs]) r

/-- State `AFTER_PUBLIC`. -/
theorem phase_AFTER_PUBLIC {value : Str} {v : Vars} {i : Nat} {w : Str}
    (hw : value.drop i = w) (hq : v.state = State.AFTER_PUBLIC) (r : Vars) :
    loop value (w.length + 1) i v = .ok r ↔
      ∃ c rest, w = c :: rest ∧ isSpace (some c) = true ∧
        loop value (rest.length + 1) (i + 1)
          { v with state := State.BEFORE_PUBLIC_LITERAL } = .ok r :=
  phase_one_space hw (fun c hc hs => by simp [step, hq, hc, hs])
    (fun code hc hs v2 => by simp [step, hq, hc, hs]) r

/-- State `AFTER_SYSTEM`. -/
theorem phase_AFTER_SYSTEM {value : Str} {v : Vars} {i : Nat} {w : Str}
    (hw : value.drop i = w) (hq : v.state = State.AFTER_SYSTEM) (r : Vars) :
    loop value (w.length + 1) i v = .ok r ↔
      ∃ c rest, w = c :: rest ∧ isSpace (some c) = true ∧
        loop value (rest.length + 1) (i + 1)
          { v with state := State.BEFORE_SYSTEM_LITERAL } = .ok r :=
  phase_one_space hw (fun c hc hs => by simp [step, hq, hc, hs])
    (fun code hc hs v2 => by simp [step, hq, hc, hs]) r

/-- State `AFTER_PUBLIC_LITERAL`. -/
theorem phase_AFTER_PUBLIC_LITERAL {value : Str} {v : Vars} {i : Nat} {w : Str}
    (hw : value.drop i = w) (hq : v.state = State.AFTER_PUBLIC_LITERAL) (r : Vars) :
    loop value (w.length + 1) i v = .ok r ↔
      ∃ c rest, w = c :: rest ∧ isSpace (some c) = true ∧
        loop value (rest.length + 1) (i + 1)
          { v with state := State.BEFORE_SYSTEM_LITERAL } = .ok r :=
  phase_one_space hw (fun c hc hs => by simp [step, hq, hc, hs])
    (fun code hc hs v2 => by simp [step, hq, hc, hs]) r

theorem isQuote_not_space {q : Nat} (hq : IsQuote q) : isSpace (some q) = false := by
  rcases hq with rfl | rfl <;> decide

/-- The states before a literal: whitespace, then the opening quote or
apostrophe. -/
theorem phase_before_literal {value : Str} {v : Vars} {i : Nat} {w : Str} (next : State)
    (hw : value.drop i = w)
    (hstay : ∀ j c, codeAt value j = some c → isSpace (some c) = true → step value j v = .ok v)
    (hyes : ∀ j q, codeAt value j = some q → IsQuote q → step value j v =
      .ok { v with state := next, start := some (j + 1), marker := some q })
    (hno : ∀ j code, codeAt value j = code → isSpace code = false →
      (∀ q, IsQuote q → code ≠ some q) → ∀ v2, step value j v ≠ .ok v2)
    (r : Vars) :
    loop value (w.length + 1) i v = .ok r ↔
      ∃ s q rest, w = s ++ q :: rest ∧ Spaces s ∧ IsQuote q ∧
        loop value (rest.length + 1) (i + s.length + 1)
          { v with state := next, start := some (i + s.length + 1), marker := some q }
          = .ok r := by
  constructor
  · intro h
    obtain ⟨seg, rest, rfl, hseg, hrest⟩ := split_run (fun c => isSpace (some c)) w
    rw [loop_skip _ hstay _ _ i hw hseg] at h
    have hw2 := drop_add_of_drop_append hw
    rcases hrest with rfl | ⟨c, rest, rfl, hns⟩
    · exact absurd h (loop_cons_fails _ (hno _ none (codeAt_of_drop_nil hw2) rfl
        (fun q _ => by simp)))
    · by_cases hcq : IsQuote c
      · rw [List.length_cons, loop_cons_ok _ (hyes _ c (codeAt_of_drop_cons hw2) hcq)] at h
        exact ⟨seg, c, rest, rfl, hseg, hcq, h⟩
      · exact absurd h (loop_cons_fails _ (hno _ _ (codeAt_of_drop_cons hw2) hns
          (fun q hq hc => hcq (by cases hc; exact hq))))
  · rintro ⟨s, q, rest, rfl, hs, hqq, h⟩
    rw [loop_skip _ hstay _ _ i hw hs]
    have hw2 := drop_add_of_drop_append hw
    rw [List.length_cons, loop_cons_ok _ (hyes _ q (codeAt_of_drop_cons hw2) hqq)]
    exact h

/-- State `BEFORE_SYSTEM_LITERAL`. -/
theorem phase_BEFORE_SYSTEM_LITERAL {value : Str} {v : Vars} {i : Nat} {w : Str}
    (hw : value.drop i = w) (hq : v.state = State.BEFORE_SYSTEM_LITERAL) (r : Vars) :
    loop value (w.length + 1) i v = .ok r ↔
      ∃ s q rest, w = s ++ q :: rest ∧ Spaces s ∧ IsQuote q ∧
        loop value (rest.length + 1) (i + s.length + 1)
          { v with state := State.IN_SYSTEM_LITERAL, start := some (i + s.length + 1),
                   marker := some q } = .ok r := by
  refine phase_before_literal _ hw (stay_space value (Or.inr (Or.inr (Or.inr (Or.inl hq))))) ?_ ?_ r
  · intro j q hc hqq
    have hns := isQuote_not_space hqq
    rcases hqq with rfl | rfl <;> simp [step, hq, hc, hns]
  · intro j code hc hs hnq v2
    have h1 : (code == some 34) = false := by simpa using hnq 34 (Or.inl rfl)
    have h2 : (code == some 39) = false := by simpa using hnq 39 (Or.inr rfl)
    simp [step, hq, hc, hs, h1, h2]

/-- State `BEFORE_PUBLIC_LITERAL`. -/
theorem phase_BEFORE_PUBLIC_LITERAL {value : Str} {v : Vars} {i : Nat} {w : Str}
    (hw : value.drop i = w) (hq : v.state = State.BEFORE_PUBLIC_LITERAL) (r : Vars) :
    loop value (w.length + 1) i v = .ok r ↔
      ∃ s q rest, w = s ++ q :: rest ∧ Spaces s ∧ IsQuote q ∧
        loop value (rest.length + 1) (i + s.length + 1)
          { v with state := State.IN_PUBLIC_LITERAL, start := some (i + s.length + 1),
                   marker := some q } = .ok r := by
  refine phase_before_literal _ hw (stay_space value (Or.inr (Or.inr (Or.inl hq)))) ?_ ?_ r
  · intro j q hc hqq
    have hns := isQuote_not_space hqq
    rcases hqq with rfl | rfl <;> simp [step, hq, hc, hns]
  · intro j code hc hs hnq v2
    have h1 : (code == some 34) = false := by simpa using hnq 34 (Or.inl rfl)
    have h2 : (code == some 39) = false := by simpa using hnq 39 (Or.inr rfl)
    simp [step, hq, hc, hs, h1, h2]

/-- State `IN_PUBLIC_LITERAL`: pubid characters up to the first `marker`, which
closes the literal. -/
theorem phase_IN_PUBLIC_LITERAL {value : Str} {v : Vars} {i m : Nat} {w : Str}
    (hw : value.drop i = w) (hq : v.state = State.IN_PUBLIC_LITERAL)
    (hm : v.marker = some m) (r : Vars) :
    loop value (w.length + 1) i v = .ok r ↔
      ∃ body rest, w = body ++ m :: rest ∧
        (∀ c ∈ body, isPubidChar (some c) = true ∧ c ≠ m) ∧
        loop value (rest.length + 1) (i + body.length + 1)
          { v with state := State.AFTER_PUBLIC_LITERAL,
                   node := { v.node with
                     «public» := some (slice value v.start (i + body.length)) } }
          = .ok r := by
  have hstay : ∀ j c, codeAt value j = some c → (isPubidChar (some c) = true ∧ c ≠ m) →
      step value j v = .ok v := by
    intro j c hc hne
    simp [step, strictEq, hq, hc, hm, hne.1, hne.2]
  have hclose : ∀ j, codeAt value j = some m → step value j v = .ok
      { v with state := State.AFTER_PUBLIC_LITERAL,
               node := { v.node with «public» := some (slice value v.start j) } } := by
    intro j hc
    simp [step, strictEq, hq, hc, hm]
  constructor
  · intro h
    obtain ⟨seg, rest, rfl, hseg, hrest⟩ :=
      split_run (fun c => isPubidChar (some c) && decide (c ≠ m)) w
    have hseg2 : ∀ c ∈ seg, isPubidChar (some c) = true ∧ c ≠ m :=
      fun c hc => by simpa using hseg c hc
    rw [loop_skip _ hstay _ _ i hw hseg2] at h
    have hw2 := drop_add_of_drop_append hw
    rcases hrest with rfl | ⟨c, rest, rfl, hns⟩
    · exfalso
      rw [List.length_nil, loop_one] at h
      simp [step, strictEq, hq, codeAt_of_drop_nil hw2, hm, isPubidChar] at h
    · by_cases hcm : c = m
      · subst hcm
        rw [List.length_cons, loop_cons_ok _ (hclose _ (codeAt_of_drop_cons hw2))] at h
        exact ⟨seg, rest, rfl, hseg2, h⟩
      · exfalso
        have hnp : isPubidChar (some c) = false := by simpa [hcm] using hns
        refine loop_cons_fails _ (fun v2 => ?_) h
        simp [step, strictEq, hq, codeAt_of_drop_cons hw2, hm, hcm, hnp]
  · rintro ⟨body, rest, rfl, hbody, h⟩
    rw [loop_skip _ hstay _ _ i hw hbody]
    have hw2 := drop_add_of_drop_append hw
    rw [List.length_cons, loop_cons_ok _ (hclose _ (codeAt_of_drop_cons hw2))]
    exact h

/-- State `BEFORE_NAME`: whitespace, then the first character of the name. -/
theorem phase_BEFORE_NAME {value : Str} {v : Vars} {i : Nat} {w : Str}
    (hw : value.drop i = w) (hq : v.state = State.BEFORE_NAME) (r : Vars) :
    loop value (w.length + 1) i v = .ok r ↔
      ∃ s c rest, w = s ++ c :: rest ∧ Spaces s ∧ isNameStartChar (some c) = true ∧
        loop value (rest.length + 1) (i + s.length + 1)
          { v with state := State.IN_NAME, start := some (i + s.length) } = .ok r := by
  have hstay := stay_space value (Or.inl hq)
  have hyes : ∀ j c, codeAt value j = some c → isNameStartChar (some c) = true →
      step value j v = .ok { v with state := State.IN_NAME, start := some j } := by
    intro j c hc hn
    have hns : isSpace (some c) = false := by
      cases hs : isSpace (some c) with
      | false => rfl
      | true => rw [isSpace_not_nameStartChar hs] at hn; cases hn
    simp [step, hq, hc, hn, hns]
  constructor
  · intro h
    obtain ⟨seg, rest, rfl, hseg, hrest⟩ := split_run (fun c => isSpace (some c)) w
    rw [loop_skip _ hstay _ _ i hw hseg] at h
    have hw2 := drop_add_of_drop_append hw
    rcases hrest with rfl | ⟨c, rest, rfl, hns⟩
    · exfalso
      rw [List.length_nil, loop_one] at h
      simp [step, hq, codeAt_of_drop_nil hw2, isSpace, isNameStartChar] at h
    · cases hn : isNameStartChar (some c) with
      | false =>
        exfalso
        refine loop_cons_fails _ (fun v2 => ?_) h
        simp [step, hq, codeAt_of_drop_cons hw2, hns, hn]
      | true =>
        rw [List.length_cons, loop_cons_ok _ (hyes _ c (codeAt_of_drop_cons hw2) hn)] at h
        exact ⟨seg, c, rest, rfl, hseg, hn, h⟩
  · rintro ⟨s, c, rest, rfl, hs, hn, h⟩
    rw [loop_skip _ hstay _ _ i hw hs]
    have hw2 := drop_add_of_drop_append hw
    rw [List.length_cons, loop_cons_ok _ (hyes _ c (codeAt_of_drop_cons hw2) hn)]
    exact h

/-- State `IN_NAME`: name characters, then the end of the input or one whitespace
character; either closes the name. -/
theorem phase_IN_NAME {value : Str} {v : Vars} {i : Nat} {w : Str}
    (hw : value.drop i = w) (hq : v.state = State.IN_NAME) (r : Vars) :
    loop value (w.length + 1) i v = .ok r ↔
      ∃ n rest, w = n ++ rest ∧ (∀ d ∈ n, isNameChar (some d) = true) ∧
        ((rest = [] ∧
            r = { v with state := State.AFTER_NAME,
                         node := { v.node with name := slice value v.start (i + n.length) } }) ∨
          ∃ c rest2, rest = c :: rest2 ∧ isSpace (some c) = true ∧
            loop value (rest2.length + 1) (i + n.length + 1)
              { v with state := State.AFTER_NAME,
                       node := { v.node with name := slice value v.start (i + n.length) } }
              = .ok r) := by
  have hstay : ∀ j c, codeAt value j = some c → isNameChar (some c) = true →
      step value j v = .ok v := by
    intro j c hc hn
    simp [step, hq, hc, hn]
  have hend : ∀ j, codeAt value j = none → step value j v = .ok
      { v with state := State.AFTER_NAME,
               node := { v.node with name := slice value v.start j } } := by
    intro j hc
    simp [step, hq, hc, isNameChar]
  have hspace : ∀ j c, codeAt value j = some c → isSpace (some c) = true →
      step value j v = .ok
        { v with state := State.AFTER_NAME,
                 node := { v.node with name := slice value v.start j } } := by
    intro j c hc hs
    simp [step, hq, hc, hs, isSpace_not_nameChar hs]
  constructor
  · intro h
    obtain ⟨seg, rest, rfl, hseg, hrest⟩ := split_run (fun c => isNameChar (some c)) w
    rw [loop_skip _ hstay _ _ i hw hseg] at h
    have hw2 := drop_add_of_drop_append hw
    rcases hrest with rfl | ⟨c, rest, rfl, hnn⟩
    · rw [List.length_nil, loop_one, hend _ (codeAt_of_drop_nil hw2)] at h
      exact ⟨seg, [], rfl, hseg, Or.inl ⟨rfl, (Except.ok.inj h).symm⟩⟩
    · cases hs : isSpace (some c) with
      | false =>
        exfalso
        refine loop_cons_fails _ (fun v2 => ?_) h
        simp [step, hq, codeAt_of_drop_cons hw2, hnn, hs]
        split_ifs <;> simp
      | true =>
        rw [List.length_cons, loop_cons_ok _ (hspace _ c (codeAt_of_drop_cons hw2) hs)] at h
        exact ⟨seg, c :: rest, rfl, hseg, Or.inr ⟨c, rest, rfl, hs, h⟩⟩
  · rintro ⟨n, rest, rfl, hn, hrest⟩
    rw [loop_skip _ hstay _ _ i hw hn]
    have hw2 := drop_add_of_drop_append hw
    rcases hrest with ⟨rfl, rfl⟩ | ⟨c, rest2, rfl, hs, h⟩
    · rw [List.length_nil, loop_one, hend _ (codeAt_of_drop_nil hw2)]
    · rw [List.length_cons, loop_cons_ok _ (hspace _ c (codeAt_of_drop_cons hw2) hs)]
      exact h

/-- State `AFTER_NAME`: whitespace, then the end of the input, `P` or `S`. -/
theorem phase_AFTER_NAME {value : Str} {v : Vars} {i : Nat} {w : Str}
    (hw : value.drop i = w) (hq : v.state = State.AFTER_NAME) (r : Vars) :
    loop value (w.length + 1) i v = .ok r ↔
      ∃ s rest, w = s ++ rest ∧ Spaces s ∧
        ((rest = [] ∧ r = v) ∨
          (∃ rest2, rest = 80 :: rest2 ∧
            loop value (rest2.length + 1) (i + s.length + 1)
              { v with state := State.IN_EID, returnState := some State.AFTER_PUBLIC,
                       buffer := some (lit "PUBLIC"), bufferIndex := some 0 } = .ok r) ∨
          (∃ rest2, rest = 83 :: rest2 ∧
            loop value (rest2.length + 1) (i + s.length + 1)
              { v with state := State.IN_EID, returnState := some State.AFTER_SYSTEM,
                       buffer := some (lit "SYSTEM"), bufferIndex := some 0 } = .ok r)) := by
  have hstay := stay_space value (Or.inr (Or.inl hq))
  have hend : ∀ j, codeAt value j = none → step value j v = .ok v := by
    intro j hc
    simp [step, hq, hc]
  have hP : ∀ j, codeAt value j = some 80 → step value j v = .ok
      { v with state := State.IN_EID, returnState := some State.AFTER_PUBLIC,
               buffer := some (lit "PUBLIC"), bufferIndex := some 0 } := by
    intro j hc
    have : isSpace (some 80) = false := by decide
    simp [step, hq, hc, this]
  have hS : ∀ j, codeAt value j = some 83 → step value j v = .ok
      { v with state := State.IN_EID, returnState := some State.AFTER_SYSTEM,
               buffer := some (lit "SYSTEM"), bufferIndex := some 0 } := by
    intro j hc
    have : isSpace (some 83) = false := by decide
    simp [step, hq, hc, this]
  constructor
  · intro h
    obtain ⟨seg, rest, rfl, hseg, hrest⟩ := split_run (fun c => isSpace (some c)) w
    rw [loop_skip _ hstay _ _ i hw hseg] at h
    have hw2 := drop_add_of_drop_append hw
    rcases hrest with rfl | ⟨c, rest, rfl, hns⟩
    · rw [List.length_nil, loop_one, hend _ (codeAt_of_drop_nil hw2)] at h
      exact ⟨seg, [], rfl, hseg, Or.inl ⟨rfl, (Except.ok.inj h).symm⟩⟩
    · by_cases h80 : c = 80
      · subst h80
        rw [List.length_cons, loop_cons_ok _ (hP _ (codeAt_of_drop_cons hw2))] at h
        exact ⟨seg, _, rfl, hseg, Or.inr (Or.inl ⟨rest, rfl, h⟩)⟩
      · by_cases h83 : c = 83
        · subst h83
          rw [List.length_cons, loop_cons_ok _ (hS _ (codeAt_of_drop_cons hw2))] at h
          exact ⟨seg, _, rfl, hseg, Or.inr (Or.inr ⟨rest, rfl, h⟩)⟩
        · exfalso
          refine loop_cons_fails _ (fun v2 => ?_) h
          simp [step, hq, codeAt_of_drop_cons hw2, hns, h80, h83]
          split_ifs <;> simp
  · rintro ⟨s, rest, rfl, hs, hrest⟩
    rw [loop_skip _ hstay _ _ i hw hs]
    have hw2 := drop_add_of_drop_append hw
    rcases hrest with ⟨rfl, rfl⟩ | ⟨rest2, rfl, h⟩ | ⟨rest2, rfl, h⟩
    · rw [List.length_nil, loop_one, hend _ (codeAt_of_drop_nil hw2)]
    · rw [List.length_cons, loop_cons_ok _ (hP _ (codeAt_of_drop_cons hw2))]
      exact h
    · rw [List.length_cons, loop_cons_ok _ (hS _ (codeAt_of_drop_cons hw2))]
      exact h

/-- State `IN_EID`: the rest of the keyword in `buffer`, character by character. -/
theorem phase_IN_EID {value : Str} (rs : State) (buf : Str) :
    ∀ (rem : Str) (i bi : Nat) (v : Vars) (w : Str), value.drop i = w →
      v.state = State.IN_EID → v.returnState = some rs → v.buffer = some buf →
      v.bufferIndex = some bi → buf.drop (bi + 1) = rem → rem ≠ [] → ∀ r,
      (loop value (w.length + 1) i v = .ok r ↔
        ∃ rest, w = rem ++ rest ∧
          loop value (rest.length + 1) (i + rem.length)
            { v with bufferIndex := some (buf.length - 1), state := rs } = .ok r) := by
  intro rem
  induction rem with
  | nil => intro i bi v w _ _ _ _ _ _ hne; exact absurd rfl hne
  | cons b rem ih =>
    intro i bi v w hw hq hrs hbuf hbi hdrop _ r
    have hb : charCodeAt buf (bi + 1) = some b := by
      have := List.head?_drop buf (bi + 1)
      rw [hdrop] at this
      simp only [charCodeAt, List.get?_eq_getElem?]
      exact this.symm
    have hbne : buf ≠ [] := by
      rintro rfl
      simp at hdrop
    have hlen : buf.length - 1 = bi + 1 + rem.length := by
      have := congrArg List.length hdrop
      simp only [List.length_drop, List.length_cons] at this
      omega
    cases w with
    | nil =>
      constructor
      · intro h
        exfalso
        refine loop_cons_fails _ (fun v2 => ?_) h
        simp [step, hq, hrs, hbuf, hbi, codeAt_of_drop_nil hw, strictEq]
      · rintro ⟨rest, hrest, _⟩
        simp at hrest
    | cons c w =>
      by_cases hcb : c = b
      · subst hcb
        cases rem with
        | nil =>
          have hstep : step value i v = .ok
              { v with bufferIndex := some (buf.length - 1), state := rs } := by
            have h1 : bi + 1 = buf.length - 1 := by simpa using hlen.symm
            simp [step, hq, hrs, hbuf, hbi, codeAt_of_drop_cons hw, strictEq, hb, hbne, ← h1]
          rw [List.length_cons, loop_cons_ok _ hstep]
          constructor
          · intro h
            exact ⟨w, rfl, h⟩
          · rintro ⟨rest, hrest, h⟩
            simp only [List.singleton_append, List.cons.injEq, true_and] at hrest
            subst hrest
            exact h
        | cons b2 rem =>
          have hstep : step value i v = .ok { v with bufferIndex := some (bi + 1) } := by
            have h1 : ¬ bi + 1 = buf.length - 1 := by
              simp only [List.length_cons] at hlen; omega
            simp [step, hq, hrs, hbuf, hbi, codeAt_of_drop_cons hw, strictEq, hb, hbne, h1]
          rw [List.length_cons, loop_cons_ok _ hstep]
          have := ih (i + 1) (bi + 1) { v with bufferIndex := some (bi + 1) } w
            (drop_succ_of_drop_cons hw) hq hrs hbuf rfl (drop_succ_of_drop_cons hdrop)
            (by simp) r
          rw [this]
          constructor
          · rintro ⟨rest, rfl, h⟩
            refine ⟨rest, rfl, ?_⟩
            have e : i + 1 + (b2 :: rem).length = i + (c :: b2 :: rem).length := by
              simp only [List.length_cons]; omega
            rw [← e]
            exact h
          · rintro ⟨rest, hrest, h⟩
            simp only [List.cons_append, List.cons.injEq, true_and] at hrest
            subst hrest
            refine ⟨rest, rfl, ?_⟩
            have e : i + 1 + (b2 :: rem).length = i + (c :: b2 :: rem).length := by
              simp only [List.length_cons]; omega
            rw [e]
            exact h
      · constructor
        · intro h
          exfalso
          refine loop_cons_fails _ (fun v2 => ?_) h
          simp [step, hq, hrs, hbuf, hbi, codeAt_of_drop_cons hw, strictEq, hb, hcb]
        · rintro ⟨rest, hrest, _⟩
          simp only [List.cons_append, List.cons.injEq] at hrest
          exact absurd hrest.1 hcb

/-! ## Lemmas on the tree builder -/

theorem modifyLast_append_singleton (f : Node → Node) (cs : List Node) (n : Node) :
    modifyLast f (cs ++ [n]) = cs ++ [f n] := by
  induction cs with
  | nil => rfl
  | cons a cs ih =>
    cases cs with
    | nil => rfl
    | cons c cs =>
      simp only [List.cons_append, modifyLast] at ih ⊢
      exact congrArg _ ih

/-- What `enter(node)`, `exit()` and the corrected end do to a builder whose
stack top has children: the node, positioned from the old baseline to
`actualEnd`, is the new last child of the top, and `actualEnd` is the baseline. -/
theorem leaf_reconciled (parser : Cursor) (node : Node) (actualEnd : Point) (b : Builder)
    (top : Node) (below : List Node) (cs : List Node)
    (hs : b.stack = top :: below) (hc : top.children = some cs) :
    (((enter parser node b).andThen (exit parser)).andThen
        fun b2 => .ok (reconcile actualEnd b2)) =
      .ok { stack :=
              top.pushChild (node.setPosition
                (some { start := b.position, «end» := some actualEnd })) :: below
            position := actualEnd
            searchLastIndex := b.searchLastIndex } := by
  obtain ⟨stack, position, li⟩ := b
  obtain ⟨t, n, a, p, s, v, c, pos⟩ := top
  obtain ⟨t2, n2, a2, p2, s2, v2, c2, pos2⟩ := node
  simp only at hs
  subst hs
  simp only [Node.children] at hc
  subst hc
  simp [enter, exit, Result.andThen, reconcile, Node.children, Node.setPosition, Node.position,
    Node.setEnd, Node.pushChild, Node.modifyLastChild, modifyLast_append_singleton]

/-! ## The loop of `ondoctype` and the grammar -/

theorem drop_step {value : Str} {i c : Nat} {s rest : Str}
    (h : value.drop i = s ++ c :: rest) : value.drop (i + s.length + 1) = rest :=
  drop_succ_of_drop_cons (drop_add_of_drop_append h)

theorem slice_of_drop {value : Str} (seg rest : Str) {st e : Nat}
    (h : value.drop st = seg ++ rest) (he : e = st + seg.length) :
    slice value (some st) e = seg := by
  subst he
  simp [slice, h]

theorem lit_PUBLIC : lit "PUBLIC" = 80 :: [85, 66, 76, 73, 67] := rfl

theorem lit_SYSTEM : lit "SYSTEM" = 83 :: [89, 83, 84, 69, 77] := rfl

/-- From `BEFORE_SYSTEM_LITERAL` to the end, when the loop succeeds. -/
theorem tail_complete {value : Str} {v r : Vars} {i : Nat} {w : Str}
    (hw : value.drop i = w) (hq : v.state = State.BEFORE_SYSTEM_LITERAL)
    (h : loop value (w.length + 1) i v = .ok r) :
    ∃ s q body rest, w = s ++ q :: (body ++ q :: rest) ∧ Spaces s ∧ IsQuote q ∧ q ∉ body ∧
      Spaces rest ∧ r.node = { v.node with system := some body } := by
  obtain ⟨s, q, w1, rfl, hs, hqq, h1⟩ := (phase_BEFORE_SYSTEM_LITERAL hw hq r).mp h
  have hw1 := drop_step hw
  obtain ⟨body, rest, rfl, hnot, h2⟩ := (phase_IN_SYSTEM_LITERAL hw1 rfl rfl r).mp h1
  have hw2 := drop_step hw1
  obtain ⟨hrest, rfl⟩ := (phase_AFTER_SYSTEM_LITERAL hw2 rfl r).mp h2
  refine ⟨s, q, body, rest, rfl, hs, hqq, hnot, hrest, ?_⟩
  simp only [slice_of_drop _ _ hw1 rfl]

/-- From `BEFORE_SYSTEM_LITERAL` to the end, on a system literal and whitespace. -/
theorem tail_sound {value : Str} (v : Vars) {i : Nat} {s body rest : Str} {q : Nat}
    (hw : value.drop i = s ++ q :: (body ++ q :: rest))
    (hq : v.state = State.BEFORE_SYSTEM_LITERAL)
    (hs : Spaces s) (hqq : IsQuote q) (hnot : q ∉ body) (hrest : Spaces rest) :
    ∃ r, loop value ((s ++ q :: (body ++ q :: rest)).length + 1) i v = .ok r ∧
      r.node = { v.node with system := some body } := by
  have hw1 := drop_step hw
  have hw2 := drop_step hw1
  refine ⟨_, (phase_BEFORE_SYSTEM_LITERAL hw hq _).mpr ⟨s, q, _, rfl, hs, hqq,
    (phase_IN_SYSTEM_LITERAL hw1 rfl rfl _).mpr ⟨body, rest, rfl, hnot,
      (phase_AFTER_SYSTEM_LITERAL hw2 rfl _).mpr ⟨hrest, rfl⟩⟩⟩, ?_⟩
  simp only [slice_of_drop _ _ hw1 rfl]

theorem spaces_cons {c : Nat} {s : Str} (hc : isSpace (some c) = true) (hs : Spaces s) :
    Spaces (c :: s) := by
  intro d hd
  rcases List.mem_cons.mp hd with rfl | hd
  · exact hc
  · exact hs d hd

theorem spaces1_cons {c : Nat} {s : Str} (hc : isSpace (some c) = true) (hs : Spaces s) :
    Spaces1 (c :: s) :=
  ⟨List.cons_ne_nil _ _, spaces_cons hc hs⟩

theorem spaces_nil : Spaces [] := fun _ h => absurd h (List.not_mem_nil _)

/-- What the loop has read when it succeeds, and the node it has filled. -/
theorem parseDoctype_complete {value : Str} {r : Vars} (h : parseDoctype value = .ok r) :
    (∃ n, NameOnly value n ∧ r.node = { name := n, «public» := none, system := none }) ∨
    (∃ n sys, WithSystem value n sys ∧
      r.node = { name := n, «public» := none, system := some sys }) ∨
    (∃ n pub sys, WithPublic value n pub sys ∧
      r.node = { name := n, «public» := some pub, system := some sys }) := by
  unfold parseDoctype at h
  have hw0 : value.drop 0 = value := rfl
  obtain ⟨c0, w1, rfl, hc0, h1⟩ := (phase_BEGIN hw0 rfl r).mp h
  have hw1 := drop_succ_of_drop_cons hw0
  obtain ⟨s, c, w2, rfl, hs, hc, h2⟩ := (phase_BEFORE_NAME hw1 rfl r).mp h1
  have hw2 := drop_step hw1
  obtain ⟨n, rest, rfl, hn, hcase⟩ := (phase_IN_NAME hw2 rfl r).mp h2
  have hname : slice (c0 :: (s ++ c :: (n ++ rest))) (some (0 + 1 + s.length))
      (0 + 1 + s.length + 1 + n.length) = c :: n :=
    slice_of_drop (c :: n) rest (drop_add_of_drop_append hw1)
      (by simp only [List.length_cons]; omega)
  have hs1 : Spaces1 (c0 :: s) := spaces1_cons hc0 hs
  have hnm : IsName (c :: n) := ⟨c, n, rfl, hc, hn⟩
  rcases hcase with ⟨rfl, rfl⟩ | ⟨c1, w3, rfl, hc1, h3⟩
  · left
    refine ⟨c :: n, ⟨c0 :: s, [], by simp, hs1, hnm, spaces_nil⟩, ?_⟩
    dsimp only
    rw [hname]
    rfl
  · have hw3 := drop_step hw2
    obtain ⟨s2, rest2, rfl, hs2, hcase2⟩ := (phase_AFTER_NAME hw3 rfl r).mp h3
    have hs2' : Spaces1 (c1 :: s2) := spaces1_cons hc1 hs2
    rcases hcase2 with ⟨rfl, rfl⟩ | ⟨w4, rfl, h4⟩ | ⟨w4, rfl, h4⟩
    · left
      refine ⟨c :: n, ⟨c0 :: s, c1 :: s2, by simp, hs1, hnm, hs2'.2⟩, ?_⟩
      dsimp only
      rw [hname]
      rfl
    · right; right
      have hw4 := drop_step hw3
      obtain ⟨w5, rfl, h5⟩ :=
        (phase_IN_EID State.AFTER_PUBLIC (lit "PUBLIC") [85, 66, 76, 73, 67] _ 0 _ w4 hw4 rfl rfl
          rfl rfl rfl (by simp) r).mp h4
      have hw5 := drop_add_of_drop_append hw4
      obtain ⟨c2, w6, rfl, hc2, h6⟩ := (phase_AFTER_PUBLIC hw5 rfl r).mp h5
      have hw6 := drop_succ_of_drop_cons hw5
      obtain ⟨s3, q, w7, rfl, hs3, hq, h7⟩ := (phase_BEFORE_PUBLIC_LITERAL hw6 rfl r).mp h6
      have hw7 := drop_step hw6
      obtain ⟨pub, w8, rfl, hpub, h8⟩ := (phase_IN_PUBLIC_LITERAL hw7 rfl rfl r).mp h7
      have hw8 := drop_step hw7
      obtain ⟨c3, w9, rfl, hc3, h9⟩ := (phase_AFTER_PUBLIC_LITERAL hw8 rfl r).mp h8
      have hw9 := drop_succ_of_drop_cons hw8
      obtain ⟨s4, q2, sys, rest, rfl, hs4, hq2, hnot, hrest, hnode⟩ := tail_complete hw9 rfl h9
      refine ⟨c :: n, pub, sys, ⟨c0 :: s, c1 :: s2, c2 :: s3, q :: (pub ++ [q]), c3 :: s4,
        q2 :: (sys ++ [q2]), rest, by simp [lit_PUBLIC], hs1, hnm, hs2', spaces1_cons hc2 hs3,
        ⟨q, hq, rfl, hpub⟩, spaces1_cons hc3 hs4, ⟨q2, hq2, rfl, hnot⟩, hrest⟩, ?_⟩
      rw [hnode]
      dsimp only
      rw [hname, slice_of_drop _ _ hw7 rfl]
    · right; left
      have hw4 := drop_step hw3
      obtain ⟨w5, rfl, h5⟩ :=
        (phase_IN_EID State.AFTER_SYSTEM (lit "SYSTEM") [89, 83, 84, 69, 77] _ 0 _ w4 hw4 rfl rfl
          rfl rfl rfl (by simp) r).mp h4
      have hw5 := drop_add_of_drop_append hw4
      obtain ⟨c2, w6, rfl, hc2, h6⟩ := (phase_AFTER_SYSTEM hw5 rfl r).mp h5
      have hw6 := drop_succ_of_drop_cons hw5
      obtain ⟨s3, q2, sys, rest, rfl, hs3, hq2, hnot, hrest, hnode⟩ := tail_complete hw6 rfl h6
      refine ⟨c :: n, sys, ⟨c0 :: s, c1 :: s2, c2 :: s3, q2 :: (sys ++ [q2]), rest,
        by simp [lit_SYSTEM], hs1, hnm, hs2', spaces1_cons hc2 hs3, ⟨q2, hq2, rfl, hnot⟩,
        hrest⟩, ?_⟩
      rw [hnode]
      dsimp only
      rw [hname]
      rfl

theorem spaces1_iff {s : Str} :
    Spaces1 s ↔ ∃ c t, s = c :: t ∧ isSpace (some c) = true ∧ Spaces t := by
  constructor
  · rintro ⟨hne, hs⟩
    cases s with
    | nil => exact absurd rfl hne
    | cons c t =>
      exact ⟨c, t, rfl, hs c (List.mem_cons_self _ _), fun d hd => hs d (List.mem_cons_of_mem _ hd)⟩
  · rintro ⟨c, t, rfl, hc, ht⟩
    exact spaces1_cons hc ht

/-- From `BEGIN` to the whitespace character that closes the name. -/
theorem sound_to_after_name {c0 c c1 : Nat} {s cs w : Str} (f : Doctype → Doctype)
    (hc0 : isSpace (some c0) = true) (hs : Spaces s) (hc : isNameStartChar (some c) = true)
    (hcs : ∀ d ∈ cs, isNameChar (some d) = true) (hc1 : isSpace (some c1) = true)
    (hcont : ∀ i v, (c0 :: (s ++ c :: (cs ++ c1 :: w))).drop i = w →
      v.state = State.AFTER_NAME →
      ∃ r, loop (c0 :: (s ++ c :: (cs ++ c1 :: w))) (w.length + 1) i v = .ok r ∧
        r.node = f v.node) :
    ∃ r, parseDoctype (c0 :: (s ++ c :: (cs ++ c1 :: w))) = .ok r ∧
      r.node = f { name := c :: cs, «public» := none, system := none } := by
  have hw0 : (c0 :: (s ++ c :: (cs ++ c1 :: w))).drop 0 = _ := rfl
  have hw1 := drop_succ_of_drop_cons hw0
  have hw2 := drop_step hw1
  have hw3 := drop_step hw2
  have hname : slice (c0 :: (s ++ c :: (cs ++ c1 :: w))) (some (0 + 1 + s.length))
      (0 + 1 + s.length + 1 + cs.length) = c :: cs :=
    slice_of_drop (c :: cs) (c1 :: w) (drop_add_of_drop_append hw1)
      (by simp only [List.length_cons]; omega)
  obtain ⟨r, hr, hnode⟩ := hcont _
    { Vars.initial with
      state := State.AFTER_NAME, start := some (0 + 1 + s.length)
      node := { Vars.initial.node with
        name := slice (c0 :: (s ++ c :: (cs ++ c1 :: w))) (some (0 + 1 + s.length))
          (0 + 1 + s.length + 1 + cs.length) } } hw3 rfl
  refine ⟨r, (phase_BEGIN hw0 rfl r).mpr ⟨c0, _, rfl, hc0,
    (phase_BEFORE_NAME hw1 rfl r).mpr ⟨s, c, _, rfl, hs, hc,
      (phase_IN_NAME hw2 rfl r).mpr ⟨cs, _, rfl, hcs, Or.inr ⟨c1, w, rfl, hc1, hr⟩⟩⟩⟩, ?_⟩
  rw [hnode]
  dsimp only
  rw [hname]
  rfl

/-- A body of the form `S+ Name S*` is read to the end, into the name alone. -/
theorem sound_NameOnly {value n : Str} (h : NameOnly value n) :
    ∃ r, parseDoctype value = .ok r ∧
      r.node = { name := n, «public» := none, system := none } := by
  obtain ⟨s1, s2, rfl, h1, ⟨c, cs, rfl, hc, hcs⟩, h2⟩ := h
  obtain ⟨c0, s, rfl, hc0, hs⟩ := spaces1_iff.mp h1
  cases s2 with
  | nil =>
    have hv : (c0 :: s ++ c :: cs ++ []) = c0 :: (s ++ c :: (cs ++ [])) := by simp
    rw [hv]
    have hw0 : (c0 :: (s ++ c :: (cs ++ []))).drop 0 = _ := rfl
    have hw1 := drop_succ_of_drop_cons hw0
    have hw2 := drop_step hw1
    have hname : slice (c0 :: (s ++ c :: (cs ++ []))) (some (0 + 1 + s.length))
        (0 + 1 + s.length + 1 + cs.length) = c :: cs :=
      slice_of_drop (c :: cs) [] (drop_add_of_drop_append hw1)
        (by simp only [List.length_cons]; omega)
    refine ⟨_, (phase_BEGIN hw0 rfl _).mpr ⟨c0, _, rfl, hc0,
      (phase_BEFORE_NAME hw1 rfl _).mpr ⟨s, c, _, rfl, hs, hc,
        (phase_IN_NAME hw2 rfl _).mpr ⟨cs, _, rfl, hcs, Or.inl ⟨rfl, rfl⟩⟩⟩⟩, ?_⟩
    dsimp only
    rw [hname]
    rfl
  | cons c1 t =>
    have hv : (c0 :: s ++ c :: cs ++ c1 :: t) = c0 :: (s ++ c :: (cs ++ c1 :: t)) := by simp
    rw [hv]
    refine sound_to_after_name id hc0 hs hc hcs (h2 c1 (List.mem_cons_self _ _)) ?_
    intro i v hw hv
    exact ⟨_, (phase_AFTER_NAME hw hv _).mpr ⟨t, [], by simp,
      fun d hd => h2 d (List.mem_cons_of_mem _ hd), Or.inl ⟨rfl, rfl⟩⟩, rfl⟩

/-- A body with a `SYSTEM` identifier is read to the end, into the name and the
text of the system literal. -/
theorem sound_WithSystem {value n sys : Str} (h : WithSystem value n sys) :
    ∃ r, parseDoctype value = .ok r ∧
      r.node = { name := n, «public» := none, system := some sys } := by
  obtain ⟨s1, s2, s3, l, s4, rfl, h1, ⟨c, cs, rfl, hc, hcs⟩, h2, h3, ⟨q, hq, rfl, hnot⟩, h4⟩ := h
  obtain ⟨c0, s, rfl, hc0, hs⟩ := spaces1_iff.mp h1
  obtain ⟨c1, t, rfl, hc1, ht⟩ := spaces1_iff.mp h2
  obtain ⟨c2, u, rfl, hc2, hu⟩ := spaces1_iff.mp h3
  have hv : (c0 :: s ++ c :: cs ++ c1 :: t ++ lit "SYSTEM" ++ c2 :: u ++ q :: (sys ++ [q]) ++ s4)
      = c0 :: (s ++ c :: (cs ++ c1 :: (t ++ 83 :: ([89, 83, 84, 69, 77] ++
          c2 :: (u ++ q :: (sys ++ q :: s4)))))) := by
    simp [lit_SYSTEM]
  rw [hv]
  refine sound_to_after_name (fun d => { d with system := some sys }) hc0 hs hc hcs hc1 ?_
  intro i v hw hv
  have hw4 := drop_step hw
  have hw5 := drop_add_of_drop_append hw4
  have hw6 := drop_succ_of_drop_cons hw5
  obtain ⟨r, hr, hnode⟩ := tail_sound
    { v with state := State.BEFORE_SYSTEM_LITERAL, returnState := some State.AFTER_SYSTEM,
             buffer := some (lit "SYSTEM"), bufferIndex := some ((lit "SYSTEM").length - 1) }
    hw6 rfl hu hq hnot h4
  exact ⟨r, (phase_AFTER_NAME hw hv r).mpr ⟨t, _, rfl, ht, Or.inr (Or.inr ⟨_, rfl,
    (phase_IN_EID State.AFTER_SYSTEM (lit "SYSTEM") [89, 83, 84, 69, 77] _ 0 _ _ hw4 rfl rfl
      rfl rfl rfl (by simp) r).mpr ⟨_, rfl,
      (phase_AFTER_SYSTEM hw5 rfl r).mpr ⟨c2, _, rfl, hc2, hr⟩⟩⟩)⟩, hnode⟩

/-- A body with a `PUBLIC` identifier is read to the end, into the name and the
texts of the two literals. -/
theorem sound_WithPublic {value n pub sys : Str} (h : WithPublic value n pub sys) :
    ∃ r, parseDoctype value = .ok r ∧
      r.node = { name := n, «public» := some pub, system := some sys } := by
  obtain ⟨s1, s2, s3, pl, s4, sl, s5, rfl, h1, ⟨c, cs, rfl, hc, hcs⟩, h2, h3,
    ⟨q, hq, rfl, hpub⟩, h4, ⟨q2, hq2, rfl, hnot⟩, h5⟩ := h
  obtain ⟨c0, s, rfl, hc0, hs⟩ := spaces1_iff.mp h1
  obtain ⟨c1, t, rfl, hc1, ht⟩ := spaces1_iff.mp h2
  obtain ⟨c2, u, rfl, hc2, hu⟩ := spaces1_iff.mp h3
  obtain ⟨c3, x, rfl, hc3, hx⟩ := spaces1_iff.mp h4
  have hv : (c0 :: s ++ c :: cs ++ c1 :: t ++ lit "PUBLIC" ++ c2 :: u ++ q :: (pub ++ [q]) ++
        c3 :: x ++ q2 :: (sys ++ [q2]) ++ s5)
      = c0 :: (s ++ c :: (cs ++ c1 :: (t ++ 80 :: ([85, 66, 76, 73, 67] ++
          c2 :: (u ++ q :: (pub ++ q :: c3 :: (x ++ q2 :: (sys ++ q2 :: s5)))))))) := by
    simp [lit_PUBLIC]
  rw [hv]
  refine sound_to_after_name (fun d => { d with «public» := some pub, system := some sys })
    hc0 hs hc hcs hc1 ?_
  intro i v hw hv
  have hw4 := drop_step hw
  have hw5 := drop_add_of_drop_append hw4
  have hw6 := drop_succ_of_drop_cons hw5
  have hw7 := drop_step hw6
  have hw8 := drop_step hw7
  have hw9 := drop_succ_of_drop_cons hw8
  obtain ⟨r, hr, hnode⟩ := tail_sound
    { v with state := State.BEFORE_SYSTEM_LITERAL, returnState := some State.AFTER_PUBLIC,
             buffer := some (lit "PUBLIC"), bufferIndex := some ((lit "PUBLIC").length - 1),
             start := some (i + t.length + 1 + [85, 66, 76, 73, 67].length + 1 + u.length + 1),
             marker := some q,
             node := { v.node with «public» := some pub } }
    hw9 rfl hx hq2 hnot h5
  refine ⟨r, (phase_AFTER_NAME hw hv r).mpr ⟨t, _, rfl, ht, Or.inr (Or.inl ⟨_, rfl,
    (phase_IN_EID State.AFTER_PUBLIC (lit "PUBLIC") [85, 66, 76, 73, 67] _ 0 _ _ hw4 rfl rfl
      rfl rfl rfl (by simp) r).mpr ⟨_, rfl,
      (phase_AFTER_PUBLIC hw5 rfl r).mpr ⟨c2, _, rfl, hc2,
        (phase_BEFORE_PUBLIC_LITERAL hw6 rfl r).mpr ⟨u, q, _, rfl, hu, hq,
          (phase_IN_PUBLIC_LITERAL hw7 rfl rfl r).mpr ⟨pub, _, rfl, hpub,
            (phase_AFTER_PUBLIC_LITERAL hw8 rfl r).mpr ⟨c3, _, rfl, hc3, ?_⟩⟩⟩⟩⟩⟩)⟩, hnode⟩
  dsimp only
  rw [slice_of_drop _ _ hw7 rfl]
  exact hr

/-- The identifier of a failure of one iteration: one of the five `doctype-`
identifiers in every state but `AFTER_SYSTEM_LITERAL`, where it is
`internal-subset` or `system-literal`. -/
theorem step_failure_id {value : Str} {i : Nat} {v : Vars} {f : Failure}
    (h : step value i v = .error f) :
    (v.state ≠ State.AFTER_SYSTEM_LITERAL →
      f.id = lit "doctype-name" ∨ f.id = lit "doctype-internal-subset" ∨
      f.id = lit "doctype-external-identifier" ∨ f.id = lit "doctype-public-literal" ∨
      f.id = lit "doctype-system-literal") ∧
    (v.state = State.AFTER_SYSTEM_LITERAL →
      f.id = lit "internal-subset" ∨ f.id = lit "system-literal") := by
  obtain ⟨node, state, rs, buf, bi, st, mk⟩ := v
  cases state <;> simp only [step] at h <;> split at h <;>
    (try split at h) <;> (try split at h) <;> (try split at h) <;> (try split at h) <;>
    first
      | (cases h; simp)
      | cases h

/-! ## `ondoctype` as a whole -/

/-- What `enter(node)` then `exit()` do to a builder whose stack top has
children. -/
theorem leaf_entered (parser : Cursor) (node : Node) (b : Builder)
    (top : Node) (below : List Node) (cs : List Node)
    (hs : b.stack = top :: below) (hc : top.children = some cs) :
    (enter parser node b).andThen (exit parser) =
      .ok { stack :=
              top.pushChild (node.setPosition
                (some { start := b.position, «end» := some (now parser) })) :: below
            position := now parser
            searchLastIndex := b.searchLastIndex } := by
  obtain ⟨stack, position, li⟩ := b
  obtain ⟨t, n, a, p, s, v, c, pos⟩ := top
  obtain ⟨t2, n2, a2, p2, s2, v2, c2, pos2⟩ := node
  simp only at hs
  subst hs
  simp only [Node.children] at hc
  subst hc
  simp [enter, exit, Result.andThen, Node.children, Node.setPosition, Node.position,
    Node.setEnd, Node.pushChild]

theorem grammar_of_complete {value : Str} {r : Vars} (h : parseDoctype value = .ok r) :
    DoctypeGrammar value := by
  rcases parseDoctype_complete h with ⟨n, hn, _⟩ | ⟨n, sys, hn, _⟩ | ⟨n, pub, sys, hn, _⟩
  · exact Or.inl ⟨n, hn⟩
  · exact Or.inr (Or.inl ⟨n, sys, hn⟩)
  · exact Or.inr (Or.inr ⟨n, pub, sys, hn⟩)

theorem sound_of_grammar {value : Str} (h : DoctypeGrammar value) :
    ∃ r, parseDoctype value = .ok r := by
  rcases h with ⟨n, hn⟩ | ⟨n, sys, hn⟩ | ⟨n, pub, sys, hn⟩
  · exact (sound_NameOnly hn).imp fun _ h => h.1
  · exact (sound_WithSystem hn).imp fun _ h => h.1
  · exact (sound_WithPublic hn).imp fun _ h => h.1

/-- What `ondoctype` returns when the loop has succeeded with the variables `v`. -/
theorem ondoctype_ok (parser : Cursor) {value : Str} (b : Builder)
    (top : Node) (below cs : List Node) {v : Vars}
    (hs : b.stack = top :: below) (hc : top.children = some cs)
    (hp : parseDoctype value = .ok v) :
    ondoctype parser value b =
      .ok { stack :=
              top.pushChild (.mk .doctype (some v.node.name) none v.node.«public»
                v.node.system none none
                (some { start := b.position, «end» := some (now parser) })) :: below
            position := now parser
            searchLastIndex := b.searchLastIndex } := by
  simp only [ondoctype, hp]
  exact leaf_entered parser _ b top below cs hs hc

/-- What `ondoctype` does when the loop has failed: `fail` with the reason and
the identifier of the failure, on the builder as it was. -/
theorem ondoctype_error (parser : Cursor) {value : Str} (b : Builder) {f : Failure}
    (hp : parseDoctype value = .error f) :
    ondoctype parser value b =
      .thrown (.message { reason := f.reason, place := now parser,
                          origin := lit "xast-util-from-xml:" ++ f.id }) b := by
  simp only [ondoctype, hp, fail]

/-- A run of characters with `p`, followed by nothing or by a character without
`p`, is what `dropWhile p` removes. -/
theorem dropWhile_run (p : Nat → Bool) (s rest : Str) (hs : ∀ c ∈ s, p c = true)
    (hrest : rest = [] ∨ ∃ c t, rest = c :: t ∧ p c = false) :
    (s ++ rest).dropWhile p = rest := by
  induction s with
  | nil =>
    rcases hrest with rfl | ⟨c, t, rfl, hc⟩
    · rfl
    · simp [List.dropWhile, hc]
  | cons a s ih =>
    simp only [List.cons_append, List.dropWhile, hs a (List.mem_cons_self _ _)]
    exact ih fun c hc => hs c (List.mem_cons_of_mem _ hc)

/-- A run of characters with `p`, followed by nothing or by a character without
`p`, is what `takeWhile p` keeps. -/
theorem takeWhile_run (p : Nat → Bool) (s rest : Str) (hs : ∀ c ∈ s, p c = true)
    (hrest : rest = [] ∨ ∃ c t, rest = c :: t ∧ p c = false) :
    (s ++ rest).takeWhile p = s := by
  induction s with
  | nil =>
    rcases hrest with rfl | ⟨c, t, rfl, hc⟩
    · rfl
    · simp [List.takeWhile, hc]
  | cons a s ih =>
    simp only [List.cons_append, List.takeWhile, hs a (List.mem_cons_self _ _)]
    exact congrArg _ (ih fun c hc => hs c (List.mem_cons_of_mem _ hc))

/-- The name of a body `S+ Name` followed by nothing or by whitespace is the
longest run of name characters after the leading whitespace. -/
theorem name_is_longest_run {s1 n rest : Str} (h1 : Spaces s1) (hn : IsName n)
    (hrest : rest = [] ∨ ∃ c t, rest = c :: t ∧ isSpace (some c) = true) :
    ((s1 ++ (n ++ rest)).dropWhile fun c => isSpace (some c)).takeWhile
      (fun c => isNameChar (some c)) = n := by
  obtain ⟨c, cs, rfl, hc, hcs⟩ := hn
  have hns : isSpace (some c) = false := by
    cases hs : isSpace (some c) with
    | false => rfl
    | true => rw [isSpace_not_nameStartChar hs] at hc; cases hc
  rw [List.cons_append, dropWhile_run _ s1 _ h1 (Or.inr ⟨c, cs ++ rest, rfl, hns⟩),
    ← List.cons_append]
  refine takeWhile_run _ (c :: cs) rest ?_ ?_
  · intro d hd
    rcases List.mem_cons.mp hd with rfl | hd
    · simp [isNameChar, hc]
    · exact hcs d hd
  · rcases hrest with rfl | ⟨d, t, rfl, hd⟩
    · exact Or.inl rfl
    · exact Or.inr ⟨d, t, rfl, isSpace_not_nameChar hd⟩

theorem longest_run_NameOnly {value n : Str} (h : NameOnly value n) :
    (value.dropWhile fun c => isSpace (some c)).takeWhile (fun c => isNameChar (some c)) = n ∧
      n ≠ [] := by
  obtain ⟨s1, s2, rfl, h1, hn, h2⟩ := h
  refine ⟨?_, by obtain ⟨c, cs, rfl, _⟩ := hn; simp⟩
  rw [List.append_assoc]
  refine name_is_longest_run h1.2 hn ?_
  cases s2 with
  | nil => exact Or.inl rfl
  | cons c t => exact Or.inr ⟨c, t, rfl, h2 c (List.mem_cons_self _ _)⟩

theorem longest_run_WithSystem {value n sys : Str} (h : WithSystem value n sys) :
    (value.dropWhile fun c => isSpace (some c)).takeWhile (fun c => isNameChar (some c)) = n ∧
      n ≠ [] := by
  obtain ⟨s1, s2, s3, l, s4, rfl, h1, hn, h2, _⟩ := h
  refine ⟨?_, by obtain ⟨c, cs, rfl, _⟩ := hn; simp⟩
  obtain ⟨c, t, rfl, hc, _⟩ := spaces1_iff.mp h2
  simp only [List.append_assoc]
  exact name_is_longest_run h1.2 hn (Or.inr ⟨c, _, rfl, hc⟩)

theorem longest_run_WithPublic {value n pub sys : Str} (h : WithPublic value n pub sys) :
    (value.dropWhile fun c => isSpace (some c)).takeWhile (fun c => isNameChar (some c)) = n ∧
      n ≠ [] := by
  obtain ⟨s1, s2, s3, pl, s4, sl, s5, rfl, h1, hn, h2, _⟩ := h
  refine ⟨?_, by obtain ⟨c, cs, rfl, _⟩ := hn; simp⟩
  obtain ⟨c, t, rfl, hc, _⟩ := spaces1_iff.mp h2
  simp only [List.append_assoc]
  exact name_is_longest_run h1.2 hn (Or.inr ⟨c, _, rfl, hc⟩)

/-- The first `a` iterations, then the others. -/
theorem loop_add (value : Str) : ∀ (a k i : Nat) (v : Vars),
    loop value (a + k) i v =
      (match loop value a i v with
        | .error e => .error e
        | .ok w => loop value k (i + a) w) := by
  intro a
  induction a with
  | zero => intro k i v; simp [loop]
  | succ a ih =>
    intro k i v
    have e : a + 1 + k = (a + k) + 1 := by omega
    rw [e]
    simp only [loop]
    cases step value i v with
    | error e => rfl
    | ok w =>
      simp only
      rw [ih k (i + 1) w]
      have e2 : i + 1 + a = i + (a + 1) := by omega
      rw [e2]

/-- When the loop has reached `index` inside the body and the iteration at
`index` fails, the whole loop fails with that failure. -/
theorem parseDoctype_fails_at {value : Str} {index : Nat} {v : Vars} {f : Failure}
    (hindex : index ≤ value.length) (hreach : loop value index 0 Vars.initial = .ok v)
    (hstep : step value index v = .error f) : parseDoctype value = .error f := by
  unfold parseDoctype
  have e : value.length + 1 = index + ((value.length - index) + 1) := by omega
  rw [e, loop_add, hreach]
  simp only [loop, Nat.zero_add, hstep]

theorem index_le_of_codeAt {value : Str} {index c : Nat} (h : codeAt value index = some c) :
    index ≤ value.length := by
  by_contra hlt
  have : value.drop index = [] := List.drop_eq_nil_of_le (by omega)
  rw [codeAt_eq_head, this] at h
  cases h

theorem onerror_place (parser : Cursor) (message : Str) (b : Builder) :
    (onerror parser message b).place = some (now parser) := by
  unfold onerror
  cases indexOf message (lit "\nLine") <;> rfl

/-! ## Lemmas on the line-break scan of `ontext` -/

theorem countBreaks_cons_other {c : Nat} (rest : Str) (h10 : c ≠ 10) (h13 : c ≠ 13) :
    countBreaks (c :: rest) = countBreaks rest := by
  cases rest with
  | nil => simp [countBreaks, h10, h13]
  | cons d r => simp [countBreaks, h10, h13]

theorem countBreaks_cons_lf (rest : Str) : countBreaks (10 :: rest) = countBreaks rest + 1 := by
  cases rest with
  | nil => simp [countBreaks]
  | cons d r => simp [countBreaks]

theorem countBreaks_cons_crlf (rest : Str) :
    countBreaks (13 :: 10 :: rest) = countBreaks rest + 1 := by
  simp [countBreaks]

theorem countBreaks_cons_cr (rest : Str) (h : rest.head? ≠ some 10) :
    countBreaks (13 :: rest) = countBreaks rest + 1 := by
  cases rest with
  | nil => simp [countBreaks]
  | cons d r =>
    have hd : d ≠ 10 := fun e => h (by simp [e])
    simp [countBreaks, hd]

/-- No line break is counted exactly when the text has neither LF nor CR. -/
theorem countBreaks_eq_zero (w : Str) :
    countBreaks w = 0 ↔ ∀ c ∈ w, c ≠ 10 ∧ c ≠ 13 := by
  induction w with
  | nil => simp [countBreaks]
  | cons c rest ih =>
    by_cases h10 : c = 10
    · subst h10
      simp [countBreaks_cons_lf]
    · by_cases h13 : c = 13
      · subst h13
        by_cases hh : rest.head? = some 10
        · cases rest with
          | nil => simp at hh
          | cons d r =>
            have : d = 10 := by simpa using hh
            subst this
            simp [countBreaks_cons_crlf]
        · simp [countBreaks_cons_cr rest hh]
      · rw [countBreaks_cons_other rest h10 h13, ih]
        simp [h10, h13]

theorem takeWhile_append_all (p : Nat → Bool) (l m : Str) (h : ∀ c ∈ l, p c = true) :
    (l ++ m).takeWhile p = l ++ m.takeWhile p := by
  induction l with
  | nil => rfl
  | cons a l ih =>
    simp only [List.cons_append, List.takeWhile, h a (List.mem_cons_self _ _)]
    exact congrArg _ (ih fun c hc => h c (List.mem_cons_of_mem _ hc))

theorem takeWhile_append_not_all (p : Nat → Bool) (l m : Str) (h : ∃ c ∈ l, p c = false) :
    (l ++ m).takeWhile p = l.takeWhile p := by
  induction l with
  | nil => obtain ⟨c, hc, _⟩ := h; cases hc
  | cons a l ih =>
    cases hpa : p a with
    | false => simp [List.takeWhile, hpa]
    | true =>
      simp only [List.cons_append, List.takeWhile, hpa]
      obtain ⟨c, hc, hpc⟩ := h
      rcases List.mem_cons.mp hc with rfl | hc
      · rw [hpa] at hpc; cases hpc
      · exact congrArg _ (ih ⟨c, hc, hpc⟩)

/-- After a text without LF and CR nothing is cut. -/
theorem afterLastBreak_of_none (w : Str) (h : ∀ c ∈ w, c ≠ 10 ∧ c ≠ 13) :
    afterLastBreak w = w := by
  unfold afterLastBreak
  have := takeWhile_append_all (fun c => c != 10 && c != 13) w.reverse []
    (fun c hc => by simpa using h c (List.mem_reverse.mp hc))
  simp only [List.append_nil, List.takeWhile_nil] at this
  rw [this, List.reverse_reverse]

/-- What comes before a text with a LF or CR does not count. -/
theorem afterLastBreak_append_of_some (x w : Str) (h : ¬ ∀ c ∈ w, c ≠ 10 ∧ c ≠ 13) :
    afterLastBreak (x ++ w) = afterLastBreak w := by
  unfold afterLastBreak
  rw [List.reverse_append, takeWhile_append_not_all]
  push_neg at h
  obtain ⟨c, hc, hcc⟩ := h
  refine ⟨c, List.mem_reverse.mpr hc, ?_⟩
  by_cases h10 : c = 10
  · simp [h10]
  · simp [h10, hcc h10]

/-- After a line break and a text without LF and CR, that text is what is left. -/
theorem afterLastBreak_append_of_none (x w : Str) (b : Nat) (hb : b = 10 ∨ b = 13)
    (h : ∀ c ∈ w, c ≠ 10 ∧ c ≠ 13) :
    afterLastBreak (x ++ b :: w) = w := by
  unfold afterLastBreak
  have e : (x ++ b :: w).reverse = w.reverse ++ (b :: x.reverse) := by simp
  rw [e, takeWhile_append_all _ _ _ (fun c hc => by simpa using h c (List.mem_reverse.mp hc))]
  have : (b :: x.reverse).takeWhile (fun c => c != 10 && c != 13) = [] := by
    rcases hb with rfl | rfl <;> simp [List.takeWhile]
  rw [this, List.append_nil, List.reverse_reverse]

/-- What `searchFrom` finds: nothing when the input has neither LF nor CR, and
otherwise the first line break, after which the count of line breaks is one
less. -/
theorem searchFrom_spec : ∀ (w : Str) (i : Nat),
    (searchFrom w i = none → ∀ c ∈ w, c ≠ 10 ∧ c ≠ 13) ∧
    (∀ j len, searchFrom w i = some (j, len) →
      ∃ x post, w = x ++ post ∧ j + len = i + x.length ∧ 1 ≤ len ∧ i ≤ j ∧
        countBreaks w = countBreaks post + 1 ∧
        ((∀ c ∈ post, c ≠ 10 ∧ c ≠ 13) → afterLastBreak w = post) ∧
        ((¬ ∀ c ∈ post, c ≠ 10 ∧ c ≠ 13) → afterLastBreak w = afterLastBreak post)) := by
  intro w
  induction w with
  | nil =>
    intro i
    exact ⟨fun _ c hc => absurd hc (List.not_mem_nil _), fun j len h => by simp [searchFrom] at h⟩
  | cons c rest ih =>
    intro i
    by_cases hcrlf : c = 13 ∧ rest.head? = some 10
    · obtain ⟨rfl, hh⟩ := hcrlf
      cases rest with
      | nil => simp at hh
      | cons d r =>
        have hd : d = 10 := by simpa using hh
        subst hd
        have hs : searchFrom (13 :: 10 :: r) i = some (i, 2) := by
          simp [searchFrom, matchBreak]
        refine ⟨fun h => (by rw [hs] at h; cases h), fun j len h => ?_⟩
        rw [hs] at h
        cases h
        exact ⟨[13, 10], r, rfl, rfl, by omega, le_refl _, countBreaks_cons_crlf r,
          fun hn => afterLastBreak_append_of_none [13] r 10 (Or.inl rfl) hn,
          fun hn => afterLastBreak_append_of_some [13, 10] r hn⟩
    · by_cases h10 : c = 10
      · subst h10
        have hs : searchFrom (10 :: rest) i = some (i, 1) := by
          simp [searchFrom, matchBreak]
        refine ⟨fun h => (by rw [hs] at h; cases h), fun j len h => ?_⟩
        rw [hs] at h
        cases h
        exact ⟨[10], rest, rfl, rfl, le_refl _, le_refl _, countBreaks_cons_lf rest,
          fun hn => afterLastBreak_append_of_none [] rest 10 (Or.inl rfl) hn,
          fun hn => afterLastBreak_append_of_some [10] rest hn⟩
      · by_cases h13 : c = 13
        · subst h13
          have hh : rest.head? ≠ some 10 := fun e => hcrlf ⟨rfl, e⟩
          have hs : searchFrom (13 :: rest) i = some (i, 1) := by
            simp [searchFrom, matchBreak, hh]
          refine ⟨fun h => (by rw [hs] at h; cases h), fun j len h => ?_⟩
          rw [hs] at h
          cases h
          exact ⟨[13], rest, rfl, rfl, le_refl _, le_refl _, countBreaks_cons_cr rest hh,
            fun hn => afterLastBreak_append_of_none [] rest 13 (Or.inr rfl) hn,
            fun hn => afterLastBreak_append_of_some [13] rest hn⟩
        · have hs : searchFrom (c :: rest) i = searchFrom rest (i + 1) := by
            simp [searchFrom, matchBreak, h10, h13]
          rw [hs]
          obtain ⟨ih1, ih2⟩ := ih (i + 1)
          refine ⟨fun h d hd => ?_, fun j len h => ?_⟩
          · rcases List.mem_cons.mp hd with rfl | hd
            · exact ⟨h10, h13⟩
            · exact ih1 h d hd
          · obtain ⟨x, post, rfl, hj, hlen, hij, hcount, hnone, hsome⟩ := ih2 j len h
            have hbreak : ¬ ∀ d ∈ x ++ post, d ≠ 10 ∧ d ≠ 13 := by
              rw [← countBreaks_eq_zero, hcount]
              omega
            have hcut : afterLastBreak (c :: (x ++ post)) = afterLastBreak (x ++ post) :=
              afterLastBreak_append_of_some [c] (x ++ post) hbreak
            refine ⟨c :: x, post, rfl, by simp only [List.length_cons]; omega, hlen, by omega,
              by rw [countBreaks_cons_other _ h10 h13, hcount], fun hn => ?_, fun hn => ?_⟩
            · rw [hcut]
              exact hnone hn
            · rw [hcut]
              exact hsome hn

/-- The line and column `ontext` reaches on the text `w`, from the point `p`. -/
theorem textEnd_nil (p : Point) : { textEnd p [] with offset := p.offset } = p := by
  simp [textEnd, countBreaks]

/-- With enough iterations for what is left of the text, the loop of `ontext`
ends with `start = value.length`, at the line and column of `textEnd`. -/
theorem scanLoop_spec (value : Str) : ∀ (n : Nat) (s : Scan),
    s.start ≤ value.length → value.length - s.start ≤ n →
    (scanLoop value n s).start = value.length ∧
    (scanLoop value n s).actualEnd =
      { textEnd s.actualEnd (value.drop s.start) with offset := s.actualEnd.offset } := by
  intro n
  induction n with
  | zero =>
    intro s h1 h2
    have hs : s.start = value.length := by omega
    simp only [scanLoop, hs, List.drop_length, textEnd_nil, and_self]
  | succ n ih =>
    intro s h1 h2
    by_cases hlt : s.start < value.length
    · simp only [scanLoop, hlt, if_true]
      have hle : ¬ value.length < s.start := Nat.not_lt.mpr h1
      obtain ⟨hnone, hsome⟩ := searchFrom_spec (value.drop s.start) s.start
      cases hsearch : searchFrom (value.drop s.start) s.start with
      | none =>
        have hstep : scanStep value s =
            { actualEnd :=
                { s.actualEnd with column := s.actualEnd.column + (value.length - s.start) }
              start := value.length
              lastIndex := 0 } := by
          simp [scanStep, exec, hle, hsearch]
        rw [hstep]
        obtain ⟨e1, e2⟩ := ih
          { actualEnd :=
              { s.actualEnd with column := s.actualEnd.column + (value.length - s.start) }
            start := value.length
            lastIndex := 0 } (le_refl value.length) (by simp)
        refine ⟨e1, ?_⟩
        rw [e2]
        have hzero := (countBreaks_eq_zero _).mpr (hnone hsearch)
        simp [textEnd, hzero, countBreaks]
      | some found =>
        obtain ⟨j, len⟩ := found
        obtain ⟨x, post, hw, hj, hlen, hij, hcount, hcutnone, hcutsome⟩ := hsome j len hsearch
        have hstep : scanStep value s =
            { actualEnd := { s.actualEnd with line := s.actualEnd.line + 1, column := 1 }
              start := j + len
              lastIndex := j + len } := by
          simp [scanStep, exec, hle, hsearch]
        rw [hstep]
        have hlenw : value.length - s.start = x.length + post.length := by
          have := congrArg List.length hw
          simpa using this
        have hdrop : value.drop (j + len) = post := by
          rw [hj]
          exact drop_add_of_drop_append hw
        obtain ⟨e1, e2⟩ := ih
          { actualEnd := { s.actualEnd with line := s.actualEnd.line + 1, column := 1 }
            start := j + len
            lastIndex := j + len } (by simp only; omega) (by simp only; omega)
        refine ⟨e1, ?_⟩
        rw [e2]
        simp only [hdrop, hw]
        by_cases hz : countBreaks post = 0
        · have hn := (countBreaks_eq_zero post).mp hz
          have := hcutnone hn
          rw [hw] at this hcount
          simp [textEnd, hcount, hz, this]
        · have hn : ¬ ∀ c ∈ post, c ≠ 10 ∧ c ≠ 13 := fun h => hz ((countBreaks_eq_zero post).mpr h)
          have := hcutsome hn
          rw [hw] at this hcount
          simp [textEnd, hcount, hz, this]
          omega
    · have hs : s.start = value.length := by omega
      simp only [scanLoop, hlt, if_false]
      simp only [hs, List.drop_length, textEnd_nil, and_self]

/-- The loop of `ontext` runs to its end: `start = value.length` when it stops. -/
theorem scanText_start (value : Str) (position : Point) (lastIndex : Nat) :
    (scanText value position lastIndex).start = value.length :=
  (scanLoop_spec value value.length _ (Nat.zero_le _) (by simp)).1

/-- The `actualEnd` of `ontext`, once `offset` has been advanced. -/
theorem scanText_actualEnd (value : Str) (position : Point) (lastIndex : Nat) :
    { (scanText value position lastIndex).actualEnd with
      offset := (scanText value position lastIndex).actualEnd.offset + value.length } =
      textEnd position value := by
  have := (scanLoop_spec value value.length
    { actualEnd := position, start := 0, lastIndex := lastIndex } (Nat.zero_le _) (by simp)).2
  unfold scanText
  rw [this]
  simp [textEnd]

/-- Once the loop of `ontext` has stopped, further iterations change nothing. -/
theorem scanLoop_stable (value : Str) : ∀ (n : Nat) (s : Scan),
    value.length ≤ (scanLoop value n s).start →
    ∀ m, scanLoop value (n + m) s = scanLoop value n s := by
  intro n
  induction n with
  | zero =>
    intro s h m
    simp only [scanLoop] at h
    cases m with
    | zero => rfl
    | succ m => simp [scanLoop, Nat.not_lt.mpr h]
  | succ n ih =>
    intro s h m
    have e : n + 1 + m = (n + m) + 1 := by omega
    rw [e]
    by_cases hlt : s.start < value.length
    · simp only [scanLoop, hlt, if_true] at h ⊢
      exact ih _ h m
    · simp only [scanLoop, hlt, if_false]

/-- More iterations than `value.length` give `ontext` the same scan: the loop
has stopped by then. -/
theorem scanText_enough (value : Str) (position : Point) (lastIndex m : Nat) :
    scanLoop value (value.length + m)
        { actualEnd := position, start := 0, lastIndex := lastIndex } =
      scanText value position lastIndex :=
  scanLoop_stable value value.length _
    (Nat.le_of_eq (scanText_start value position lastIndex).symm) m

/-! ## Lemmas on `onerror` -/

theorem startsWith_iff (input pattern : Str) :
    startsWith input pattern = true ↔ ∃ rest, input = pattern ++ rest := by
  induction pattern generalizing input with
  | nil => cases input <;> simp [startsWith]
  | cons b pattern ih =>
    cases input with
    | nil => simp [startsWith]
    | cons a input =>
      simp only [startsWith, Bool.and_eq_true, beq_iff_eq, ih, List.cons_append, List.cons.injEq]
      constructor
      · rintro ⟨rfl, rest, rfl⟩
        exact ⟨rest, rfl, rfl⟩
      · rintro ⟨rest, rfl, rfl⟩
        exact ⟨rfl, rest, rfl⟩

/-- What `indexOfFrom` returns: nothing when the pattern does not occur, and
otherwise the place of its first occurrence. -/
theorem indexOfFrom_spec (pattern : Str) : ∀ (input : Str) (i : Nat),
    (indexOfFrom pattern input i = none → ∀ head rest, input ≠ head ++ pattern ++ rest) ∧
    (∀ k, indexOfFrom pattern input i = some k →
      ∃ head rest, input = head ++ pattern ++ rest ∧ k = i + head.length ∧
        ∀ head2 rest2, input = head2 ++ pattern ++ rest2 → head.length ≤ head2.length) := by
  intro input
  induction input with
  | nil =>
    intro i
    by_cases hp : startsWith [] pattern = true
    · have hs : indexOfFrom pattern [] i = some i := by simp [indexOfFrom, hp]
      obtain ⟨rest, hrest⟩ := (startsWith_iff _ _).mp hp
      refine ⟨fun h => (by rw [hs] at h; cases h), fun k h => ?_⟩
      rw [hs] at h
      cases h
      exact ⟨[], rest, by simpa using hrest, rfl, fun _ _ _ => Nat.zero_le _⟩
    · have hs : indexOfFrom pattern [] i = none := by simp [indexOfFrom, hp]
      refine ⟨fun _ head rest h => hp ((startsWith_iff _ _).mpr ?_),
        fun k h => (by rw [hs] at h; cases h)⟩
      have h1 : head = [] := by
        cases head with
        | nil => rfl
        | cons a t => simp at h
      subst h1
      exact ⟨rest, by simpa using h⟩
  | cons a input ih =>
    intro i
    by_cases hp : startsWith (a :: input) pattern = true
    · have hs : indexOfFrom pattern (a :: input) i = some i := by simp [indexOfFrom, hp]
      obtain ⟨rest, hrest⟩ := (startsWith_iff _ _).mp hp
      refine ⟨fun h => (by rw [hs] at h; cases h), fun k h => ?_⟩
      rw [hs] at h
      cases h
      exact ⟨[], rest, by simpa using hrest, rfl, fun _ _ _ => Nat.zero_le _⟩
    · have hs : indexOfFrom pattern (a :: input) i = indexOfFrom pattern input (i + 1) := by
        simp [indexOfFrom, hp]
      rw [hs]
      obtain ⟨ih1, ih2⟩ := ih (i + 1)
      have hcons : ∀ head rest, a :: input = head ++ pattern ++ rest →
          ∃ t, head = a :: t ∧ input = t ++ pattern ++ rest := by
        intro head rest h
        cases head with
        | nil => exact absurd ((startsWith_iff _ _).mpr ⟨rest, by simpa using h⟩) hp
        | cons c t =>
          simp only [List.cons_append, List.cons.injEq] at h
          exact ⟨t, by rw [h.1], by simpa using h.2⟩
      refine ⟨fun h head rest he => ?_, fun k h => ?_⟩
      · obtain ⟨t, _, ht⟩ := hcons head rest he
        exact ih1 h t rest ht
      · obtain ⟨head, rest, he, hk, hmin⟩ := ih2 k h
        refine ⟨a :: head, rest, by rw [he]; simp, by simp only [List.length_cons]; omega, ?_⟩
        intro head2 rest2 h2
        obtain ⟨t, rfl, ht⟩ := hcons head2 rest2 h2
        have := hmin t rest2 ht
        simp only [List.length_cons]
        omega

/-- What `onerror` throws: the message cut at the first `\nLine`. -/
theorem onerror_thrown (parser : Cursor) (message : Str) (b : Builder) :
    ∃ reason,
      onerror parser message b =
        .thrown (.message { reason := reason, place := now parser,
                            origin := lit "xast-util-from-xml:sax" }) b ∧
      ((∀ head rest, message ≠ head ++ lit "\nLine" ++ rest) → reason = message) ∧
      (∀ head rest, message = head ++ lit "\nLine" ++ rest →
        (∀ head2 rest2, message = head2 ++ lit "\nLine" ++ rest2 →
          head.length ≤ head2.length) → reason = head) := by
  obtain ⟨h1, h2⟩ := indexOfFrom_spec (lit "\nLine") message 0
  cases hi : indexOf message (lit "\nLine") with
  | none =>
    refine ⟨message, by simp only [onerror, hi]; rfl, fun _ => rfl, ?_⟩
    intro head rest he _
    exact absurd he (h1 hi head rest)
  | some k =>
    obtain ⟨head, rest, he, hk, hmin⟩ := h2 k hi
    have hslice : slice message (some 0) k = head := by
      rw [hk, he]
      simp [slice]
    refine ⟨head, by simp only [onerror, hi, hslice]; rfl, ?_, ?_⟩
    · intro hne
      exact absurd he (hne head rest)
    · intro head2 rest2 he2 hmin2
      have hlen : head2.length = head.length :=
        Nat.le_antisymm (hmin2 head rest he) (hmin head2 rest2 he2)
      have := he.symm.trans he2
      simp only [List.append_assoc] at this
      exact List.append_inj_left this hlen.symm

/-- The start of a message up to a LF is its first line when it has neither LF
nor CR. -/
theorem firstLine_of_head (head rest : Str) (h : ∀ c ∈ head, c ≠ 10 ∧ c ≠ 13) :
    firstLine (head ++ lit "\nLine" ++ rest) = head := by
  unfold firstLine
  rw [List.append_assoc]
  exact takeWhile_run _ head _ (fun c hc => by simpa using h c hc)
    (Or.inr ⟨10, _, rfl, by decide⟩)

/-- A start without LF is before every occurrence of `\nLine`. -/
theorem head_is_first (head rest head2 rest2 : Str) (h : ∀ c ∈ head, c ≠ 10 ∧ c ≠ 13)
    (he : head ++ lit "\nLine" ++ rest = head2 ++ lit "\nLine" ++ rest2) :
    head.length ≤ head2.length := by
  by_contra hlt
  have hlt : head2.length < head.length := by omega
  have h1 : (head ++ lit "\nLine" ++ rest)[head2.length]? = some 10 := by
    rw [he, List.append_assoc, List.getElem?_append_right (le_refl _)]
    simp [lit]
  rw [List.append_assoc, List.getElem?_append_left hlt] at h1
  have hmem : (10 : Nat) ∈ head := List.getElem?_mem h1
  exact (h 10 hmem).1 rfl

/-! ## Lemmas on the character classes -/

theorem pubidClass_iff (u : Nat) : pubidClass u = true ↔ XmlPubidChar u := by
  simp only [pubidClass, XmlPubidChar, Bool.or_eq_true, Bool.and_eq_true, beq_iff_eq,
    decide_eq_true_eq]
  omega

theorem nameStartClass_iff (u : Nat) : nameStartClass u = true ↔ XmlNameStartChar u := by
  simp only [nameStartClass, XmlNameStartChar, Bool.or_eq_true, Bool.and_eq_true, beq_iff_eq,
    decide_eq_true_eq]
  omega

theorem nameExtraClass_iff (u : Nat) : nameExtraClass u = true ↔ XmlNameExtraChar u := by
  simp only [nameExtraClass, XmlNameExtraChar, Bool.or_eq_true, Bool.and_eq_true, beq_iff_eq,
    decide_eq_true_eq]
  omega

theorem isNameChar_iff (c : Nat) :
    isNameChar (some c) = true ↔
      isNameStartChar (some c) = true ∨ nameExtraClass (fromCharCode c) = true := by
  simp only [isNameChar, Bool.or_eq_true]

/-- A surrogate is in none of the three classes of names and whitespace. -/
theorem surrogate_in_no_class {c : Nat} (h : IsSurrogate c) :
    isSpace (some c) = false ∧ isNameStartChar (some c) = false ∧ isNameChar (some c) = false := by
  have hc : c < 65536 := by unfold IsSurrogate at h; omega
  have h1 : ¬ XmlNameStartChar c := by unfold XmlNameStartChar IsSurrogate at *; omega
  have h2 : ¬ XmlNameExtraChar c := by unfold XmlNameExtraChar IsSurrogate at *; omega
  have h3 : ¬ (c = 9 ∨ c = 10 ∨ c = 13 ∨ c = 32) := by unfold IsSurrogate at *; omega
  have e1 : isNameStartChar (some c) = false := by
    rw [← Bool.not_eq_true]
    simpa only [isNameStartChar, fromCharCode, Nat.mod_eq_of_lt hc, nameStartClass_iff] using h1
  refine ⟨?_, e1, ?_⟩
  · rw [← Bool.not_eq_true, isSpace_iff_of_unit hc]
    exact h3
  · rw [← Bool.not_eq_true, isNameChar_iff, e1, fromCharCode, Nat.mod_eq_of_lt hc,
      nameExtraClass_iff]
    simpa using h2

/-- The name of an accepted doctype body is made of name characters. -/
theorem name_of_accepted {value : Str} {r : Vars} (h : parseDoctype value = .ok r) :
    ∀ d ∈ r.node.name, isNameChar (some d) = true := by
  have key : ∀ n, IsName n → ∀ d ∈ n, isNameChar (some d) = true := by
    rintro n ⟨c, cs, rfl, hc, hcs⟩ d hd
    rcases List.mem_cons.mp hd with rfl | hd
    · rw [isNameChar_iff]
      exact Or.inl hc
    · exact hcs d hd
  rcases parseDoctype_complete h with ⟨n, hn, hv⟩ | ⟨n, s, hn, hv⟩ | ⟨n, p, s, hn, hv⟩
  · obtain ⟨s1, s2, _, _, hname, _⟩ := hn
    rw [hv]
    exact key n hname
  · obtain ⟨s1, s2, s3, l, s4, _, _, hname, _⟩ := hn
    rw [hv]
    exact key n hname
  · obtain ⟨s1, s2, s3, pl, s4, sl, s5, _, _, hname, _⟩ := hn
    rw [hv]
    exact key n hname

/-! ## The loop of `ondoctype`, read forward -/

theorem reading_start (value : Str) : Reading value value Vars.initial :=
  ⟨0, Nat.zero_le _, rfl, rfl⟩

/-- One more iteration, on a character the state machine takes. -/
theorem reading_step {value rest : Str} {c : Nat} {v : Vars} (P : Vars → Prop)
    (h : Reading value (c :: rest) v)
    (hs : ∀ i, codeAt value i = some c → ∃ w, step value i v = .ok w ∧ P w) :
    ∃ w, Reading value rest w ∧ P w := by
  obtain ⟨i, _, hd, hl⟩ := h
  obtain ⟨w, hw, hP⟩ := hs i (codeAt_of_drop_cons hd)
  have hlt : i < value.length := by
    by_contra hge
    rw [List.drop_eq_nil_of_le (by omega)] at hd
    cases hd
  refine ⟨w, ⟨i + 1, hlt, drop_succ_of_drop_cons hd, ?_⟩, hP⟩
  rw [loop_add value i 1 0 Vars.initial, hl]
  simp only [loop_one, Nat.zero_add, hw]

/-- A run of characters on which the variables stay as they are. -/
theorem reading_skip {value : Str} {v : Vars} (P : Nat → Prop)
    (hstay : ∀ j c, codeAt value j = some c → P c → step value j v = .ok v) :
    ∀ (seg rest : Str), Reading value (seg ++ rest) v → (∀ c ∈ seg, P c) →
      Reading value rest v := by
  intro seg
  induction seg with
  | nil => intro rest h _; exact h
  | cons c seg ih =>
    intro rest h hP
    obtain ⟨w, hw, rfl⟩ := reading_step (fun w => w = v) h
      (fun i hi => ⟨v, hstay i c hi (hP c (List.mem_cons_self _ _)), rfl⟩)
    exact ih rest hw (fun d hd => hP d (List.mem_cons_of_mem _ hd))

/-- The iteration on the end-of-input sentinel fails: so does the loop. -/
theorem reading_end {value : Str} {v : Vars} {f : Failure} (h : Reading value [] v)
    (hs : ∀ i, codeAt value i = none → step value i v = .error f) :
    parseDoctype value = .error f := by
  obtain ⟨i, hi, hd, hl⟩ := h
  exact parseDoctype_fails_at hi hl (hs i (codeAt_of_drop_nil hd))

/-- One character of the keyword in state `IN_EID`. -/
theorem reading_keyword {value rest buf : Str} {c bi : Nat} {v : Vars} {rs : State}
    (h : Reading value (c :: rest) v) (hq : v.state = State.IN_EID)
    (hrs : v.returnState = some rs) (hbuf : v.buffer = some buf) (hbi : v.bufferIndex = some bi)
    (hc : charCodeAt buf (bi + 1) = some c) :
    ∃ w, Reading value rest w ∧
      (w.state = if bi + 1 = buf.length - 1 then rs else State.IN_EID) ∧
      w.returnState = some rs ∧ w.buffer = some buf ∧ w.bufferIndex = some (bi + 1) := by
  have hne : buf ≠ [] := by
    rintro rfl
    cases hc
  apply reading_step (fun w => (w.state = if bi + 1 = buf.length - 1 then rs else State.IN_EID) ∧
      w.returnState = some rs ∧ w.buffer = some buf ∧ w.bufferIndex = some (bi + 1)) h
  intro i hi
  have hse : buf ≠ [] ∧ strictEq (some c) (charCodeAt buf (bi + 1)) = true := by
    rw [hc]
    exact ⟨hne, by simp [strictEq]⟩
  by_cases hlast : bi + 1 = buf.length - 1
  · refine ⟨{ v with bufferIndex := some (bi + 1), state := rs }, ?_, ?_, hrs, hbuf, rfl⟩
    · simp only [step, hq, hrs, hbuf, hbi, hi]
      rw [if_pos hse, if_pos hlast]
    · rw [if_pos hlast]
  · refine ⟨{ v with bufferIndex := some (bi + 1) }, ?_, ?_, hrs, hbuf, rfl⟩
    · simp only [step, hq, hrs, hbuf, hbi, hi]
      rw [if_pos hse, if_neg hlast]
    · rw [if_neg hlast]
      exact hq

/-- The loop on `S+ Name S+ 'PUBLIC' S+ PubidLiteral`: it stands behind the
public literal in state `AFTER_PUBLIC_LITERAL`. -/
theorem reading_public_literal {value s1 n s2 s3 pl pub rest : Str}
    (hv : value = s1 ++ n ++ s2 ++ lit "PUBLIC" ++ s3 ++ pl ++ rest)
    (h1 : Spaces1 s1) (hn : IsName n) (h2 : Spaces1 s2) (h3 : Spaces1 s3)
    (hpl : IsPubidLiteral pl pub) :
    ∃ v, Reading value rest v ∧ v.state = State.AFTER_PUBLIC_LITERAL := by
  obtain ⟨c1, t1, rfl, hc1, ht1⟩ := spaces1_iff.mp h1
  obtain ⟨c, cs, rfl, hc, hcs⟩ := hn
  obtain ⟨c2, t2, rfl, hc2, ht2⟩ := spaces1_iff.mp h2
  obtain ⟨c3, t3, rfl, hc3, ht3⟩ := spaces1_iff.mp h3
  obtain ⟨q, hq, rfl, hbody⟩ := hpl
  have h0 := reading_start value
  rw [lit_PUBLIC] at hv
  simp only [List.cons_append, List.append_assoc, List.nil_append] at hv
  nth_rewrite 2 [hv] at h0
  -- BEGIN
  obtain ⟨v1, r1, q1⟩ := reading_step (fun w => w.state = State.BEFORE_NAME) h0
    (fun i hi => ⟨{ Vars.initial with state := State.BEFORE_NAME },
      by simp [step, Vars.initial, hi, hc1], rfl⟩)
  -- BEFORE_NAME
  have r1 := reading_skip _ (stay_space value (Or.inl q1)) _ _ r1 ht1
  obtain ⟨v2, r2, q2⟩ := reading_step (fun w => w.state = State.IN_NAME) r1
    (fun i hi => ⟨{ v1 with state := State.IN_NAME, start := some i }, by
      have hns : isSpace (some c) = false := by
        cases hsp : isSpace (some c) with
        | false => rfl
        | true => rw [isSpace_not_nameStartChar hsp] at hc; cases hc
      simp [step, q1, hi, hc, hns], rfl⟩)
  -- IN_NAME
  have r2 := reading_skip (fun d => isNameChar (some d) = true)
    (fun j d hj hd => by simp [step, q2, hj, hd]) _ _ r2 hcs
  obtain ⟨v3, r3, q3⟩ := reading_step (fun w => w.state = State.AFTER_NAME) r2
    (fun i hi => ⟨{ v2 with state := State.AFTER_NAME,
                            node := { v2.node with name := slice value v2.start i } },
      by simp [step, q2, hi, hc2, isSpace_not_nameChar hc2], rfl⟩)
  -- AFTER_NAME
  have r3 := reading_skip _ (stay_space value (Or.inr (Or.inl q3))) _ _ r3 ht2
  obtain ⟨v4, r4, q4, rs4, b4, i4⟩ := reading_step
    (fun w => w.state = State.IN_EID ∧ w.returnState = some State.AFTER_PUBLIC ∧
      w.buffer = some (lit "PUBLIC") ∧ w.bufferIndex = some 0) r3
    (fun i hi => ⟨{ v3 with state := State.IN_EID, returnState := some State.AFTER_PUBLIC,
                            buffer := some (lit "PUBLIC"), bufferIndex := some 0 }, by
      have : isSpace (some 80) = false := by decide
      simp [step, q3, hi, this], rfl, rfl, rfl, rfl⟩)
  -- IN_EID
  obtain ⟨v5, r5, q5, rs5, b5, i5⟩ := reading_keyword r4 q4 rs4 b4 i4 rfl
  obtain ⟨v6, r6, q6, rs6, b6, i6⟩ := reading_keyword r5 q5 rs5 b5 i5 rfl
  obtain ⟨v7, r7, q7, rs7, b7, i7⟩ := reading_keyword r6 q6 rs6 b6 i6 rfl
  obtain ⟨v8, r8, q8, rs8, b8, i8⟩ := reading_keyword r7 q7 rs7 b7 i7 rfl
  obtain ⟨v9, r9, q9, _⟩ := reading_keyword r8 q8 rs8 b8 i8 rfl
  have q9 : v9.state = State.AFTER_PUBLIC := q9
  -- AFTER_PUBLIC
  obtain ⟨v10, r10, q10⟩ := reading_step (fun w => w.state = State.BEFORE_PUBLIC_LITERAL) r9
    (fun i hi => ⟨{ v9 with state := State.BEFORE_PUBLIC_LITERAL },
      by simp [step, q9, hi, hc3], rfl⟩)
  -- BEFORE_PUBLIC_LITERAL
  have r10 := reading_skip _
    (stay_space value (Or.inr (Or.inr (Or.inl q10)))) _ _ r10 ht3
  obtain ⟨v11, r11, q11, m11⟩ := reading_step
    (fun w => w.state = State.IN_PUBLIC_LITERAL ∧ w.marker = some q) r10
    (fun i hi => ⟨{ v10 with state := State.IN_PUBLIC_LITERAL, start := some (i + 1),
                               marker := some q }, by
      have hq2 : q = 34 ∨ q = 39 := hq
      simp [step, q10, hi, isQuote_not_space hq, hq2], rfl, rfl⟩)
  -- IN_PUBLIC_LITERAL
  have r11 := reading_skip (fun d => isPubidChar (some d) = true ∧ d ≠ q)
    (fun j d hj hd => by simp [step, q11, m11, hj, hd.1, hd.2, strictEq]) _ _ r11 hbody
  obtain ⟨v12, r12, q12⟩ := reading_step (fun w => w.state = State.AFTER_PUBLIC_LITERAL) r11
    (fun i hi => ⟨{ v11 with state := State.AFTER_PUBLIC_LITERAL,
                               node := { v11.node with
                                 «public» := some (slice value v11.start i) } },
      by simp [step, q11, m11, hi, strictEq], rfl⟩)
  exact ⟨v12, r12, q12⟩

/-- A body `S+ Name S+ 'PUBLIC' S+ PubidLiteral S*` is rejected, with the
identifier `doctype-system-literal`. -/
theorem public_without_system {value s1 n s2 s3 pl pub s4 : Str}
    (hv : value = s1 ++ n ++ s2 ++ lit "PUBLIC" ++ s3 ++ pl ++ s4)
    (h1 : Spaces1 s1) (hn : IsName n) (h2 : Spaces1 s2) (h3 : Spaces1 s3)
    (hpl : IsPubidLiteral pl pub) (h4 : Spaces s4) :
    ∃ f, parseDoctype value = .error f ∧ f.id = lit "doctype-system-literal" := by
  obtain ⟨v, r, q⟩ := reading_public_literal hv h1 hn h2 h3 hpl
  cases s4 with
  | nil =>
    exact ⟨⟨lit "Expected whitespace after public literal", lit "doctype-system-literal"⟩,
      reading_end r (fun i hi => by simp [step, q, hi, isSpace]), rfl⟩
  | cons c t =>
    obtain ⟨w, rw, qw⟩ := reading_step (fun w => w.state = State.BEFORE_SYSTEM_LITERAL) r
      (fun i hi => ⟨{ v with state := State.BEFORE_SYSTEM_LITERAL },
        by simp [step, q, hi, h4 c (List.mem_cons_self _ _)], rfl⟩)
    have rw2 := reading_skip _
      (stay_space value (Or.inr (Or.inr (Or.inr (Or.inl qw))))) t [] (by simpa using rw)
      (fun d hd => h4 d (List.mem_cons_of_mem _ hd))
    exact ⟨⟨lit "Expected quote or apostrophe to start system literal",
        lit "doctype-system-literal"⟩,
      reading_end rw2 (fun i hi => by simp [step, qw, hi, isSpace]), rfl⟩

/-! ## Lemmas on the handlers: what a handler that returns has done -/

@[simp] theorem Node.position_setPosition (p : Option Position) (n : Node) :
    (n.setPosition p).position = p := by
  cases n; rfl

@[simp] theorem Node.children_setPosition (p : Option Position) (n : Node) :
    (n.setPosition p).children = n.children := by
  cases n; rfl

@[simp] theorem Node.type_setPosition (p : Option Position) (n : Node) :
    (n.setPosition p).type = n.type := by
  cases n; rfl

@[simp] theorem Node.value_setPosition (p : Option Position) (n : Node) :
    (n.setPosition p).value = n.value := by
  cases n; rfl

@[simp] theorem Node.children_pushChild (n c : Node) :
    (n.pushChild c).children = some (n.children.getD [] ++ [c]) := by
  cases n; rfl

@[simp] theorem Node.position_pushChild (n c : Node) :
    (n.pushChild c).position = n.position := by
  cases n; rfl

@[simp] theorem Node.type_pushChild (n c : Node) : (n.pushChild c).type = n.type := by
  cases n; rfl

@[simp] theorem Node.value_pushChild (n c : Node) : (n.pushChild c).value = n.value := by
  cases n; rfl

@[simp] theorem Node.children_setValue (v : Str) (n : Node) :
    (n.setValue v).children = n.children := by
  cases n; rfl

@[simp] theorem Node.position_setValue (v : Str) (n : Node) :
    (n.setValue v).position = n.position := by
  cases n; rfl

@[simp] theorem Node.type_setValue (v : Str) (n : Node) : (n.setValue v).type = n.type := by
  cases n; rfl

@[simp] theorem Node.value_setValue (v : Str) (n : Node) : (n.setValue v).value = some v := by
  cases n; rfl

theorem Node.setEnd_of_position {n : Node} {pos : Position} (e : Point)
    (h : n.position = some pos) :
    n.setEnd e = n.setPosition (some { pos with «end» := some e }) := by
  simp only [Node.setEnd, h]

/-- What `enter` has done when it returns. -/
theorem enter_ok {parser : Cursor} {node : Node} {b b2 : Builder}
    (h : enter parser node b = .ok b2) :
    ∃ top below cs, b.stack = top :: below ∧ top.children = some cs ∧
      b2 = { stack := node.setPosition (some { start := b.position, «end» := none }) :: b.stack
             position := now parser
             searchLastIndex := b.searchLastIndex } := by
  unfold enter at h
  cases hs : b.stack with
  | nil => simp only [hs] at h; cases h
  | cons top below =>
    cases hc : top.children with
    | none => simp only [hs, hc] at h; cases h
    | some cs =>
      simp only [hs, hc] at h
      exact ⟨top, below, cs, rfl, hc, (Result.ok.inj h).symm⟩

/-- When `enter` throws, it is the `TypeError`, and nothing has changed. -/
theorem enter_thrown {parser : Cursor} {node : Node} {b b2 : Builder} {e : Thrown}
    (h : enter parser node b = .thrown e b2) : e = .typeError ∧ b2 = b := by
  unfold enter at h
  cases hs : b.stack with
  | nil =>
    simp only [hs] at h
    cases h
    exact ⟨rfl, rfl⟩
  | cons top below =>
    cases hc : top.children with
    | none =>
      simp only [hs, hc] at h
      cases h
      exact ⟨rfl, rfl⟩
    | some cs => simp only [hs, hc] at h; cases h

/-- What `exit` has done when it returns. -/
theorem exit_ok {parser : Cursor} {b b2 : Builder} (h : exit parser b = .ok b2) :
    ∃ tail rest pos, b.stack = tail :: rest ∧ tail.position = some pos ∧
      b2 = { stack := (match rest with
               | [] => []
               | parent :: below => parent.pushChild (tail.setEnd (now parser)) :: below)
             position := now parser
             searchLastIndex := b.searchLastIndex } := by
  unfold exit at h
  cases hs : b.stack with
  | nil => simp only [hs] at h; cases h
  | cons tail rest =>
    cases hp : tail.position with
    | none => simp only [hs, hp] at h; cases h
    | some pos =>
      simp only [hs, hp] at h
      exact ⟨tail, rest, pos, rfl, hp, (Result.ok.inj h).symm⟩

/-- When `exit` throws, it is `Error('Expected tail')`: the stack was empty, or
the popped node has no position. -/
theorem exit_thrown {parser : Cursor} {b b2 : Builder} {e : Thrown}
    (h : exit parser b = .thrown e b2) :
    e = .error (lit "Expected tail") ∧
      ((b.stack = [] ∧ b2 = b) ∨
        ∃ tail rest, b.stack = tail :: rest ∧ tail.position = none ∧
          b2 = { b with stack := rest }) := by
  unfold exit at h
  cases hs : b.stack with
  | nil =>
    simp only [hs] at h
    cases h
    exact ⟨rfl, Or.inl ⟨rfl, rfl⟩⟩
  | cons tail rest =>
    cases hp : tail.position with
    | none =>
      simp only [hs, hp] at h
      cases h
      exact ⟨rfl, Or.inr ⟨tail, rest, rfl, hp, rfl⟩⟩
    | some pos => simp only [hs, hp] at h; cases h

/-- What `enter(node)`, `exit()` and the corrected end have done when they
return; when they throw, it is the `TypeError` of `enter`, and nothing has
changed. -/
theorem leaf_cases (parser : Cursor) (node : Node) (actualEnd : Point) (b : Builder) :
    (∃ top below cs, b.stack = top :: below ∧ top.children = some cs ∧
      (((enter parser node b).andThen (exit parser)).andThen
          fun b2 => .ok (reconcile actualEnd b2)) =
        .ok { stack :=
                top.pushChild (node.setPosition
                  (some { start := b.position, «end» := some actualEnd })) :: below
              position := actualEnd
              searchLastIndex := b.searchLastIndex }) ∨
    (((enter parser node b).andThen (exit parser)).andThen
        fun b2 => .ok (reconcile actualEnd b2)) = .thrown .typeError b := by
  cases hs : b.stack with
  | nil =>
    right
    simp only [enter, hs, Result.andThen]
  | cons top below =>
    cases hc : top.children with
    | none =>
      right
      simp only [enter, hs, hc, Result.andThen]
    | some cs =>
      left
      exact ⟨top, below, cs, rfl, hc, leaf_reconciled parser node actualEnd b top below cs hs hc⟩

/-- The same for `enter(node)` and `exit()` alone. -/
theorem entered_cases (parser : Cursor) (node : Node) (b : Builder) :
    (∃ top below cs, b.stack = top :: below ∧ top.children = some cs ∧
      (enter parser node b).andThen (exit parser) =
        .ok { stack :=
                top.pushChild (node.setPosition
                  (some { start := b.position, «end» := some (now parser) })) :: below
              position := now parser
              searchLastIndex := b.searchLastIndex }) ∨
    (enter parser node b).andThen (exit parser) = .thrown .typeError b := by
  cases hs : b.stack with
  | nil =>
    right
    simp only [enter, hs, Result.andThen]
  | cons top below =>
    cases hc : top.children with
    | none =>
      right
      simp only [enter, hs, hc, Result.andThen]
    | some cs =>
      left
      exact ⟨top, below, cs, rfl, hc, leaf_entered parser node b top below cs hs hc⟩

/-- What the handler of an event has done when it returns: a leaf event has
appended a sealed node to the stack top and moved the baseline to its end, an
enter event has pushed an open node and moved the baseline to the clock, an
exit event has sealed the top and handed it to the node below, and a CDATA
chunk has extended the `value` of the top. -/
theorem handle_ok {parser : Cursor} {e : Event} {b b2 : Builder}
    (h : handle parser e b = .ok b2) :
    (e.isLeaf = true ∧ ∃ (top : Node) (below cs : List Node) (node : Node) (stop : Point),
      b.stack = top :: below ∧ top.children = some cs ∧ node.children = none ∧
      b2.stack =
        top.pushChild (node.setPosition (some { start := b.position, «end» := some stop })) ::
          below ∧
      b2.position = stop ∧
      (stop = now parser ∨
        stop = { line := (now parser).line, column := (now parser).column + 1,
                 offset := (now parser).offset + 1 } ∨
        stop = textEnd b.position (node.value.getD [])) ∧
      (node.type = .text →
        ∃ value, node.value = some value ∧ stop = textEnd b.position value)) ∨
    (e.isEnter = true ∧ ∃ (top : Node) (below cs : List Node) (node : Node),
      b.stack = top :: below ∧ top.children = some cs ∧
      (node.children = none ∨ node.children = some []) ∧ node.type ≠ .text ∧
      b2.stack = node.setPosition (some { start := b.position, «end» := none }) :: b.stack ∧
      b2.position = now parser) ∨
    (e.isExit = true ∧ ∃ (tail : Node) (rest : List Node) (pos : Position),
      b.stack = tail :: rest ∧ tail.position = some pos ∧
      b2.stack = (match rest with
        | [] => []
        | parent :: below => parent.pushChild (tail.setEnd (now parser)) :: below) ∧
      b2.position = now parser) ∨
    (∃ (value : Str) (top : Node) (below : List Node), e = .cdata value ∧ b.stack = top :: below ∧
      b2.stack = top.setValue (top.value.getD (lit "undefined") ++ value) :: below ∧
      b2.position = b.position) := by
  cases e with
  | doctype value =>
    left
    simp only [handle, ondoctype] at h
    cases hp : parseDoctype value with
    | error f => simp only [hp, fail] at h; cases h
    | ok v =>
      simp only [hp] at h
      rcases entered_cases parser _ b with ⟨top, below, cs, hs, hc, hok⟩ | hthrown
      · rw [hok] at h
        cases h
        exact ⟨rfl, top, below, cs,
          (.mk .doctype (some v.node.name) none v.node.«public» v.node.system none none none),
          _, hs, hc, rfl, rfl, rfl, Or.inl rfl, fun ht => by cases ht⟩
      · rw [hthrown] at h; cases h
  | sgmldeclaration => simp only [handle, onsgmldeclaration, fail] at h; cases h
  | processinginstruction name body =>
    left
    simp only [handle, onprocessinginstruction] at h
    rcases entered_cases parser _ b with ⟨top, below, cs, hs, hc, hok⟩ | hthrown
    · rw [hok] at h
      cases h
      exact ⟨rfl, top, below, cs,
        (.mk .instruction (some name) none none none (some body) none none), _, hs, hc, rfl,
        rfl, rfl, Or.inl rfl,
        fun ht => by cases ht⟩
    · rw [hthrown] at h; cases h
  | text value =>
    left
    simp only [handle, ontext] at h
    rcases leaf_cases parser (.mk .text none none none none (some value) none none)
      { (scanText value b.position b.searchLastIndex).actualEnd with
        offset := (scanText value b.position b.searchLastIndex).actualEnd.offset +
          value.length }
      { b with searchLastIndex := (scanText value b.position b.searchLastIndex).lastIndex }
      with ⟨top, below, cs, hs, hc, hok⟩ | hthrown
    · rw [hok] at h
      cases h
      rw [scanText_actualEnd]
      exact ⟨rfl, top, below, cs, (.mk .text none none none none (some value) none none), _,
        hs, hc, rfl, rfl, rfl, Or.inr (Or.inr rfl),
        fun _ => ⟨value, rfl, rfl⟩⟩
    · rw [hthrown] at h; cases h
  | comment value =>
    left
    simp only [handle, oncomment] at h
    rcases leaf_cases parser (.mk .comment none none none none (some value) none none)
      { line := (now parser).line, column := (now parser).column + 1,
        offset := (now parser).offset + 1 } b with ⟨top, below, cs, hs, hc, hok⟩ | hthrown
    · rw [hok] at h
      cases h
      exact ⟨rfl, top, below, cs, (.mk .comment none none none none (some value) none none), _,
        hs, hc, rfl, rfl, rfl, Or.inr (Or.inl rfl),
        fun ht => by cases ht⟩
    · rw [hthrown] at h; cases h
  | opencdata =>
    right; left
    simp only [handle, oncdataopen] at h
    obtain ⟨top, below, cs, hs, hc, rfl⟩ := enter_ok h
    exact ⟨rfl, top, below, cs, (.mk .cdata none none none none (some []) none none), hs, hc,
      Or.inl rfl, by simp [Node.type], rfl, rfl⟩
  | cdata value =>
    right; right; right
    simp only [handle, oncdatavalue] at h
    cases hs : b.stack with
    | nil => simp only [hs] at h; cases h
    | cons top below =>
      simp only [hs] at h
      cases h
      exact ⟨value, top, below, rfl, rfl, rfl, rfl⟩
  | closecdata =>
    right; right; left
    simp only [handle] at h
    obtain ⟨tail, rest, pos, hs, hp, rfl⟩ := exit_ok h
    exact ⟨rfl, tail, rest, pos, hs, hp, rfl, rfl⟩
  | opentag name attributes =>
    right; left
    simp only [handle, onopen] at h
    obtain ⟨top, below, cs, hs, hc, rfl⟩ := enter_ok h
    exact ⟨rfl, top, below, cs,
      (.mk .element (some name) (some attributes) none none none (some []) none), hs, hc,
      Or.inr rfl, by simp [Node.type], rfl, rfl⟩
  | closetag =>
    right; right; left
    simp only [handle] at h
    obtain ⟨tail, rest, pos, hs, hp, rfl⟩ := exit_ok h
    exact ⟨rfl, tail, rest, pos, hs, hp, rfl, rfl⟩
  | error message =>
    simp only [handle, onerror] at h
    cases hi : indexOf message (lit "\nLine") <;> simp only [hi, fail] at h <;> cases h

/-- The stack a handler leaves when it throws: the stack as it was, unless it
is `exit` that throws on a node without position, which it has popped. -/
theorem handle_thrown {parser : Cursor} {e : Event} {b b2 : Builder} {err : Thrown}
    (h : handle parser e b = .thrown err b2) :
    b2.stack = b.stack ∨
      (e.isExit = true ∧ ∃ tail, b.stack = tail :: b2.stack ∧ tail.position = none) := by
  have hexit : ∀ {b3 : Builder} {err2 : Thrown}, exit parser b = .thrown err2 b3 →
      b3.stack = b.stack ∨ ∃ tail, b.stack = tail :: b3.stack ∧ tail.position = none := by
    intro b3 err2 h3
    rcases (exit_thrown h3).2 with ⟨_, rfl⟩ | ⟨tail, rest, hs, hp, rfl⟩
    · exact Or.inl rfl
    · exact Or.inr ⟨tail, hs, hp⟩
  cases e with
  | doctype value =>
    left
    simp only [handle, ondoctype] at h
    cases hp : parseDoctype value with
    | error f => simp only [hp, fail] at h; cases h; rfl
    | ok v =>
      simp only [hp] at h
      rcases entered_cases parser _ b with ⟨top, below, cs, hs, hc, hok⟩ | hthrown
      · rw [hok] at h; cases h
      · rw [hthrown] at h; cases h; rfl
  | sgmldeclaration => left; simp only [handle, onsgmldeclaration, fail] at h; cases h; rfl
  | processinginstruction name body =>
    left
    simp only [handle, onprocessinginstruction] at h
    rcases entered_cases parser _ b with ⟨top, below, cs, hs, hc, hok⟩ | hthrown
    · rw [hok] at h; cases h
    · rw [hthrown] at h; cases h; rfl
  | text value =>
    left
    simp only [handle, ontext] at h
    rcases leaf_cases parser (.mk .text none none none none (some value) none none)
      { (scanText value b.position b.searchLastIndex).actualEnd with
        offset := (scanText value b.position b.searchLastIndex).actualEnd.offset +
          value.length }
      { b with searchLastIndex := (scanText value b.position b.searchLastIndex).lastIndex }
      with ⟨top, below, cs, hs, hc, hok⟩ | hthrown
    · rw [hok] at h; cases h
    · rw [hthrown] at h; cases h; rfl
  | comment value =>
    left
    simp only [handle, oncomment] at h
    rcases leaf_cases parser (.mk .comment none none none none (some value) none none)
      { line := (now parser).line, column := (now parser).column + 1,
        offset := (now parser).offset + 1 } b with ⟨top, below, cs, hs, hc, hok⟩ | hthrown
    · rw [hok] at h; cases h
    · rw [hthrown] at h; cases h; rfl
  | opencdata =>
    left
    simp only [handle, oncdataopen] at h
    rw [(enter_thrown h).2]
  | cdata value =>
    left
    simp only [handle, oncdatavalue] at h
    cases hs : b.stack with
    | nil => simp only [hs] at h; cases h; exact hs
    | cons top below => simp only [hs] at h; cases h
  | closecdata =>
    simp only [handle] at h
    exact (hexit h).imp id fun x => ⟨rfl, x⟩
  | opentag name attributes =>
    left
    simp only [handle, onopen] at h
    rw [(enter_thrown h).2]
  | closetag =>
    simp only [handle] at h
    exact (hexit h).imp id fun x => ⟨rfl, x⟩
  | error message =>
    left
    simp only [handle, onerror] at h
    cases hi : indexOf message (lit "\nLine") <;> simp only [hi, fail] at h <;> cases h <;> rfl

/-! ## Lemmas on the stack discipline -/

theorem rootAtBottom_replace {top top2 : Node} {below : List Node}
    (h : RootAtBottom (top :: below)) (ht : top2.type = top.type)
    (hp : top2.position = top.position) : RootAtBottom (top2 :: below) := by
  obtain ⟨above, root, hs, hr, hn, ha⟩ := h
  cases above with
  | nil =>
    simp only [List.nil_append, List.cons.injEq] at hs
    obtain ⟨rfl, rfl⟩ := hs
    exact ⟨[], top2, rfl, ht.trans hr, hp.trans hn, fun _ hm => absurd hm (List.not_mem_nil _)⟩
  | cons a above =>
    simp only [List.cons_append, List.cons.injEq] at hs
    obtain ⟨rfl, rfl⟩ := hs
    refine ⟨top2 :: above, root, rfl, hr, hn, fun n hm => ?_⟩
    rcases List.mem_cons.mp hm with rfl | hm
    · rw [hp]
      exact ha top (List.mem_cons_self _ _)
    · exact ha n (List.mem_cons_of_mem _ hm)

theorem rootAtBottom_push {node : Node} {stack : List Node} (h : RootAtBottom stack)
    (hp : node.position ≠ none) : RootAtBottom (node :: stack) := by
  obtain ⟨above, root, rfl, hr, hn, ha⟩ := h
  refine ⟨node :: above, root, rfl, hr, hn, fun n hm => ?_⟩
  rcases List.mem_cons.mp hm with rfl | hm
  · exact hp
  · exact ha n hm

theorem rootAtBottom_pop {tail parent : Node} {below : List Node}
    (h : RootAtBottom (tail :: parent :: below)) :
    RootAtBottom (parent :: below) ∧ tail.position ≠ none := by
  obtain ⟨above, root, hs, hr, hn, ha⟩ := h
  cases above with
  | nil =>
    simp only [List.nil_append, List.cons.injEq] at hs
    cases hs.2
  | cons a above =>
    simp only [List.cons_append, List.cons.injEq] at hs
    obtain ⟨rfl, hs⟩ := hs
    exact ⟨⟨above, root, hs, hr, hn, fun n hm => ha n (List.mem_cons_of_mem _ hm)⟩,
      ha tail (List.mem_cons_self _ _)⟩

theorem event_kinds (e : Event) :
    (e.isLeaf = true → e.isEnter = false ∧ e.isExit = false) ∧
    (e.isEnter = true → e.isExit = false) ∧
    (∀ value, e = .cdata value → e.isEnter = false ∧ e.isExit = false) := by
  cases e <;> simp [Event.isLeaf, Event.isEnter, Event.isExit]

/-- The stack through a run in which every exit event has an enter event to
close: the root stays at the bottom, and when the run returns the depth is
one more than the number of enter events left open. -/
theorem run_shape : ∀ (events : List (Cursor × Event)) (d : Nat) (b : Builder),
    RootAtBottom b.stack → b.stack.length = d + 1 → nesting d events ≠ none →
    RootAtBottom (run events b).builder.stack ∧
      ∀ b2, run events b = .ok b2 →
        ∃ d2, nesting d events = some d2 ∧ b2.stack.length = d2 + 1 := by
  intro events
  induction events with
  | nil =>
    intro d b hb hl _
    exact ⟨hb, fun b2 h2 => ⟨d, rfl, by cases h2; exact hl⟩⟩
  | cons pe rest ih =>
    obtain ⟨parser, e⟩ := pe
    intro d b hb hl hn
    simp only [run]
    cases hh : handle parser e b with
    | ok b1 =>
      simp only [Result.andThen]
      rcases handle_ok hh with ⟨hk, top, below, cs, node, stop, hs, _, _, hs1, _⟩ |
        ⟨hk, top, below, cs, node, hs, _, _, _, hs1, _⟩ |
        ⟨hk, tail, rest2, pos, hs, hp, hs1, _⟩ | ⟨value, top, below, rfl, hs, hs1, _⟩
      · obtain ⟨k1, k2⟩ := (event_kinds e).1 hk
        have e1 : nesting d ((parser, e) :: rest) = nesting d rest := by simp [nesting, k1, k2]
        rw [e1] at hn ⊢
        rw [hs] at hb hl
        refine ih d b1 ?_ ?_ hn
        · rw [hs1]
          exact rootAtBottom_replace hb (by simp) (by simp)
        · rw [hs1]
          exact hl
      · have e1 : nesting d ((parser, e) :: rest) = nesting (d + 1) rest := by
          simp [nesting, hk]
        rw [e1] at hn ⊢
        refine ih (d + 1) b1 ?_ ?_ hn
        · rw [hs1]
          exact rootAtBottom_push hb (by simp)
        · rw [hs1, List.length_cons, hl]
      · have k1 : e.isEnter = false := by
          cases e <;> simp [Event.isExit] at hk <;> rfl
        cases d with
        | zero => simp [nesting, hk, k1] at hn
        | succ d =>
          have e1 : nesting (d + 1) ((parser, e) :: rest) = nesting d rest := by
            simp [nesting, hk, k1]
          rw [e1] at hn ⊢
          rw [hs] at hb hl
          cases rest2 with
          | nil => simp at hl
          | cons parent below =>
            simp only at hs1
            refine ih d b1 ?_ ?_ hn
            · rw [hs1]
              exact rootAtBottom_replace (rootAtBottom_pop hb).1 (by simp) (by simp)
            · rw [hs1]
              simpa using hl
      · have e1 : nesting d ((parser, Event.cdata value) :: rest) = nesting d rest := by
          simp [nesting, Event.isEnter, Event.isExit]
        rw [e1] at hn ⊢
        rw [hs] at hb hl
        refine ih d b1 ?_ ?_ hn
        · rw [hs1]
          exact rootAtBottom_replace hb (by simp) (by simp)
        · rw [hs1]
          exact hl
    | thrown err b1 =>
      simp only [Result.andThen, Result.builder]
      refine ⟨?_, fun b2 h2 => by cases h2⟩
      rcases handle_thrown hh with hs | ⟨hk, tail, hs, hp⟩
      · rw [hs]
        exact hb
      · have k1 : e.isEnter = false := by
          cases e <;> simp [Event.isExit] at hk <;> rfl
        cases d with
        | zero => simp [nesting, hk, k1] at hn
        | succ d =>
          rw [hs] at hb hl
          cases hb1 : b1.stack with
          | nil => rw [hb1] at hl; simp at hl
          | cons parent below =>
            rw [hb1] at hb
            exact absurd hp (rootAtBottom_pop hb).2

theorem nesting_enter {e : Event} (h : e.isEnter = true) (parser : Cursor)
    (rest : List (Cursor × Event)) (d : Nat) :
    nesting d ((parser, e) :: rest) = nesting (d + 1) rest := by
  simp [nesting, h]

theorem nesting_exit {e : Event} (h : e.isExit = true) (parser : Cursor)
    (rest : List (Cursor × Event)) (d : Nat) :
    nesting d ((parser, e) :: rest) =
      (match d with
        | 0 => none
        | k + 1 => nesting k rest) := by
  have k1 : e.isEnter = false := by
    cases e <;> simp [Event.isExit] at h <;> rfl
  cases d <;> simp [nesting, h, k1]

theorem nesting_other {e : Event} (h1 : e.isEnter = false) (h2 : e.isExit = false)
    (parser : Cursor) (rest : List (Cursor × Event)) (d : Nat) :
    nesting d ((parser, e) :: rest) = nesting d rest := by
  simp [nesting, h1, h2]

theorem nesting_append : ∀ (pre post : List (Cursor × Event)) (d : Nat),
    nesting d (pre ++ post) = (nesting d pre).bind fun d2 => nesting d2 post := by
  intro pre
  induction pre with
  | nil => intro post d; rfl
  | cons pe pre ih =>
    obtain ⟨parser, e⟩ := pe
    intro post d
    rw [List.cons_append]
    cases h1 : e.isEnter with
    | true => rw [nesting_enter h1, nesting_enter h1, ih]
    | false =>
      cases h2 : e.isExit with
      | true =>
        rw [nesting_exit h2, nesting_exit h2]
        cases d with
        | zero => rfl
        | succ d => exact ih post d
      | false => rw [nesting_other h1 h2, nesting_other h1 h2, ih]

/-- The handler of a leaf event leaves the stack as deep as it was, whether
it returns or throws. -/
theorem leaf_keeps_depth (parser : Cursor) (e : Event) (b : Builder) (hk : e.isLeaf = true) :
    (handle parser e b).builder.stack.length = b.stack.length := by
  obtain ⟨k1, k2⟩ := (event_kinds e).1 hk
  cases hh : handle parser e b with
  | ok b1 =>
    rcases handle_ok hh with ⟨_, top, below, cs, node, stop, hs, _, _, hs1, _⟩ |
      ⟨hk2, _⟩ | ⟨hk2, _⟩ | ⟨value, top, below, rfl, _⟩
    · simp only [Result.builder, hs1, hs, List.length_cons]
    · rw [k1] at hk2; cases hk2
    · rw [k2] at hk2; cases hk2
    · cases hk
  | thrown err b1 =>
    rcases handle_thrown hh with hs | ⟨hk2, _⟩
    · simp only [Result.builder, hs]
    · rw [k2] at hk2; cases hk2

theorem initial_rootAtBottom (start : Cursor) (lastIndex : Nat) :
    RootAtBottom (Builder.initial start lastIndex).stack :=
  ⟨[], _, rfl, rfl, rfl, fun _ hm => absurd hm (List.not_mem_nil _)⟩

/-! ## Lemmas on runs of events -/

theorem run_append : ∀ (pre post : List (Cursor × Event)) (b : Builder),
    run (pre ++ post) b = (run pre b).andThen (run post) := by
  intro pre
  induction pre with
  | nil => intro post b; rfl
  | cons pe pre ih =>
    obtain ⟨parser, e⟩ := pe
    intro post b
    simp only [List.cons_append, run]
    cases handle parser e b with
    | ok b1 => exact ih post b1
    | thrown err b1 => rfl

/-- The chunks of a CDATA section extend the `value` of the open CDATA node,
in the order of their arrival. -/
theorem run_chunks (type : NodeType) (position : Option Position) :
    ∀ (chunks : List (Cursor × Str)) (value : Str) (stack : List Node) (p : Point) (li : Nat),
    run (chunks.map fun c => (c.1, Event.cdata c.2))
        { stack := .mk type none none none none (some value) none position :: stack
          position := p, searchLastIndex := li } =
      .ok { stack := .mk type none none none none
                (some (value ++ (chunks.map Prod.snd).flatten)) none position :: stack
            position := p, searchLastIndex := li } := by
  intro chunks
  induction chunks with
  | nil => intro value stack p li; simp [run]
  | cons c chunks ih =>
    intro value stack p li
    simp only [List.map_cons, run, handle, oncdatavalue, Result.andThen, Node.setValue,
      Node.value, Option.getD_some, List.flatten_cons]
    rw [ih, List.append_assoc]

/-! ## Lemmas on `search.lastIndex` -/

/-- The end the loop of `ontext` computes does not depend on `search.lastIndex`. -/
theorem scanText_lastIndex (value : Str) (position : Point) (li1 li2 : Nat) :
    (scanText value position li1).actualEnd = (scanText value position li2).actualEnd := by
  unfold scanText
  rw [(scanLoop_spec value value.length
      { actualEnd := position, start := 0, lastIndex := li1 } (Nat.zero_le _) (by simp)).2,
    (scanLoop_spec value value.length
      { actualEnd := position, start := 0, lastIndex := li2 } (Nat.zero_le _) (by simp)).2]

theorem enter_visible (parser : Cursor) (node : Node) (stack : List Node) (p : Point)
    (li1 li2 : Nat) :
    (enter parser node ⟨stack, p, li1⟩).visible = (enter parser node ⟨stack, p, li2⟩).visible := by
  unfold enter
  cases stack with
  | nil => rfl
  | cons top below => cases hc : top.children <;> simp only [hc] <;> rfl

theorem exit_visible (parser : Cursor) (stack : List Node) (p : Point) (li1 li2 : Nat) :
    (exit parser ⟨stack, p, li1⟩).visible = (exit parser ⟨stack, p, li2⟩).visible := by
  unfold exit
  cases stack with
  | nil => rfl
  | cons tail rest => cases hp : tail.position <;> simp only [hp] <;> rfl

theorem leaf_visible (parser : Cursor) (node : Node) (actualEnd : Point) (stack : List Node)
    (p : Point) (li1 li2 : Nat) :
    (((enter parser node ⟨stack, p, li1⟩).andThen (exit parser)).andThen
        fun b2 => .ok (reconcile actualEnd b2)).visible =
      (((enter parser node ⟨stack, p, li2⟩).andThen (exit parser)).andThen
        fun b2 => .ok (reconcile actualEnd b2)).visible := by
  rcases leaf_cases parser node actualEnd ⟨stack, p, li1⟩ with
    ⟨top, below, cs, hs, hc, h1⟩ | h1
  · rw [h1, leaf_reconciled parser node actualEnd ⟨stack, p, li2⟩ top below cs hs hc]
    rfl
  · rcases leaf_cases parser node actualEnd ⟨stack, p, li2⟩ with
      ⟨top, below, cs, hs, hc, h2⟩ | h2
    · rw [leaf_reconciled parser node actualEnd ⟨stack, p, li1⟩ top below cs hs hc] at h1
      cases h1
    · rw [h1, h2]
      rfl

theorem entered_visible (parser : Cursor) (node : Node) (stack : List Node)
    (p : Point) (li1 li2 : Nat) :
    ((enter parser node ⟨stack, p, li1⟩).andThen (exit parser)).visible =
      ((enter parser node ⟨stack, p, li2⟩).andThen (exit parser)).visible := by
  rcases entered_cases parser node ⟨stack, p, li1⟩ with ⟨top, below, cs, hs, hc, h1⟩ | h1
  · rw [h1, leaf_entered parser node ⟨stack, p, li2⟩ top below cs hs hc]
    rfl
  · rcases entered_cases parser node ⟨stack, p, li2⟩ with ⟨top, below, cs, hs, hc, h2⟩ | h2
    · rw [leaf_entered parser node ⟨stack, p, li1⟩ top below cs hs hc] at h1
      cases h1
    · rw [h1, h2]
      rfl

/-- What a handler leaves visible does not depend on `search.lastIndex`. -/
theorem handle_visible (parser : Cursor) (e : Event) (stack : List Node) (p : Point)
    (li1 li2 : Nat) :
    (handle parser e ⟨stack, p, li1⟩).visible = (handle parser e ⟨stack, p, li2⟩).visible := by
  cases e with
  | doctype value =>
    simp only [handle, ondoctype]
    cases parseDoctype value with
    | error f => rfl
    | ok v => exact entered_visible parser _ stack p li1 li2
  | sgmldeclaration => rfl
  | processinginstruction name body => exact entered_visible parser _ stack p li1 li2
  | text value =>
    simp only [handle, ontext]
    rw [scanText_lastIndex value p li1 li2]
    exact leaf_visible parser _ _ stack p _ _
  | comment value => exact leaf_visible parser _ _ stack p li1 li2
  | opencdata => exact enter_visible parser _ stack p li1 li2
  | cdata value =>
    simp only [handle, oncdatavalue]
    cases stack <;> rfl
  | closecdata => exact exit_visible parser stack p li1 li2
  | opentag name attributes => exact enter_visible parser _ stack p li1 li2
  | closetag => exact exit_visible parser stack p li1 li2
  | error message =>
    simp only [handle, onerror]
    cases indexOf message (lit "\nLine") <;> rfl

/-- What a run of events leaves visible does not depend on `search.lastIndex`. -/
theorem run_visible : ∀ (events : List (Cursor × Event)) (stack : List Node) (p : Point)
    (li1 li2 : Nat),
    (run events ⟨stack, p, li1⟩).visible = (run events ⟨stack, p, li2⟩).visible := by
  intro events
  induction events with
  | nil => intro stack p li1 li2; rfl
  | cons pe rest ih =>
    obtain ⟨parser, e⟩ := pe
    intro stack p li1 li2
    have h := handle_visible parser e stack p li1 li2
    simp only [run]
    cases h1 : handle parser e ⟨stack, p, li1⟩ with
    | ok b1 =>
      cases h2 : handle parser e ⟨stack, p, li2⟩ with
      | ok b2 =>
        rw [h1, h2] at h
        obtain ⟨s1, p1, l1⟩ := b1
        obtain ⟨s2, p2, l2⟩ := b2
        simp only [Result.visible, Except.ok.injEq, Prod.mk.injEq] at h
        obtain ⟨rfl, rfl⟩ := h
        exact ih s1 p1 l1 l2
      | thrown err b2 => rw [h1, h2] at h; cases h
    | thrown err b1 =>
      cases h2 : handle parser e ⟨stack, p, li2⟩ with
      | ok b2 => rw [h1, h2] at h; cases h
      | thrown err2 b2 =>
        rw [h1, h2] at h
        exact h

/-! ## Lemmas on trees and frames -/

@[simp] theorem Node.kids_pushChild (n c : Node) : (n.pushChild c).kids = n.kids ++ [c] := by
  simp [Node.kids]

@[simp] theorem Node.kids_setValue (v : Str) (n : Node) : (n.setValue v).kids = n.kids := by
  simp [Node.kids]

@[simp] theorem Node.kids_setPosition (p : Option Position) (n : Node) :
    (n.setPosition p).kids = n.kids := by
  simp [Node.kids]

theorem ordered_descendant {le : Point → Point → Bool} {n m : Node} (h : Descendant n m) :
    Ordered le n → Ordered le m := by
  induction h with
  | child hm =>
    intro hn
    cases hn with
    | mk _ _ _ _ hk => exact hk _ hm
  | deeper hc _ ih =>
    intro hn
    cases hn with
    | mk _ _ _ _ hk => exact ih (hk _ hc)

theorem sealed_of_kids {n m : Node} (h : Descendant n m) :
    (∀ x ∈ n.kids, Sealed x) → Sealed m := by
  induction h with
  | child hm => intro hn; exact hn _ hm
  | deeper hc _ ih =>
    intro hn
    cases hn _ hc with
    | mk _ hk => exact ih hk

theorem frames_mono {K : Node → Prop} {le : Point → Point → Bool}
    (htrans : ∀ a b c, le a b = true → le b c = true → le a c = true)
    {q q2 : Point} {stack : List Node} (h : Frames K le q stack) (hq : le q q2 = true) :
    Frames K le q2 stack := by
  cases stack with
  | nil => trivial
  | cons frame below =>
    obtain ⟨⟨hk, hpw, ht, hpos⟩, hrest⟩ := h
    refine ⟨⟨fun x hx => ?_, hpw, ht, fun pos hp => ?_⟩, hrest⟩
    · obtain ⟨h1, px, h2, h3⟩ := hk x hx
      exact ⟨h1, px, h2, htrans _ _ _ h3 hq⟩
    · exact ⟨(hpos pos hp).1, htrans _ _ _ (hpos pos hp).2 hq⟩

theorem frames_weaken {K K2 : Node → Prop} {le : Point → Point → Bool}
    (hK : ∀ x, K x → K2 x) : ∀ (stack : List Node) (q : Point),
    Frames K le q stack → Frames K2 le q stack := by
  intro stack
  induction stack with
  | nil => intro q _; trivial
  | cons frame below ih =>
    intro q h
    obtain ⟨⟨hk, hpw, ht, hpos⟩, hrest⟩ := h
    refine ⟨⟨fun x hx => ⟨hK x (hk x hx).1, (hk x hx).2⟩, hpw, ht, hpos⟩, ?_⟩
    cases hp : frame.position with
    | none => rw [hp] at hrest; exact hrest
    | some pos =>
      rw [hp] at hrest
      exact ih pos.start hrest

/-- A node that starts at the bound of the top frame becomes its last child. -/
theorem frames_push {K : Node → Prop} {le : Point → Point → Bool}
    (htrans : ∀ a b c, le a b = true → le b c = true → le a c = true)
    {q q2 : Point} {frame x : Node} {below : List Node} {e : Option Point}
    (h : Frames K le q (frame :: below)) (hq : le q q2 = true) (hx : K x)
    (hxp : x.position = some { start := q, «end» := e }) :
    Frames K le q2 (frame.pushChild x :: below) := by
  obtain ⟨⟨hk, hpw, ht, hpos⟩, hrest⟩ := h
  refine ⟨⟨fun y hy => ?_, ?_, by simpa using ht, fun pos hp => ?_⟩, by simpa using hrest⟩
  · rw [Node.kids_pushChild, List.mem_append, List.mem_singleton] at hy
    rcases hy with hy | rfl
    · obtain ⟨h1, py, h2, h3⟩ := hk y hy
      exact ⟨h1, py, h2, htrans _ _ _ h3 hq⟩
    · exact ⟨hx, _, hxp, hq⟩
  · rw [Node.kids_pushChild, List.pairwise_append]
    refine ⟨hpw, List.pairwise_singleton _ _, fun a ha b hb => ?_⟩
    rw [List.mem_singleton] at hb
    subst hb
    intro pa pb hpa hpb
    obtain ⟨_, py, h2, h3⟩ := hk a ha
    rw [hpa] at h2
    rw [hxp] at hpb
    cases h2
    cases hpb
    exact h3
  · rw [Node.position_pushChild] at hp
    exact ⟨(hpos pos hp).1, htrans _ _ _ (hpos pos hp).2 hq⟩

/-- One event keeps the frames: for an order of points that is transitive, in
which the end of a comment comes after the clock and the end of a text after
its start, and at an event at which the clock is not behind the baseline. -/
theorem handle_frames {le : Point → Point → Bool}
    (htrans : ∀ a b c, le a b = true → le b c = true → le a c = true)
    (hnext : ∀ p : Point,
      le p { line := p.line, column := p.column + 1, offset := p.offset + 1 } = true)
    (htext : ∀ (p : Point) (v : Str), le p (textEnd p v) = true)
    {parser : Cursor} {e : Event} {b b2 : Builder}
    (hf : Frames (fun x => Ordered le x ∧ Sealed x) le b.position b.stack)
    (hq : le b.position (now parser) = true) (h : handle parser e b = .ok b2) :
    Frames (fun x => Ordered le x ∧ Sealed x) le b2.position b2.stack := by
  rcases handle_ok h with ⟨_, top, below, cs, node, stop, hs, _, hnc, hs2, hp2, hstop, htx⟩ |
    ⟨_, top, below, cs, node, hs, _, hnc, hnt, hs2, hp2⟩ |
    ⟨_, tail, rest, pos, hs, hp, hs2, hp2⟩ | ⟨value, top, below, _, hs, hs2, hp2⟩
  · -- a leaf event
    rw [hs2, hp2]
    rw [hs] at hf
    have hle : le b.position stop = true := by
      rcases hstop with rfl | rfl | rfl
      · exact hq
      · exact htrans _ _ _ hq (hnext _)
      · exact htext _ _
    have hkids : (node.setPosition
        (some { start := b.position, «end» := some stop })).kids = [] := by
      simp [Node.kids, hnc]
    refine frames_push htrans hf hle ⟨?_, ?_⟩ (Node.position_setPosition _ _)
    · refine Ordered.mk (fun s e hse => ?_) (fun ht => ?_) ?_ ?_ ?_
      · simp only [Node.position_setPosition, Option.some.injEq, Position.mk.injEq] at hse
        obtain ⟨rfl, rfl⟩ := hse
        exact hle
      · rw [Node.type_setPosition] at ht
        obtain ⟨value, hv, rfl⟩ := htx ht
        exact ⟨b.position, value, by simpa using hv, by simp⟩
      · rw [hkids]; intro x hx; cases hx
      · rw [hkids]; exact List.Pairwise.nil
      · rw [hkids]; intro x hx; cases hx
    · refine Sealed.mk ⟨b.position, stop, by simp⟩ ?_
      rw [hkids]; intro x hx; cases hx
  · -- an enter event
    rw [hs2, hp2]
    have hkids : (node.setPosition
        (some { start := b.position, «end» := none })).kids = [] := by
      rcases hnc with hnc | hnc <;> simp [Node.kids, hnc]
    refine ⟨⟨?_, ?_, by simpa using hnt, fun pos hpos => ?_⟩, ?_⟩
    · rw [hkids]; intro x hx; cases hx
    · rw [hkids]; exact List.Pairwise.nil
    · simp only [Node.position_setPosition, Option.some.injEq] at hpos
      subst hpos
      exact ⟨rfl, hq⟩
    · simp only [Node.position_setPosition]
      exact hf
  · -- an exit event
    rw [hs2, hp2]
    rw [hs] at hf
    obtain ⟨⟨hk, hpw, ht, hpos⟩, hrest⟩ := hf
    rw [hp] at hrest
    cases rest with
    | nil => trivial
    | cons parent below =>
      obtain ⟨hend, hstart⟩ := hpos pos hp
      obtain ⟨s, e⟩ := pos
      simp only at hend hstart hrest
      subst hend
      simp only
      have hset : tail.setEnd (now parser) =
          tail.setPosition (some { start := s, «end» := some (now parser) }) := by
        rw [Node.setEnd_of_position _ hp]
      have hle : le s (now parser) = true := htrans _ _ _ hstart hq
      rw [hset]
      refine frames_push htrans hrest hle ⟨?_, ?_⟩ (Node.position_setPosition _ _)
      · refine Ordered.mk (fun s2 e2 hse => ?_) (fun ht2 => ?_) ?_ ?_ ?_
        · simp only [Node.position_setPosition, Option.some.injEq, Position.mk.injEq] at hse
          obtain ⟨rfl, rfl⟩ := hse
          exact hle
        · rw [Node.type_setPosition] at ht2
          exact absurd ht2 ht
        · rw [Node.kids_setPosition]
          intro x hx
          obtain ⟨_, px, hpx, _⟩ := hk x hx
          rw [hpx]
          exact Option.some_ne_none _
        · rw [Node.kids_setPosition]
          exact hpw
        · rw [Node.kids_setPosition]
          exact fun x hx => (hk x hx).1.1
      · refine Sealed.mk ⟨s, now parser, by simp⟩ ?_
        rw [Node.kids_setPosition]
        exact fun x hx => (hk x hx).1.2
  · -- a CDATA chunk
    rw [hs2, hp2]
    rw [hs] at hf
    obtain ⟨⟨hk, hpw, ht, hpos⟩, hrest⟩ := hf
    exact ⟨⟨by simpa using hk, by simpa using hpw, by simpa using ht, by simpa using hpos⟩,
      by simpa using hrest⟩

/-- A run keeps the frames, when the clock is never behind the baseline. -/
theorem run_frames {le : Point → Point → Bool}
    (htrans : ∀ a b c, le a b = true → le b c = true → le a c = true)
    (hnext : ∀ p : Point,
      le p { line := p.line, column := p.column + 1, offset := p.offset + 1 } = true)
    (htext : ∀ (p : Point) (v : Str), le p (textEnd p v) = true) :
    ∀ (events : List (Cursor × Event)) (b b2 : Builder),
    Frames (fun x => Ordered le x ∧ Sealed x) le b.position b.stack →
    ahead le events b = true → run events b = .ok b2 →
    Frames (fun x => Ordered le x ∧ Sealed x) le b2.position b2.stack := by
  intro events
  induction events with
  | nil =>
    intro b b2 hf _ h
    cases h
    exact hf
  | cons pe rest ih =>
    obtain ⟨parser, e⟩ := pe
    intro b b2 hf ha h
    simp only [run] at h
    simp only [ahead, Bool.and_eq_true] at ha
    cases hh : handle parser e b with
    | ok b1 =>
      rw [hh] at h ha
      exact ih b1 b2 (handle_frames htrans hnext htext hf ha.1 hh) ha.2 h
    | thrown err b1 =>
      rw [hh] at h
      cases h

/-- The tree of `stack[0]` as the source holds it is in order. -/
theorem root_ordered {le : Point → Point → Bool}
    (htrans : ∀ a b c, le a b = true → le b c = true → le a c = true) :
    ∀ (below : List Node) (frame : Node) (q : Point) (tree : Node),
    Frames (Ordered le) le q (frame :: below) →
    (sourceStack (frame :: below)).getLast? = some tree → Ordered le tree := by
  have hframe : ∀ (frame : Node) (q : Point), FrameOk (Ordered le) le q frame →
      Ordered le frame := by
    intro frame q ⟨hk, hpw, ht, hpos⟩
    refine Ordered.mk (fun s e hse => ?_) (fun ht2 => absurd ht2 ht) (fun x hx => ?_) hpw
      (fun x hx => (hk x hx).1)
    · have := (hpos _ hse).1
      cases this
    · obtain ⟨_, px, hpx, _⟩ := hk x hx
      rw [hpx]
      exact Option.some_ne_none _
  intro below
  induction below with
  | nil =>
    intro frame q tree hf ht
    simp only [sourceStack, adopt, List.getLast?_singleton, Option.some.injEq] at ht
    subst ht
    exact hframe frame q hf.1
  | cons parent rest ih =>
    intro frame q tree hf ht
    have hlast : (sourceStack (frame :: parent :: rest)).getLast? =
        (sourceStack (parent.pushChild frame :: rest)).getLast? := by
      simp only [sourceStack, adopt]
      rw [List.getLast?_cons_cons]
    rw [hlast] at ht
    obtain ⟨hfo, hrest⟩ := hf
    cases hp : frame.position with
    | none =>
      rw [hp] at hrest
      cases hrest
    | some pos =>
      rw [hp] at hrest
      refine ih (parent.pushChild frame) q tree ?_ ht
      exact frames_push htrans hrest (hfo.2.2.2 pos hp).2 (hframe frame q hfo) hp

/-! ## Lemmas on the tree `fromXml` returns -/

theorem fromXml_ok {start : Cursor} {lastIndex : Nat} {events : List (Cursor × Event)}
    {tree : Node} (h : fromXml start lastIndex events = .ok (some tree)) :
    ∃ b, run events (Builder.initial start lastIndex) = .ok b ∧ b.root = some tree := by
  unfold fromXml at h
  cases hr : run events (Builder.initial start lastIndex) with
  | ok b =>
    rw [hr] at h
    exact ⟨b, rfl, Except.ok.inj h⟩
  | thrown err b =>
    rw [hr] at h
    cases h

theorem initial_frames (K : Node → Prop) (le : Point → Point → Bool) (start : Cursor)
    (lastIndex : Nat) :
    Frames K le (Builder.initial start lastIndex).position
      (Builder.initial start lastIndex).stack :=
  ⟨⟨fun _ hx => absurd hx (List.not_mem_nil _), List.Pairwise.nil, by decide,
    fun _ hp => by cases hp⟩, rfl⟩

theorem ahead_of_total {le : Point → Point → Bool} (hle : ∀ p q, le p q = true) :
    ∀ (events : List (Cursor × Event)) (b : Builder), ahead le events b = true := by
  intro events
  induction events with
  | nil => intro b; rfl
  | cons pe rest ih =>
    obtain ⟨parser, e⟩ := pe
    intro b
    simp only [ahead, hle, Bool.true_and]
    cases handle parser e b with
    | ok b1 => exact ih b1
    | thrown err b1 => rfl

/-- The tree `fromXml` returns is in order, when the clock is never behind the
baseline. -/
theorem tree_ordered {le : Point → Point → Bool}
    (htrans : ∀ a b c, le a b = true → le b c = true → le a c = true)
    (hnext : ∀ p : Point,
      le p { line := p.line, column := p.column + 1, offset := p.offset + 1 } = true)
    (htext : ∀ (p : Point) (v : Str), le p (textEnd p v) = true)
    {start : Cursor} {lastIndex : Nat} {events : List (Cursor × Event)} {tree : Node}
    (ha : ahead le events (Builder.initial start lastIndex) = true)
    (h : fromXml start lastIndex events = .ok (some tree)) : Ordered le tree := by
  obtain ⟨b, hr, ht⟩ := fromXml_ok h
  have hf := run_frames htrans hnext htext events _ b
    (initial_frames _ le start lastIndex) ha hr
  have hf2 := frames_weaken (fun x (hx : Ordered le x ∧ Sealed x) => hx.1) _ _ hf
  unfold Builder.root at ht
  cases hs : b.stack with
  | nil => rw [hs] at ht; cases ht
  | cons frame below =>
    rw [hs] at ht hf2
    exact root_ordered htrans below frame b.position tree hf2 ht

/-- When no enter event is left open, the tree `fromXml` returns is the root at
the bottom of the stack, and every node under it is sealed. -/
theorem tree_sealed {start : Cursor} {lastIndex : Nat} {events : List (Cursor × Event)}
    {tree : Node} (hbal : nesting 0 events = some 0)
    (h : fromXml start lastIndex events = .ok (some tree)) :
    tree.type = .root ∧ tree.position = none ∧ ∀ x ∈ tree.kids, Sealed x := by
  obtain ⟨b, hr, ht⟩ := fromXml_ok h
  have hshape := run_shape events 0 (Builder.initial start lastIndex)
    (initial_rootAtBottom start lastIndex) rfl (by rw [hbal]; simp)
  obtain ⟨d2, hd2, hlen⟩ := hshape.2 b hr
  rw [hbal] at hd2
  cases hd2
  have hrab := hshape.1
  rw [hr] at hrab
  obtain ⟨above, root, hs, hty, hpos, _⟩ := hrab
  simp only [Result.builder] at hs
  rw [hs] at hlen
  cases above with
  | cons a above => simp at hlen
  | nil =>
    simp only [List.nil_append] at hs
    simp only [Builder.root, hs, sourceStack, adopt, List.getLast?_singleton,
      Option.some.injEq] at ht
    subst ht
    have hf := @run_frames (fun _ _ => true) (fun _ _ _ _ _ => rfl) (fun _ => rfl)
      (fun _ _ => rfl) events _ b (initial_frames _ _ start lastIndex)
      (ahead_of_total (fun _ _ => rfl) _ _) hr
    rw [hs] at hf
    exact ⟨hty, hpos, fun x hx => (hf.1.1 x hx).1.2⟩

/-! ## Lemmas on the orders of points -/

theorem offsetLe_trans (a b c : Point) (h1 : offsetLe a b = true) (h2 : offsetLe b c = true) :
    offsetLe a c = true := by
  simp only [offsetLe, decide_eq_true_eq] at *
  omega

theorem offsetLe_next (p : Point) :
    offsetLe p { line := p.line, column := p.column + 1, offset := p.offset + 1 } = true := by
  simp [offsetLe]

theorem offsetLe_text (p : Point) (v : Str) : offsetLe p (textEnd p v) = true := by
  simp [offsetLe, textEnd]

theorem lineColumnLe_trans (a b c : Point) (h1 : lineColumnLe a b = true)
    (h2 : lineColumnLe b c = true) : lineColumnLe a c = true := by
  simp only [lineColumnLe, decide_eq_true_eq] at *
  omega

theorem lineColumnLe_next (p : Point) :
    lineColumnLe p { line := p.line, column := p.column + 1, offset := p.offset + 1 } =
      true := by
  simp [lineColumnLe]

theorem lineColumnLe_text (p : Point) (v : Str) : lineColumnLe p (textEnd p v) = true := by
  simp only [lineColumnLe, textEnd, decide_eq_true_eq]
  by_cases h : countBreaks v = 0
  · simp [h]
  · left
    omega

/-! ## Lemmas on the nodes entered under a node -/

theorem enter_onto (parser : Cursor) (node top : Node) (below : List Node) (p : Point)
    (li : Nat) :
    enter parser node ⟨top :: below, p, li⟩ = (enter parser node ⟨[top], p, li⟩).onto below := by
  unfold enter
  cases hc : top.children <;> simp only [hc] <;> rfl

theorem entered_onto (parser : Cursor) (node top : Node) (below : List Node) (p : Point)
    (li : Nat) :
    (enter parser node ⟨top :: below, p, li⟩).andThen (exit parser) =
      ((enter parser node ⟨[top], p, li⟩).andThen (exit parser)).onto below := by
  cases hc : top.children with
  | none => simp only [enter, hc, Result.andThen, Result.onto, List.singleton_append]
  | some cs =>
    rw [leaf_entered parser node ⟨top :: below, p, li⟩ top below cs rfl hc,
      leaf_entered parser node ⟨[top], p, li⟩ top [] cs rfl hc]
    rfl

theorem leaf_onto (parser : Cursor) (node top : Node) (actualEnd : Point) (below : List Node)
    (p : Point) (li : Nat) :
    (((enter parser node ⟨top :: below, p, li⟩).andThen (exit parser)).andThen
        fun b2 => .ok (reconcile actualEnd b2)) =
      (((enter parser node ⟨[top], p, li⟩).andThen (exit parser)).andThen
        fun b2 => .ok (reconcile actualEnd b2)).onto below := by
  cases hc : top.children with
  | none => simp only [enter, hc, Result.andThen, Result.onto, List.singleton_append]
  | some cs =>
    rw [leaf_reconciled parser node actualEnd ⟨top :: below, p, li⟩ top below cs rfl hc,
      leaf_reconciled parser node actualEnd ⟨[top], p, li⟩ top [] cs rfl hc]
    rfl

/-- A handler other than `exit` works on the stack top alone. -/
theorem handle_onto (parser : Cursor) (e : Event) (he : e.isExit = false) (top : Node)
    (below : List Node) (p : Point) (li : Nat) :
    handle parser e ⟨top :: below, p, li⟩ = (handle parser e ⟨[top], p, li⟩).onto below := by
  cases e with
  | doctype value =>
    simp only [handle, ondoctype]
    cases parseDoctype value with
    | error f => rfl
    | ok v => exact entered_onto parser _ top below p li
  | sgmldeclaration => rfl
  | processinginstruction name body => exact entered_onto parser _ top below p li
  | text value => exact leaf_onto parser _ top _ below p _
  | comment value => exact leaf_onto parser _ top _ below p li
  | opencdata => exact enter_onto parser _ top below p li
  | cdata value => rfl
  | closecdata => cases he
  | opentag name attributes => exact enter_onto parser _ top below p li
  | closetag => cases he
  | error message =>
    simp only [handle, onerror]
    cases indexOf message (lit "\nLine") <;> rfl

theorem handle_exit {x : Event} (hx : x.isExit = true) (parser : Cursor) (b : Builder) :
    handle parser x b = exit parser b := by
  cases x <;> first | rfl | cases hx

/-- The top keeps its position and its type while nodes are entered under it. -/
theorem entered_position {top top2 : Node} {p p2 : Point} {li li2 : Nat}
    {events : List (Cursor × Event)} {ns : List Node}
    (h : Entered top p li events ns top2 p2 li2) :
    top2.position = top.position ∧ top2.type = top.type := by
  induction h with
  | done => exact ⟨rfl, rfl⟩
  | leaf _ _ _ ih => simpa using ih
  | chunk hh _ ih =>
    rcases handle_ok hh with ⟨hk, _⟩ | ⟨hk, _⟩ | ⟨hk, _⟩ | ⟨value, t, bl, _, hs, hs2, _⟩
    · cases hk
    · cases hk
    · cases hk
    · simp only [List.cons.injEq] at hs hs2
      obtain ⟨rfl, _⟩ := hs
      obtain ⟨rfl, _⟩ := hs2
      simpa using ih
  | nested _ _ _ _ _ _ ih => simpa using ih

/-- The children of the top after the events: those it had, then the nodes
entered under it, in the order of their arrival. -/
theorem entered_kids {top top2 : Node} {p p2 : Point} {li li2 : Nat}
    {events : List (Cursor × Event)} {ns : List Node}
    (h : Entered top p li events ns top2 p2 li2) : top2.kids = top.kids ++ ns := by
  induction h with
  | done => simp
  | leaf _ _ _ ih => simpa using ih
  | chunk hh _ ih =>
    rcases handle_ok hh with ⟨hk, _⟩ | ⟨hk, _⟩ | ⟨hk, _⟩ | ⟨value, t, bl, _, hs, hs2, _⟩
    · cases hk
    · cases hk
    · cases hk
    · simp only [List.cons.injEq] at hs hs2
      obtain ⟨rfl, _⟩ := hs
      obtain ⟨rfl, _⟩ := hs2
      simpa using ih
  | nested _ _ _ _ _ _ ih => simpa using ih

theorem run_ok_cons {parser : Cursor} {e : Event} {rest : List (Cursor × Event)}
    {b b2 : Builder} (h : run ((parser, e) :: rest) b = .ok b2) :
    ∃ b1, handle parser e b = .ok b1 ∧ run rest b1 = .ok b2 := by
  simp only [run] at h
  cases hh : handle parser e b with
  | ok b1 =>
    rw [hh] at h
    exact ⟨b1, rfl, h⟩
  | thrown err b1 =>
    rw [hh] at h
    cases h

theorem run_ok_append {pre post : List (Cursor × Event)} {b b2 : Builder}
    (h : run (pre ++ post) b = .ok b2) :
    ∃ b1, run pre b = .ok b1 ∧ run post b1 = .ok b2 := by
  rw [run_append] at h
  cases hh : run pre b with
  | ok b1 =>
    rw [hh] at h
    exact ⟨b1, rfl, h⟩
  | thrown err b1 =>
    rw [hh] at h
    cases h

/-- Soundness of `Entered`: the run of the events does to the stack top what
the relation says, whatever lies below the top. -/
theorem entered_sound {top top2 : Node} {p p2 : Point} {li li2 : Nat}
    {events : List (Cursor × Event)} {ns : List Node}
    (h : Entered top p li events ns top2 p2 li2) :
    ∀ below, run events ⟨top :: below, p, li⟩ = .ok ⟨top2 :: below, p2, li2⟩ := by
  induction h with
  | done => intro below; rfl
  | leaf hk hh _ ih =>
    intro below
    simp only [run]
    rw [handle_onto _ _ ((event_kinds _).1 hk).2, hh]
    exact ih below
  | @chunk top top1 top2 p p2 li li2 parser value rest ns hh _ ih =>
    intro below
    simp only [run]
    rw [handle_onto parser (.cdata value) rfl, hh]
    exact ih below
  | @nested top top2 node node1 p p1 p2 p3 li li1 li2 li3 parser close e x inner rest kids ns
      he hx hh hin _ ih1 ih2 =>
    intro below
    simp only [run]
    rw [handle_onto _ _ ((event_kinds _).2.1 he), hh]
    simp only [Result.onto, Result.andThen, List.cons_append, List.nil_append]
    rw [run_append, ih1 (top :: below)]
    simp only [Result.andThen, run]
    have hpos : node1.position = node.position := (entered_position hin).1
    have hnode : ∃ pos, node.position = some pos := by
      rcases handle_ok hh with ⟨hk, _⟩ | ⟨_, t, bl, cs, nd, _, _, _, _, hs2, _⟩ | ⟨hk, _⟩ |
        ⟨value, _, _, rfl, _⟩
      · have := ((event_kinds e).1 hk).1
        rw [he] at this
        cases this
      · simp only [List.cons.injEq] at hs2
        obtain ⟨rfl, _⟩ := hs2
        exact ⟨_, Node.position_setPosition _ _⟩
      · rw [(event_kinds _).2.1 he] at hk
        cases hk
      · cases he
    obtain ⟨pos, hnode⟩ := hnode
    rw [handle_exit hx]
    simp only [exit, hpos, hnode, Result.andThen]
    exact ih2 below

theorem nesting_shift : ∀ (events : List (Cursor × Event)) (d d2 k : Nat),
    nesting d events = some d2 → nesting (d + k) events = some (d2 + k) := by
  intro events
  induction events with
  | nil =>
    intro d d2 k h
    simp only [nesting, Option.some.injEq] at h ⊢
    omega
  | cons pe rest ih =>
    obtain ⟨parser, e⟩ := pe
    intro d d2 k h
    cases h1 : e.isEnter with
    | true =>
      rw [nesting_enter h1] at h ⊢
      have := ih (d + 1) d2 k h
      rw [show d + k + 1 = d + 1 + k by omega]
      exact this
    | false =>
      cases h2 : e.isExit with
      | true =>
        rw [nesting_exit h2] at h ⊢
        cases d with
        | zero => cases h
        | succ d =>
          rw [show d + 1 + k = (d + k) + 1 by omega]
          exact ih d d2 k h
      | false =>
        rw [nesting_other h1 h2] at h ⊢
        exact ih d d2 k h

/-- The exit event that closes the innermost open enter event: the events
before it leave no enter event open. -/
theorem nesting_split : ∀ (n : Nat) (events : List (Cursor × Event)), events.length ≤ n →
    ∀ d, nesting (d + 1) events = some 0 →
    ∃ inner close x rest, events = inner ++ (close, x) :: rest ∧ nesting 0 inner = some 0 ∧
      x.isExit = true ∧ nesting d rest = some 0 := by
  intro n
  induction n with
  | zero =>
    intro events hl d h
    cases events with
    | nil => cases h
    | cons pe rest => simp at hl
  | succ n ih =>
    intro events hl d h
    cases events with
    | nil => cases h
    | cons pe r =>
      obtain ⟨parser, e⟩ := pe
      simp only [List.length_cons, Nat.add_le_add_iff_right] at hl
      cases h1 : e.isEnter with
      | true =>
        rw [nesting_enter h1] at h
        obtain ⟨inner1, c1, x1, r1, rfl, hi1, hx1, hr1⟩ := ih r hl (d + 1) h
        have hl1 : r1.length ≤ n := by
          simp only [List.length_append, List.length_cons] at hl
          omega
        obtain ⟨inner2, c2, x2, r2, rfl, hi2, hx2, hr2⟩ := ih r1 hl1 d hr1
        refine ⟨(parser, e) :: (inner1 ++ (c1, x1) :: inner2), c2, x2, r2, by simp, ?_, hx2, hr2⟩
        rw [nesting_enter h1, nesting_append, nesting_shift inner1 0 0 1 hi1]
        simp only [Nat.zero_add, Option.some_bind]
        rw [nesting_exit hx1]
        exact hi2
      | false =>
        cases h2 : e.isExit with
        | true =>
          rw [nesting_exit h2] at h
          exact ⟨[], parser, e, r, rfl, rfl, h2, h⟩
        | false =>
          rw [nesting_other h1 h2] at h
          obtain ⟨inner1, c1, x1, r1, rfl, hi1, hx1, hr1⟩ := ih r hl d h
          refine ⟨(parser, e) :: inner1, c1, x1, r1, rfl, ?_, hx1, hr1⟩
          rw [nesting_other h1 h2]
          exact hi1

theorem onto_ok {below : List Node} {r : Result} {b : Builder}
    (h : r.onto below = .ok b) :
    ∃ b1, r = .ok b1 ∧ b = { b1 with stack := b1.stack ++ below } := by
  cases r with
  | ok b1 =>
    simp only [Result.onto, Result.ok.injEq] at h
    exact ⟨b1, rfl, h.symm⟩
  | thrown err b1 => cases h

/-- Completeness of `Entered`: a run of events that leave no enter event open
is described by the relation, whatever lies below the top. -/
theorem entered_complete : ∀ (n : Nat) (events : List (Cursor × Event)), events.length ≤ n →
    ∀ (top : Node) (below : List Node) (p : Point) (li : Nat) (b2 : Builder),
    nesting 0 events = some 0 → run events ⟨top :: below, p, li⟩ = .ok b2 →
    ∃ ns top2 p2 li2, Entered top p li events ns top2 p2 li2 ∧
      b2 = ⟨top2 :: below, p2, li2⟩ := by
  intro n
  induction n with
  | zero =>
    intro events hl top below p li b2 _ hr
    cases events with
    | nil =>
      cases hr
      exact ⟨[], top, p, li, Entered.done top p li, rfl⟩
    | cons pe rest => simp at hl
  | succ n ih =>
    intro events hl top below p li b2 hn hr
    cases events with
    | nil =>
      cases hr
      exact ⟨[], top, p, li, Entered.done top p li, rfl⟩
    | cons pe r =>
      obtain ⟨parser, e⟩ := pe
      simp only [List.length_cons, Nat.add_le_add_iff_right] at hl
      obtain ⟨b1, hh, hr1⟩ := run_ok_cons hr
      cases h2 : e.isExit with
      | true =>
        rw [nesting_exit h2] at hn
        cases hn
      | false =>
        rw [handle_onto parser e h2] at hh
        obtain ⟨b0, hh0, rfl⟩ := onto_ok hh
        obtain ⟨s0, p0, l0⟩ := b0
        rcases handle_ok hh0 with ⟨hk, t, bl, cs, nd, stop, hs, _, _, hs2, _⟩ |
          ⟨hk, t, bl, cs, nd, hs, _, _, _, hs2, _⟩ | ⟨hk, _⟩ |
          ⟨value, t, bl, rfl, hs, hs2, hp2⟩
        · -- a leaf event
          simp only [List.cons.injEq] at hs
          obtain ⟨rfl, rfl⟩ := hs
          simp only at hs2
          subst hs2
          rw [nesting_other ((event_kinds e).1 hk).1 h2] at hn
          obtain ⟨ns, top2, p2, li2, hent, rfl⟩ := ih r hl _ below p0 l0 b2 hn hr1
          exact ⟨_ :: ns, top2, p2, li2, Entered.leaf hk hh0 hent, rfl⟩
        · -- an enter event
          simp only [List.cons.injEq] at hs
          obtain ⟨rfl, rfl⟩ := hs
          simp only at hs2
          subst hs2
          rw [nesting_enter hk] at hn
          obtain ⟨inner, close, x, rest, rfl, hi, hx, hrest⟩ := nesting_split n r hl 0 hn
          obtain ⟨b3, hr3, hr4⟩ := run_ok_append hr1
          have hl3 : inner.length ≤ n := by
            simp only [List.length_append, List.length_cons] at hl
            omega
          have hl4 : rest.length ≤ n := by
            simp only [List.length_append, List.length_cons] at hl
            omega
          obtain ⟨kids, node1, p3, li3, hent1, rfl⟩ :=
            ih inner hl3 _ (top :: below) p0 l0 b3 hi hr3
          obtain ⟨b4, hh4, hr5⟩ := run_ok_cons hr4
          rw [handle_exit hx] at hh4
          obtain ⟨tail, rest4, pos, hs4, _, rfl⟩ := exit_ok hh4
          simp only [List.cons.injEq] at hs4
          obtain ⟨rfl, rfl⟩ := hs4
          obtain ⟨ns, top2, p5, li5, hent2, rfl⟩ := ih rest hl4 _ below _ _ b2 hrest hr5
          exact ⟨_ :: ns, top2, p5, li5, Entered.nested hk hx hh0 hent1 hent2, rfl⟩
        · rw [h2] at hk
          cases hk
        · -- a CDATA chunk
          simp only [List.cons.injEq] at hs
          obtain ⟨rfl, rfl⟩ := hs
          simp only at hs2 hp2
          subst hs2
          subst hp2
          rw [@nesting_other (Event.cdata value) rfl rfl] at hn
          have hl0 : l0 = li := by
            simp only [handle, oncdatavalue, Result.ok.injEq, Builder.mk.injEq] at hh0
            exact hh0.2.2.symm
          subst hl0
          obtain ⟨ns, top2, p2, li2, hent, rfl⟩ := ih r hl _ below _ _ b2 hn hr1
          exact ⟨ns, top2, p2, li2, Entered.chunk hh0 hent, rfl⟩

/-- From depth `k + 1`, either the events never close the enter event that is
open at the start, or they split at the exit event that closes it. -/
theorem nesting_dip : ∀ (n : Nat) (events : List (Cursor × Event)), events.length ≤ n →
    ∀ k m, nesting (k + 1) events = some m →
    (∃ m2, nesting k events = some m2 ∧ m = m2 + 1) ∨
    ∃ inner close x rest, events = inner ++ (close, x) :: rest ∧ nesting 0 inner = some 0 ∧
      x.isExit = true ∧ nesting k rest = some m := by
  intro n
  induction n with
  | zero =>
    intro events hl k m h
    cases events with
    | nil =>
      simp only [nesting, Option.some.injEq] at h
      exact Or.inl ⟨k, rfl, h.symm⟩
    | cons pe rest => simp at hl
  | succ n ih =>
    intro events hl k m h
    cases events with
    | nil =>
      simp only [nesting, Option.some.injEq] at h
      exact Or.inl ⟨k, rfl, h.symm⟩
    | cons pe r =>
      obtain ⟨parser, e⟩ := pe
      simp only [List.length_cons, Nat.add_le_add_iff_right] at hl
      cases h1 : e.isEnter with
      | true =>
        rw [nesting_enter h1] at h
        rcases ih r hl (k + 1) m h with ⟨m2, hm2, rfl⟩ |
          ⟨inner1, c1, x1, r1, rfl, hi1, hx1, hr1⟩
        · exact Or.inl ⟨m2, by rw [nesting_enter h1]; exact hm2, rfl⟩
        · have hl1 : r1.length ≤ n := by
            simp only [List.length_append, List.length_cons] at hl
            omega
          have hpre : ∀ t, nesting (k + 1) (inner1 ++ (c1, x1) :: t) = nesting k t := by
            intro t
            have := nesting_shift inner1 0 0 (k + 1) hi1
            simp only [Nat.zero_add] at this
            rw [nesting_append, this, Option.some_bind, nesting_exit hx1]
          rcases ih r1 hl1 k m hr1 with ⟨m2, hm2, rfl⟩ |
            ⟨inner2, c2, x2, r2, rfl, hi2, hx2, hr2⟩
          · refine Or.inl ⟨m2, ?_, rfl⟩
            rw [nesting_enter h1, hpre]
            exact hm2
          · refine Or.inr ⟨(parser, e) :: (inner1 ++ (c1, x1) :: inner2), c2, x2, r2, by simp,
              ?_, hx2, hr2⟩
            rw [nesting_enter h1]
            rw [show nesting (0 + 1) (inner1 ++ (c1, x1) :: inner2) = nesting 0 inner2 from by
              have h0 := nesting_shift inner1 0 0 1 hi1
              rw [nesting_append, h0, Option.some_bind, nesting_exit hx1]]
            exact hi2
      | false =>
        cases h2 : e.isExit with
        | true =>
          rw [nesting_exit h2] at h
          exact Or.inr ⟨[], parser, e, r, rfl, rfl, h2, h⟩
        | false =>
          rw [nesting_other h1 h2] at h
          rcases ih r hl k m h with ⟨m2, hm2, rfl⟩ | ⟨inner1, c1, x1, r1, rfl, hi1, hx1, hr1⟩
          · exact Or.inl ⟨m2, by rw [nesting_other h1 h2]; exact hm2, rfl⟩
          · refine Or.inr ⟨(parser, e) :: inner1, c1, x1, r1, rfl, ?_, hx1, hr1⟩
            rw [nesting_other h1 h2]
            exact hi1

/-- Events that leave an enter event open split at the first enter event that
is never closed. -/
theorem nesting_first_open : ∀ (n : Nat) (events : List (Cursor × Event)),
    events.length ≤ n → ∀ d, nesting 0 events = some (d + 1) →
    ∃ seg parser e rest, events = seg ++ (parser, e) :: rest ∧ nesting 0 seg = some 0 ∧
      e.isEnter = true ∧ nesting 0 rest = some d := by
  intro n
  induction n with
  | zero =>
    intro events hl d h
    cases events with
    | nil => cases h
    | cons pe rest => simp at hl
  | succ n ih =>
    intro events hl d h
    cases events with
    | nil => cases h
    | cons pe r =>
      obtain ⟨parser, e⟩ := pe
      simp only [List.length_cons, Nat.add_le_add_iff_right] at hl
      cases h1 : e.isEnter with
      | true =>
        rw [nesting_enter h1] at h
        rcases nesting_dip n r hl 0 (d + 1) h with ⟨m2, hm2, hm⟩ |
          ⟨inner, close, x, r2, rfl, hi, hx, hr2⟩
        · have : m2 = d := by omega
          subst this
          exact ⟨[], parser, e, r, rfl, rfl, h1, hm2⟩
        · have hl2 : r2.length ≤ n := by
            simp only [List.length_append, List.length_cons] at hl
            omega
          obtain ⟨seg2, p2, e2, rest2, rfl, hs2, he2, hrest2⟩ := ih r2 hl2 d hr2
          refine ⟨(parser, e) :: (inner ++ (close, x) :: seg2), p2, e2, rest2, by simp, ?_, he2,
            hrest2⟩
          have h0 := nesting_shift inner 0 0 1 hi
          rw [nesting_enter h1, nesting_append, h0, Option.some_bind, nesting_exit hx]
          exact hs2
      | false =>
        cases h2 : e.isExit with
        | true =>
          rw [nesting_exit h2] at h
          cases h
        | false =>
          rw [nesting_other h1 h2] at h
          obtain ⟨seg, p2, e2, rest2, rfl, hs, he2, hrest2⟩ := ih r hl d h
          refine ⟨(parser, e) :: seg, p2, e2, rest2, rfl, ?_, he2, hrest2⟩
          rw [nesting_other h1 h2]
          exact hs

/-- In the stack as the source holds it, the node at the bottom has the node
above it, as the source holds that one, as its last child. -/
theorem sourceStack_append : ∀ (l : List Node) (f x tree : Node),
    (sourceStack (f :: l)).getLast? = some tree →
    (sourceStack (f :: (l ++ [x]))).getLast? = some (x.pushChild tree) := by
  intro l
  induction l with
  | nil =>
    intro f x tree h
    simp only [sourceStack, adopt, List.getLast?_singleton, Option.some.injEq] at h
    subst h
    simp [sourceStack, adopt]
  | cons g l ih =>
    intro f x tree h
    have h1 : (sourceStack (f :: g :: l)).getLast? =
        (sourceStack (g.pushChild f :: l)).getLast? := by
      simp only [sourceStack, adopt]
      rw [List.getLast?_cons_cons]
    have h2 : (sourceStack (f :: (g :: l ++ [x]))).getLast? =
        (sourceStack (g.pushChild f :: (l ++ [x]))).getLast? := by
      rw [List.cons_append]
      show (f :: (g.pushChild f :: adopt (g.pushChild f) (l ++ [x]))).getLast? = _
      rw [List.getLast?_cons_cons]
      rfl
    rw [h1] at h
    rw [h2]
    exact ih (g.pushChild f) x tree h

theorem enteredOpen_kids {top tree : Node} {p : Point} {li : Nat}
    {events : List (Cursor × Event)} {ns : List Node}
    (h : EnteredOpen top p li events ns tree) : tree.kids = top.kids ++ ns := by
  induction h with
  | closed hent => exact entered_kids hent
  | leftOpen hent _ _ _ _ =>
    rw [Node.kids_pushChild, entered_kids hent, List.append_assoc]

/-- What an enter event that returns has done, seen on the stack top alone. -/
theorem handle_enter_onto {parser : Cursor} {e : Event} (he : e.isEnter = true) {top : Node}
    {below : List Node} {p : Point} {li : Nat} {b : Builder}
    (h : handle parser e ⟨top :: below, p, li⟩ = .ok b) :
    ∃ node p2 li2, handle parser e ⟨[top], p, li⟩ = .ok ⟨[node, top], p2, li2⟩ ∧
      b = ⟨node :: top :: below, p2, li2⟩ := by
  rw [handle_onto parser e ((event_kinds e).2.1 he)] at h
  obtain ⟨b0, hh0, rfl⟩ := onto_ok h
  obtain ⟨s0, p0, l0⟩ := b0
  rcases handle_ok hh0 with ⟨hk, _⟩ | ⟨_, t, bl, cs, nd, hs, _, _, _, hs2, _⟩ | ⟨hk, _⟩ |
    ⟨value, _, _, rfl, _⟩
  · have := ((event_kinds e).1 hk).1
    rw [he] at this
    cases this
  · simp only [List.cons.injEq] at hs
    obtain ⟨rfl, rfl⟩ := hs
    simp only at hs2
    subst hs2
    exact ⟨_, p0, l0, hh0, rfl⟩
  · rw [(event_kinds e).2.1 he] at hk
    cases hk
  · cases he

/-- Completeness of `EnteredOpen`: a run of events that returns is described by
the relation, whatever lies below the top. -/
theorem enteredOpen_complete : ∀ (d : Nat) (events : List (Cursor × Event)) (top : Node)
    (below : List Node) (p : Point) (li : Nat) (b2 : Builder),
    nesting 0 events = some d → run events ⟨top :: below, p, li⟩ = .ok b2 →
    ∃ ns tree frames p2 li2, EnteredOpen top p li events ns tree ∧
      b2 = ⟨frames ++ below, p2, li2⟩ ∧ (sourceStack frames).getLast? = some tree := by
  intro d
  induction d with
  | zero =>
    intro events top below p li b2 hn hr
    obtain ⟨ns, top2, p2, li2, hent, rfl⟩ :=
      entered_complete events.length events (Nat.le_refl _) top below p li b2 hn hr
    exact ⟨ns, top2, [top2], p2, li2, EnteredOpen.closed hent, rfl, rfl⟩
  | succ d ih =>
    intro events top below p li b2 hn hr
    obtain ⟨seg, parser, e, rest, rfl, hs, he, hrest⟩ :=
      nesting_first_open events.length events (Nat.le_refl _) d hn
    obtain ⟨b1, hr1, hr2⟩ := run_ok_append hr
    obtain ⟨ns, top1, p1, li1, hent, rfl⟩ :=
      entered_complete seg.length seg (Nat.le_refl _) top below p li b1 hs hr1
    obtain ⟨b3, hh, hr3⟩ := run_ok_cons hr2
    obtain ⟨node, p2, li2, hh0, rfl⟩ := handle_enter_onto he hh
    obtain ⟨kids, node2, frames, p3, li3, hopen, rfl, hlast⟩ :=
      ih rest node (top1 :: below) p2 li2 b2 hrest hr3
    cases frames with
    | nil => cases hlast
    | cons f l =>
      exact ⟨ns ++ [node2], top1.pushChild node2, f :: (l ++ [top1]), p3, li3,
        EnteredOpen.leftOpen hent he hh0 hopen, by simp, sourceStack_append l f top1 node2 hlast⟩

/-- Soundness of `EnteredOpen`. -/
theorem enteredOpen_sound {top tree : Node} {p : Point} {li : Nat}
    {events : List (Cursor × Event)} {ns : List Node}
    (h : EnteredOpen top p li events ns tree) :
    ∀ below, ∃ frames p2 li2,
      run events ⟨top :: below, p, li⟩ = .ok ⟨frames ++ below, p2, li2⟩ ∧
      (sourceStack frames).getLast? = some tree := by
  induction h with
  | @closed top top2 p p2 li li2 events ns hent =>
    intro below
    exact ⟨[top2], p2, li2, entered_sound hent below, rfl⟩
  | @leftOpen top top1 node node2 p p1 p2 li li1 li2 parser e seg rest ns kids hent he hh _ ih =>
    intro below
    obtain ⟨frames, p3, li3, hr, hlast⟩ := ih (top1 :: below)
    cases frames with
    | nil => cases hlast
    | cons f l =>
      refine ⟨f :: (l ++ [top1]), p3, li3, ?_, sourceStack_append l f top1 node2 hlast⟩
      rw [run_append, entered_sound hent below]
      simp only [Result.andThen, run]
      rw [handle_onto parser e ((event_kinds e).2.1 he), hh]
      simp only [Result.onto, Result.andThen, List.cons_append, List.nil_append]
      rw [hr]
      simp

/-- A run from a stack with the root at its bottom that returns has met no exit
event without an enter event to close. -/
theorem run_ok_nesting : ∀ (events : List (Cursor × Event)) (d : Nat) (b b2 : Builder),
    RootAtBottom b.stack → b.stack.length = d + 1 → run events b = .ok b2 →
    nesting d events ≠ none := by
  intro events d b b2 hb hl hr
  intro hnone
  induction events generalizing d b with
  | nil => cases hnone
  | cons pe rest ih =>
    obtain ⟨parser, e⟩ := pe
    obtain ⟨b1, hh, hr1⟩ := run_ok_cons hr
    rcases handle_ok hh with ⟨hk, top, below, cs, node, stop, hs, _, _, hs1, _⟩ |
      ⟨hk, top, below, cs, node, hs, _, _, _, hs1, _⟩ |
      ⟨hk, tail, rest2, pos, hs, hp, hs1, _⟩ | ⟨value, top, below, rfl, hs, hs1, _⟩
    · obtain ⟨k1, k2⟩ := (event_kinds e).1 hk
      rw [nesting_other k1 k2] at hnone
      rw [hs] at hb hl
      exact ih d b1 (by rw [hs1]; exact rootAtBottom_replace hb (by simp) (by simp))
        (by rw [hs1]; exact hl) hr1 hnone
    · rw [nesting_enter hk] at hnone
      exact ih (d + 1) b1 (by rw [hs1]; exact rootAtBottom_push hb (by simp))
        (by rw [hs1, List.length_cons, hl]) hr1 hnone
    · rw [nesting_exit hk] at hnone
      rw [hs] at hb hl
      cases rest2 with
      | nil =>
        obtain ⟨above, root, hst, _, hroot, _⟩ := hb
        cases above with
        | nil =>
          simp only [List.nil_append, List.cons.injEq, and_true] at hst
          subst hst
          rw [hroot] at hp
          cases hp
        | cons a above =>
          have := congrArg List.length hst
          simp at this
      | cons parent below =>
        cases d with
        | zero => simp at hl
        | succ d =>
          simp only at hs1 hnone
          exact ih d b1
            (by rw [hs1]; exact rootAtBottom_replace (rootAtBottom_pop hb).1 (by simp) (by simp))
            (by rw [hs1]; simpa using hl) hr1 hnone
    · rw [@nesting_other (Event.cdata value) rfl rfl] at hnone
      rw [hs] at hb hl
      exact ih d b1 (by rw [hs1]; exact rootAtBottom_replace hb (by simp) (by simp))
        (by rw [hs1]; exact hl) hr1 hnone

/-! # The claims -/

/-- C1: on a builder whose stack top can take children, `ondoctype` accepts a
body (it returns normally and has appended a doctype node to the stack top)
exactly when the body has one of the three forms of `DoctypeGrammar`, `S+ Name
S*`, `S+ Name S+ 'SYSTEM' S+ SystemLiteral S*` or `S+ Name S+ 'PUBLIC' S+
PubidLiteral S+ SystemLiteral S*`; on every other body it throws through `fail`
and leaves the builder as it was.  The `S` of the grammar is what `isSpace`
takes, which on a UTF-16 code unit is tab, LF, CR or space. -/
theorem ondoctype_accepts_iff_grammar (parser : Cursor) (value : Str) (b : Builder)
    (top : Node) (below cs : List Node)
    (hs : b.stack = top :: below) (hc : top.children = some cs) :
    ((∃ node, node.type = NodeType.doctype ∧
        ondoctype parser value b =
          .ok { stack := top.pushChild node :: below, position := now parser,
                searchLastIndex := b.searchLastIndex }) ↔ DoctypeGrammar value) ∧
    ((∃ m, ondoctype parser value b = .thrown (.message m) b) ↔ ¬ DoctypeGrammar value) ∧
    (∀ c, c < 65536 → (isSpace (some c) = true ↔ c = 9 ∨ c = 10 ∨ c = 13 ∨ c = 32)) := by
  refine (fun (h : _ ∧ _) => ⟨h.1, h.2, fun c hc => isSpace_iff_of_unit hc⟩) ?_
  cases hp : parseDoctype value with
  | error f =>
    have hng : ¬ DoctypeGrammar value := fun hg => by
      obtain ⟨r, hr⟩ := sound_of_grammar hg
      rw [hp] at hr
      cases hr
    have ht := ondoctype_error parser b hp
    refine ⟨⟨?_, fun hg => absurd hg hng⟩, ⟨fun _ => hng, fun _ => ⟨_, ht⟩⟩⟩
    rintro ⟨node, _, h⟩
    rw [ht] at h
    cases h
  | ok v =>
    have hg : DoctypeGrammar value := grammar_of_complete hp
    have ht := ondoctype_ok parser b top below cs hs hc hp
    refine ⟨⟨fun _ => hg, fun _ => ⟨_, ?_, ht⟩⟩, ⟨?_, fun h => absurd hg h⟩⟩
    · rfl
    · rintro ⟨m, h⟩
      rw [ht] at h
      cases h

/-- C2: when `ondoctype` accepts a body, the doctype node it has appended has as
`name` the longest run of name characters after the leading whitespace (never
empty); the body has one of the three forms, and whichever way it is read as one
of them, `name` is the name of that form, `public` is the text between the
delimiters of the public literal when the form has one and `null` otherwise, and
`system` is the text between the opening delimiter of the system literal and the
first later occurrence of that delimiter when the form has one and `null`
otherwise. -/
theorem ondoctype_node_fields (parser : Cursor) (value : Str) (b b2 : Builder)
    (top : Node) (below cs : List Node)
    (hs : b.stack = top :: below) (hc : top.children = some cs)
    (h : ondoctype parser value b = .ok b2) :
    ∃ name pub sys,
      b2 = { stack :=
               top.pushChild (.mk .doctype (some name) none pub sys none none
                 (some { start := b.position, «end» := some (now parser) })) :: below
             position := now parser
             searchLastIndex := b.searchLastIndex } ∧
      name = (value.dropWhile fun c => isSpace (some c)).takeWhile
        (fun c => isNameChar (some c)) ∧
      name ≠ [] ∧
      ((NameOnly value name ∧ pub = none ∧ sys = none) ∨
        (∃ s, WithSystem value name s ∧ pub = none ∧ sys = some s) ∨
        (∃ p s, WithPublic value name p s ∧ pub = some p ∧ sys = some s)) ∧
      (∀ n, NameOnly value n → name = n ∧ pub = none ∧ sys = none) ∧
      (∀ n s, WithSystem value n s → name = n ∧ pub = none ∧ sys = some s) ∧
      (∀ n p s, WithPublic value n p s → name = n ∧ pub = some p ∧ sys = some s) := by
  cases hp : parseDoctype value with
  | error f =>
    rw [ondoctype_error parser b hp] at h
    cases h
  | ok v =>
    rw [ondoctype_ok parser b top below cs hs hc hp] at h
    refine ⟨v.node.name, v.node.«public», v.node.system, (Result.ok.inj h).symm, ?_, ?_, ?_, ?_,
      ?_, ?_⟩
    · rcases parseDoctype_complete hp with ⟨n, hn, hv⟩ | ⟨n, s, hn, hv⟩ | ⟨n, p, s, hn, hv⟩
      · rw [hv]; exact (longest_run_NameOnly hn).1.symm
      · rw [hv]; exact (longest_run_WithSystem hn).1.symm
      · rw [hv]; exact (longest_run_WithPublic hn).1.symm
    · rcases parseDoctype_complete hp with ⟨n, hn, hv⟩ | ⟨n, s, hn, hv⟩ | ⟨n, p, s, hn, hv⟩
      · rw [hv]; exact (longest_run_NameOnly hn).2
      · rw [hv]; exact (longest_run_WithSystem hn).2
      · rw [hv]; exact (longest_run_WithPublic hn).2
    · rcases parseDoctype_complete hp with ⟨n, hn, hv⟩ | ⟨n, s, hn, hv⟩ | ⟨n, p, s, hn, hv⟩
      · rw [hv]; exact Or.inl ⟨hn, rfl, rfl⟩
      · rw [hv]; exact Or.inr (Or.inl ⟨s, hn, rfl, rfl⟩)
      · rw [hv]; exact Or.inr (Or.inr ⟨p, s, hn, rfl, rfl⟩)
    · intro n hn
      obtain ⟨r, hr, hnode⟩ := sound_NameOnly hn
      rw [hp] at hr
      cases hr
      rw [hnode]
      exact ⟨rfl, rfl, rfl⟩
    · intro n s hn
      obtain ⟨r, hr, hnode⟩ := sound_WithSystem hn
      rw [hp] at hr
      cases hr
      rw [hnode]
      exact ⟨rfl, rfl, rfl⟩
    · intro n p s hn
      obtain ⟨r, hr, hnode⟩ := sound_WithPublic hn
      rw [hp] at hr
      cases hr
      rw [hnode]
      exact ⟨rfl, rfl, rfl⟩

/-- C1, at the body ` name SYSTEM "a'[>b" ` on the initial builder: the body is
accepted, so it has one of the three forms. -/
theorem ondoctype_accepts_iff_grammar_witness :
    (Builder.initial ⟨0, 0, 0⟩ 0).stack =
        Node.mk .root none none none none none (some []) none :: [] ∧
      (Node.mk .root none none none none none (some []) none).children = some [] ∧
      DoctypeGrammar (lit " name SYSTEM \"a'[>b\" ") :=
  ⟨rfl, rfl,
    (ondoctype_accepts_iff_grammar ⟨0, 30, 30⟩ (lit " name SYSTEM \"a'[>b\" ")
      (Builder.initial ⟨0, 0, 0⟩ 0) (.mk .root none none none none none (some []) none) [] []
      rfl rfl).1.mp
      ⟨.mk .doctype (some (lit "name")) none none (some (lit "a'[>b")) none none
        (some { start := now ⟨0, 0, 0⟩, «end» := some (now ⟨0, 30, 30⟩) }), rfl, rfl⟩⟩

/-- C2, at the body ` name SYSTEM "a'[>b" ` on the initial builder: the node has
the name `name`, no public identifier, and the system identifier `a'[>b`, with
the apostrophe, `[` and `>` kept; so the body reads as the form with `SYSTEM`,
with that name and that literal. -/
theorem ondoctype_node_fields_witness :
    ondoctype ⟨0, 30, 30⟩ (lit " name SYSTEM \"a'[>b\" ") (Builder.initial ⟨0, 0, 0⟩ 0) =
        .ok { stack :=
                [(Node.mk .root none none none none none (some []) none).pushChild
                  (.mk .doctype (some (lit "name")) none none (some (lit "a'[>b")) none none
                    (some { start := now ⟨0, 0, 0⟩, «end» := some (now ⟨0, 30, 30⟩) }))]
              position := now ⟨0, 30, 30⟩
              searchLastIndex := 0 } ∧
      ((lit " name SYSTEM \"a'[>b\" ").dropWhile fun c => isSpace (some c)).takeWhile
        (fun c => isNameChar (some c)) = lit "name" ∧
      WithSystem (lit " name SYSTEM \"a'[>b\" ") (lit "name") (lit "a'[>b") := by
  obtain ⟨name, pub, sys, hb, hname, _, hforms, _⟩ :=
    ondoctype_node_fields ⟨0, 30, 30⟩ (lit " name SYSTEM \"a'[>b\" ")
      (Builder.initial ⟨0, 0, 0⟩ 0)
      { stack :=
          [(Node.mk .root none none none none none (some []) none).pushChild
            (.mk .doctype (some (lit "name")) none none (some (lit "a'[>b")) none none
              (some { start := now ⟨0, 0, 0⟩, «end» := some (now ⟨0, 30, 30⟩) }))]
        position := now ⟨0, 30, 30⟩
        searchLastIndex := 0 }
      (.mk .root none none none none none (some []) none) [] [] rfl rfl rfl
  simp only [Node.pushChild, Builder.mk.injEq, List.cons.injEq, Node.mk.injEq,
    Option.some.injEq, List.append_cancel_left_eq, and_true, true_and] at hb
  obtain ⟨⟨hn, hp, hs, _⟩, _⟩ := hb
  subst hn hp hs
  refine ⟨rfl, hname.symm, ?_⟩
  rcases hforms with ⟨_, _, h⟩ | ⟨s, hw, _, h⟩ | ⟨p, s, _, h, _⟩
  · cases h
  · cases h
    exact hw
  · cases h

/-- C5 as the specification states it fails on the document `<!doctype !>` of
the test `should throw on invalid doctype name`: the body is ` !`, the loop
fails at index 1 (the `!`, in column 11 of the document), the column just after
it is 12, and the message is placed in column 13. -/
theorem column_after_offending_fails :
    loop (lit " !") 1 0 Vars.initial = .ok { Vars.initial with state := State.BEFORE_NAME } ∧
    step (lit " !") 1 { Vars.initial with state := State.BEFORE_NAME } =
      .error { reason := lit "Expected start of doctype name", id := lit "doctype-name" } ∧
    columnAfter ⟨0, 12, 12⟩ (lit " !") 1 = 12 ∧
    (ondoctype ⟨0, 12, 12⟩ (lit " !") (Builder.initial ⟨0, 0, 0⟩ 0)).place =
      some { line := 1, column := 13, offset := 12 } ∧
    (ondoctype ⟨0, 12, 12⟩ (lit " !") (Builder.initial ⟨0, 0, 0⟩ 0)).place.map Point.column ≠
      some (columnAfter ⟨0, 12, 12⟩ (lit " !") 1) :=
  ⟨rfl, rfl, rfl, rfl, by decide⟩

/-- C5, amended: for every body the loop rejects, the message is placed at the
clock reading `now()`, so its column is the tokenizer column plus one (the
column just after the closing `>` of the declaration) whichever iteration has
failed; this is the column immediately after the offending character exactly
when the loop has failed on the end-of-input sentinel. -/
theorem ondoctype_reject_column (parser : Cursor) (value : Str) (b : Builder)
    (index : Nat) (v : Vars) (f : Failure)
    (hindex : index ≤ value.length)
    (hreach : loop value index 0 Vars.initial = .ok v)
    (hstep : step value index v = .error f) :
    (ondoctype parser value b).place = some (now parser) ∧
    (ondoctype parser value b).place.map Point.column = some (parser.column + 1) ∧
    ((ondoctype parser value b).place.map Point.column = some (columnAfter parser value index) ↔
      index = value.length) := by
  have hp := parseDoctype_fails_at hindex hreach hstep
  rw [ondoctype_error parser b hp]
  refine ⟨rfl, rfl, ?_⟩
  simp only [Result.place, Option.map, now, columnAfter, Option.some.injEq]
  omega

/-- C5, amended, at the document `<!doctype !>`. -/
theorem ondoctype_reject_column_witness :
    (ondoctype ⟨0, 12, 12⟩ (lit " !") (Builder.initial ⟨0, 0, 0⟩ 0)).place =
      some (now ⟨0, 12, 12⟩) ∧
    (ondoctype ⟨0, 12, 12⟩ (lit " !") (Builder.initial ⟨0, 0, 0⟩ 0)).place.map Point.column =
      some (12 + 1) ∧
    ((ondoctype ⟨0, 12, 12⟩ (lit " !") (Builder.initial ⟨0, 0, 0⟩ 0)).place.map Point.column =
        some (columnAfter ⟨0, 12, 12⟩ (lit " !") 1) ↔
      1 = (lit " !").length) :=
  ondoctype_reject_column ⟨0, 12, 12⟩ (lit " !") (Builder.initial ⟨0, 0, 0⟩ 0) 1
    { Vars.initial with state := State.BEFORE_NAME }
    { reason := lit "Expected start of doctype name", id := lit "doctype-name" }
    (by decide) rfl rfl

/-- C3: when the loop of `ondoctype` reads the character `[` in one of the
states `IN_NAME` (directly after the name), `AFTER_NAME` (after whitespace that
follows the name) or `AFTER_SYSTEM_LITERAL` (after the closing delimiter of the
system literal, with or without whitespace in between), `ondoctype` throws
through `fail` with the reason `Unexpected internal subset`, and the builder is
as it was: no node has been added. -/
theorem ondoctype_internal_subset (parser : Cursor) (value : Str) (b : Builder)
    (index : Nat) (v : Vars)
    (hreach : loop value index 0 Vars.initial = .ok v)
    (hstate : v.state = State.IN_NAME ∨ v.state = State.AFTER_NAME ∨
      v.state = State.AFTER_SYSTEM_LITERAL)
    (hcode : codeAt value index = some 91) :
    ∃ m, ondoctype parser value b = .thrown (.message m) b ∧
      m.reason = lit "Unexpected internal subset" ∧ m.place = now parser := by
  have h1 : isNameChar (some 91) = false := by decide
  have h2 : isSpace (some 91) = false := by decide
  have hstep : ∃ id, step value index v =
      .error { reason := lit "Unexpected internal subset", id := id } := by
    rcases hstate with h | h | h
    · exact ⟨lit "doctype-internal-subset", by simp [step, h, hcode, h1, h2]⟩
    · exact ⟨lit "doctype-internal-subset", by simp [step, h, hcode, h2]⟩
    · exact ⟨lit "internal-subset", by simp [step, h, hcode, h2]⟩
  obtain ⟨id, hstep⟩ := hstep
  have hp := parseDoctype_fails_at (index_le_of_codeAt hcode) hreach hstep
  exact ⟨_, ondoctype_error parser b hp, rfl, rfl⟩

/-- C3, at the body ` name[`: the loop reads `[` at index 5 in state `IN_NAME`. -/
theorem ondoctype_internal_subset_witness :
    ∃ m, ondoctype ⟨0, 16, 16⟩ (lit " name[") (Builder.initial ⟨0, 0, 0⟩ 0) =
        .thrown (.message m) (Builder.initial ⟨0, 0, 0⟩ 0) ∧
      m.reason = lit "Unexpected internal subset" ∧ m.place = now ⟨0, 16, 16⟩ :=
  ondoctype_internal_subset ⟨0, 16, 16⟩ (lit " name[") (Builder.initial ⟨0, 0, 0⟩ 0) 5
    { Vars.initial with state := State.IN_NAME, start := some 1 } rfl (Or.inl rfl) rfl

/-- C4: on the body of the test `should throw on internal subset after external
id` the identifier of the thrown message is `xast-util-from-xml:internal-subset`,
and on the body of `should throw on unexpected character after external id` it
is `xast-util-from-xml:system-literal`: neither is one of the five `doctype-`
identifiers. -/
theorem ondoctype_after_system_literal_origin (parser : Cursor) (b : Builder) :
    (ondoctype parser (lit " name SYSTEM \"asd\" [<!ELEMENT greeting (#PCDATA)>]") b).origin =
        some (lit "xast-util-from-xml:internal-subset") ∧
      (ondoctype parser (lit " name SYSTEM \"asd\" !") b).origin =
        some (lit "xast-util-from-xml:system-literal") :=
  ⟨rfl, rfl⟩

/-- C6: the message thrown for a tokenizer error, for an SGML declaration and
for a doctype body that the loop rejects is placed at the clock reading of the
event, `now()`, which is the tokenizer's line plus one, column plus one, and
offset; so two rejected doctype bodies handled at the same cursor get the same
place, whatever character each was rejected at. -/
theorem translator_place (parser : Cursor) (message value value2 : Str) (b b2 : Builder)
    (f f2 : Failure) (hp : parseDoctype value = .error f)
    (hp2 : parseDoctype value2 = .error f2) :
    (onerror parser message b).place = some (now parser) ∧
    (onsgmldeclaration parser b).place = some (now parser) ∧
    (ondoctype parser value b).place = some (now parser) ∧
    now parser =
      { line := parser.line + 1, column := parser.column + 1, offset := parser.position } ∧
    (ondoctype parser value b).place = (ondoctype parser value2 b2).place := by
  rw [ondoctype_error parser b hp, ondoctype_error parser b2 hp2]
  exact ⟨onerror_place parser message b, rfl, rfl, rfl, rfl⟩

/-- C6, at the documents `<!doctype !>` and `<!doctype>`, both with the cursor
of the first. -/
theorem translator_place_witness :
    (onerror ⟨0, 12, 12⟩ (lit "Unexpected end\nLine: 0\nColumn: 12\nChar: ")
        (Builder.initial ⟨0, 0, 0⟩ 0)).place = some (now ⟨0, 12, 12⟩) ∧
    (onsgmldeclaration ⟨0, 12, 12⟩ (Builder.initial ⟨0, 0, 0⟩ 0)).place =
      some (now ⟨0, 12, 12⟩) ∧
    (ondoctype ⟨0, 12, 12⟩ (lit " !") (Builder.initial ⟨0, 0, 0⟩ 0)).place =
      some (now ⟨0, 12, 12⟩) ∧
    now ⟨0, 12, 12⟩ = { line := 0 + 1, column := 12 + 1, offset := 12 } ∧
    (ondoctype ⟨0, 12, 12⟩ (lit " !") (Builder.initial ⟨0, 0, 0⟩ 0)).place =
      (ondoctype ⟨0, 12, 12⟩ (lit "") (Builder.initial ⟨0, 0, 0⟩ 0)).place :=
  translator_place ⟨0, 12, 12⟩ (lit "Unexpected end\nLine: 0\nColumn: 12\nChar: ") (lit " !")
    (lit "") (Builder.initial ⟨0, 0, 0⟩ 0) (Builder.initial ⟨0, 0, 0⟩ 0)
    { reason := lit "Expected start of doctype name", id := lit "doctype-name" }
    { reason := lit "Expected doctype name", id := lit "doctype-name" } rfl rfl

/-- C8: on a builder whose stack top can take children, `oncomment` appends to
the top a comment node with the given value, starting at the clock baseline and
ending at `now()` with `column` and `offset` advanced by one; that corrected end
is the new baseline, so the next node entered starts there. -/
theorem oncomment_position (parser : Cursor) (value : Str) (b : Builder)
    (top : Node) (below cs : List Node)
    (hs : b.stack = top :: below) (hc : top.children = some cs) :
    ∃ b2,
      oncomment parser value b = .ok b2 ∧
      b2.stack =
        top.pushChild (.mk .comment none none none none (some value) none
          (some { start := b.position
                  «end» := some { line := (now parser).line
                                  column := (now parser).column + 1
                                  offset := (now parser).offset + 1 } })) :: below ∧
      b2.position = { line := (now parser).line, column := (now parser).column + 1,
                      offset := (now parser).offset + 1 } ∧
      ∀ (parser2 : Cursor) (next : Node),
        enter parser2 next b2 =
          .ok { b2 with
            stack := next.setPosition
              (some { start := { line := (now parser).line
                                 column := (now parser).column + 1
                                 offset := (now parser).offset + 1 }
                      «end» := none }) :: b2.stack
            position := now parser2 } := by
  refine ⟨_, leaf_reconciled parser _ _ b top below cs hs hc, rfl, rfl, ?_⟩
  intro parser2 next
  obtain ⟨t, n, a, p, s, v, c, pos⟩ := top
  simp [enter, Node.pushChild, Node.children]

/-- C8, for the comment `<!--a-->` at the start of a document: when the event
fires the tokenizer stands before the closing `>`, at column 7 and offset 7
(counted from 0), so the comment runs from 1:1 (offset 0) to 1:9 (offset 8),
which is the new baseline. -/
theorem oncomment_position_witness :
    ∃ b2,
      oncomment ⟨0, 7, 7⟩ (lit "a") (Builder.initial ⟨0, 0, 0⟩ 0) = .ok b2 ∧
      b2.stack =
        [.mk .root none none none none none
          (some [.mk .comment none none none none (some (lit "a")) none
            (some { start := { line := 1, column := 1, offset := 0 }
                    «end» := some { line := 1, column := 9, offset := 8 } })]) none] ∧
      b2.position = { line := 1, column := 9, offset := 8 } := by
  obtain ⟨b2, h1, h2, h3, _⟩ :=
    oncomment_position ⟨0, 7, 7⟩ (lit "a") (Builder.initial ⟨0, 0, 0⟩ 0)
      (.mk .root none none none none none (some []) none) [] [] rfl rfl
  exact ⟨b2, h1, h2, h3⟩

/-- C10: on every builder and at every cursor, `onsgmldeclaration` throws the
message `Unexpected SGML declaration` with the identifier
`xast-util-from-xml:unexpected-sgml`, placed at `now()`, and the builder is as it
was: no node has been added. -/
theorem onsgmldeclaration_rejects (parser : Cursor) (b : Builder) :
    onsgmldeclaration parser b =
      .thrown (.message { reason := lit "Unexpected SGML declaration", place := now parser,
                          origin := lit "xast-util-from-xml:unexpected-sgml" }) b := by
  rfl

/-- C7: on a builder whose stack top can take children, `ontext` appends to the
top a text node with the given value that starts at the clock baseline `p` and
ends at `textEnd p value`: offset `p.offset + value.length`, line `p.line` plus
the number of line breaks, and column `p.column + value.length` without a line
break, otherwise one more than the number of characters after the last line
break.  That end is the new baseline, whatever the tokenizer's cursor is, so the
next node entered starts there. -/
theorem ontext_position (parser : Cursor) (value : Str) (b : Builder)
    (top : Node) (below cs : List Node)
    (hs : b.stack = top :: below) (hc : top.children = some cs) :
    ∃ b2,
      ontext parser value b = .ok b2 ∧
      b2.stack =
        top.pushChild (.mk .text none none none none (some value) none
          (some { start := b.position, «end» := some (textEnd b.position value) })) :: below ∧
      b2.position = textEnd b.position value ∧
      (textEnd b.position value).offset = b.position.offset + value.length ∧
      (textEnd b.position value).line = b.position.line + countBreaks value ∧
      (countBreaks value = 0 →
        (textEnd b.position value).column = b.position.column + value.length) ∧
      (0 < countBreaks value →
        (textEnd b.position value).column = 1 + (afterLastBreak value).length) ∧
      ∀ (parser2 : Cursor) (next : Node),
        enter parser2 next b2 =
          .ok { b2 with
            stack := next.setPosition
              (some { start := textEnd b.position value, «end» := none }) :: b2.stack
            position := now parser2 } := by
  have h := leaf_reconciled parser (.mk .text none none none none (some value) none none)
    { (scanText value b.position b.searchLastIndex).actualEnd with
      offset := (scanText value b.position b.searchLastIndex).actualEnd.offset + value.length }
    { b with searchLastIndex := (scanText value b.position b.searchLastIndex).lastIndex }
    top below cs hs hc
  have h2 : ontext parser value b = _ := h
  rw [scanText_actualEnd] at h2
  refine ⟨_, h2, rfl, rfl, rfl, rfl, ?_, ?_, ?_⟩
  · intro hz
    simp [textEnd, hz]
  · intro hz
    have : countBreaks value ≠ 0 := by omega
    simp [textEnd, this]
  · intro parser2 next
    obtain ⟨t, n, a, p, s, v, c, pos⟩ := top
    simp [enter, Node.pushChild, Node.children]

/-- C7, for the text `a`, CR, LF, `bc` at the start of the root, with the
tokenizer's cursor already on line 10: one line break and two characters after
it, so the text runs from 1:1 (offset 0) to 2:3 (offset 5), which is the new
baseline. -/
theorem ontext_position_witness :
    ∃ b2,
      ontext ⟨9, 9, 9⟩ [97, 13, 10, 98, 99] (Builder.initial ⟨0, 0, 0⟩ 0) = .ok b2 ∧
      b2.stack =
        [.mk .root none none none none none
          (some [.mk .text none none none none (some [97, 13, 10, 98, 99]) none
            (some { start := { line := 1, column := 1, offset := 0 }
                    «end» := some { line := 2, column := 3, offset := 5 } })]) none] ∧
      b2.position = { line := 2, column := 3, offset := 5 } := by
  obtain ⟨b2, h1, h2, h3, _⟩ :=
    ontext_position ⟨9, 9, 9⟩ [97, 13, 10, 98, 99] (Builder.initial ⟨0, 0, 0⟩ 0)
      (.mk .root none none none none none (some []) none) [] [] rfl rfl
  exact ⟨b2, h1, h2, h3⟩

/-- C9 as the specification states it fails on a message of two lines followed
by the tokenizer's suffix: the reason is the text before `\nLine`, both lines,
and not the first line alone. -/
theorem onerror_first_line_fails :
    (onerror ⟨0, 20, 20⟩ (lit "Bad prefix\nActual: x\nLine: 0\nColumn: 20\nChar: >")
        (Builder.initial ⟨0, 0, 0⟩ 0)).reason =
      some (lit "Bad prefix\nActual: x") ∧
    firstLine (lit "Bad prefix\nActual: x\nLine: 0\nColumn: 20\nChar: >") =
      lit "Bad prefix" ∧
    (onerror ⟨0, 20, 20⟩ (lit "Bad prefix\nActual: x\nLine: 0\nColumn: 20\nChar: >")
        (Builder.initial ⟨0, 0, 0⟩ 0)).reason ≠
      some (firstLine
        (lit "Bad prefix\nActual: x\nLine: 0\nColumn: 20\nChar: >")) :=
  ⟨rfl, rfl, by decide⟩

/-- C9, amended: for every tokenizer message, the reason of the raised error is
the text of the message before its first `\nLine` (the whole message when it has
none), and its identifier is `xast-util-from-xml:sax`; this is the first line of
the message whenever the message is a text without line break followed by the
`\nLine` suffix. -/
theorem onerror_reason (parser : Cursor) (message : Str) (b : Builder) :
    ∃ reason,
      onerror parser message b =
        .thrown (.message { reason := reason, place := now parser,
                            origin := lit "xast-util-from-xml:sax" }) b ∧
      ((∀ head rest, message ≠ head ++ lit "\nLine" ++ rest) → reason = message) ∧
      (∀ head rest, message = head ++ lit "\nLine" ++ rest →
        (∀ head2 rest2, message = head2 ++ lit "\nLine" ++ rest2 →
          head.length ≤ head2.length) → reason = head) ∧
      (∀ head rest, message = head ++ lit "\nLine" ++ rest →
        (∀ c ∈ head, c ≠ 10 ∧ c ≠ 13) → reason = head ∧ reason = firstLine message) := by
  obtain ⟨reason, h1, h2, h3⟩ := onerror_thrown parser message b
  refine ⟨reason, h1, h2, h3, ?_⟩
  intro head rest he hhead
  have hr : reason = head :=
    h3 head rest he fun head2 rest2 he2 => head_is_first head rest head2 rest2 hhead (he ▸ he2)
  exact ⟨hr, by rw [hr, he, firstLine_of_head head rest hhead]⟩

/-- C9, amended, at the message of the test `should throw messages`. -/
theorem onerror_reason_witness :
    ∃ reason,
      onerror ⟨0, 16, 16⟩ (lit "Unquoted attribute value\nLine: 0\nColumn: 16\nChar: a")
          (Builder.initial ⟨0, 0, 0⟩ 0) =
        .thrown (.message { reason := reason, place := now ⟨0, 16, 16⟩,
                            origin := lit "xast-util-from-xml:sax" })
          (Builder.initial ⟨0, 0, 0⟩ 0) ∧
      reason = lit "Unquoted attribute value" ∧
      reason = firstLine (lit "Unquoted attribute value\nLine: 0\nColumn: 16\nChar: a") := by
  obtain ⟨reason, h1, _, _, h4⟩ := onerror_reason ⟨0, 16, 16⟩
    (lit "Unquoted attribute value\nLine: 0\nColumn: 16\nChar: a") (Builder.initial ⟨0, 0, 0⟩ 0)
  exact ⟨reason, h1, h4 (lit "Unquoted attribute value") (lit ": 0\nColumn: 16\nChar: a") rfl
    (by decide)⟩

/-- C15: on a UTF-16 code unit `isPubidChar` holds exactly on the XML
`PubidChar` set as the specification lists it; `<`, `>`, `"`, `&`, `[` and every
code unit above U+007A are refused, and so is the end of input; hence when the
loop of `ondoctype` stands inside a public literal and reads a character that
is neither the closing delimiter nor a `PubidChar`, or the end of input,
`ondoctype` throws `Expected pubid character in public literal` and adds no
node. -/
theorem isPubidChar_iff_xml (c : Nat) (hc : c < 65536) :
    (isPubidChar (some c) = true ↔ XmlPubidChar c) ∧
    (c = 60 ∨ c = 62 ∨ c = 34 ∨ c = 38 ∨ c = 91 ∨ 122 < c → isPubidChar (some c) = false) ∧
    isPubidChar none = false ∧
    (∀ (parser : Cursor) (value : Str) (b : Builder) (index : Nat) (v : Vars),
      loop value index 0 Vars.initial = .ok v → v.state = State.IN_PUBLIC_LITERAL →
      index ≤ value.length →
      (codeAt value index = some c ∧ v.marker ≠ some c ∧ ¬ XmlPubidChar c ∨
        codeAt value index = none) →
      ∃ m, ondoctype parser value b = .thrown (.message m) b ∧
        m.reason = lit "Expected pubid character in public literal" ∧
        m.origin = lit "xast-util-from-xml:doctype-public-literal") := by
  have hiff : isPubidChar (some c) = true ↔ XmlPubidChar c := by
    simp only [isPubidChar, fromCharCode, Nat.mod_eq_of_lt hc, pubidClass_iff]
  refine ⟨hiff, ?_, rfl, ?_⟩
  · intro h
    rw [← Bool.not_eq_true, hiff]
    unfold XmlPubidChar
    omega
  · intro parser value b index v hreach hstate hindex hcode
    have hstep : step value index v =
        .error { reason := lit "Expected pubid character in public literal",
                 id := lit "doctype-public-literal" } := by
      rcases hcode with ⟨hcode, hmarker, hno⟩ | hcode
      · have hp : isPubidChar (some c) = false := by
          rw [← Bool.not_eq_true, hiff]
          exact hno
        have hm : strictEq (some c) v.marker = false := by
          cases hv : v.marker with
          | none => rfl
          | some m =>
            rw [hv] at hmarker
            simp only [strictEq, beq_eq_false_iff_ne, ne_eq]
            intro e
            exact hmarker (by rw [e])
        simp [step, hstate, hcode, hp, hm]
      · have hm : strictEq none v.marker = false := by cases v.marker <;> rfl
        simp [step, hstate, hcode, hm, isPubidChar]
    have hp := parseDoctype_fails_at hindex hreach hstep
    exact ⟨_, ondoctype_error parser b hp, rfl, rfl⟩

/-- C15, at the character `<` and the body ` a PUBLIC "<"`: the loop reads `<`
at index 11 inside the public literal. -/
theorem isPubidChar_iff_xml_witness :
    (60 < 65536) ∧ ¬ XmlPubidChar 60 ∧ isPubidChar (some 60) = false ∧
    ∃ m, ondoctype ⟨0, 22, 22⟩ (lit " a PUBLIC \"<\"") (Builder.initial ⟨0, 0, 0⟩ 0) =
        .thrown (.message m) (Builder.initial ⟨0, 0, 0⟩ 0) ∧
      m.reason = lit "Expected pubid character in public literal" ∧
      m.origin = lit "xast-util-from-xml:doctype-public-literal" :=
  ⟨by decide, by decide, (isPubidChar_iff_xml 60 (by decide)).2.1 (Or.inl rfl),
    (isPubidChar_iff_xml 60 (by decide)).2.2.2 ⟨0, 22, 22⟩ (lit " a PUBLIC \"<\"")
      (Builder.initial ⟨0, 0, 0⟩ 0) 11
      { Vars.initial with
        node := { name := lit "a", «public» := none, system := none }
        state := State.IN_PUBLIC_LITERAL
        returnState := some State.AFTER_PUBLIC
        buffer := some (lit "PUBLIC")
        bufferIndex := some 5
        start := some 11
        marker := some 34 }
      rfl rfl (by decide) (Or.inl ⟨rfl, by decide, by decide⟩)⟩

/-- C20: on a UTF-16 code unit `isSpace` holds exactly for tab, LF, CR and
space, `isNameStartChar` exactly on the `NameStartChar` ranges of the Basic
Multilingual Plane as the specification lists them, and `isNameChar` exactly
when `isNameStartChar` holds or the unit is `-`, `.`, a digit, U+00B7, in
U+0300-036F or in U+203F-2040; all three are false on the end of input and on a
surrogate; so when the loop of `ondoctype` reads a surrogate where the name
starts or inside the name, `ondoctype` throws with the identifier
`doctype-name` and adds no node, and the name of an accepted body has no
surrogate. -/
theorem name_classes_iff_xml (c : Nat) (hc : c < 65536) :
    (isSpace (some c) = true ↔ c = 9 ∨ c = 10 ∨ c = 13 ∨ c = 32) ∧
    (isNameStartChar (some c) = true ↔ XmlNameStartChar c) ∧
    (isNameChar (some c) = true ↔ isNameStartChar (some c) = true ∨ XmlNameExtraChar c) ∧
    (isSpace none = false ∧ isNameStartChar none = false ∧ isNameChar none = false) ∧
    (IsSurrogate c →
      isSpace (some c) = false ∧ isNameStartChar (some c) = false ∧
        isNameChar (some c) = false) ∧
    (∀ (parser : Cursor) (value : Str) (b : Builder) (index : Nat) (v : Vars),
      IsSurrogate c → loop value index 0 Vars.initial = .ok v →
      v.state = State.BEFORE_NAME ∨ v.state = State.IN_NAME →
      codeAt value index = some c →
      ∃ m, ondoctype parser value b = .thrown (.message m) b ∧
        m.origin = lit "xast-util-from-xml:doctype-name") ∧
    (∀ (value : Str) (r : Vars), parseDoctype value = .ok r → c ∈ r.node.name →
      ¬ IsSurrogate c) := by
  refine ⟨isSpace_iff_of_unit hc, ?_, ?_, ⟨rfl, rfl, rfl⟩, surrogate_in_no_class, ?_, ?_⟩
  · simp only [isNameStartChar, fromCharCode, Nat.mod_eq_of_lt hc, nameStartClass_iff]
  · rw [isNameChar_iff, fromCharCode, Nat.mod_eq_of_lt hc, nameExtraClass_iff]
  · intro parser value b index v hsur hreach hstate hcode
    obtain ⟨h1, h2, h3⟩ := surrogate_in_no_class hsur
    have h91 : c ≠ 91 := by unfold IsSurrogate at hsur; omega
    have hstep : ∃ reason, step value index v =
        .error { reason := reason, id := lit "doctype-name" } := by
      rcases hstate with h | h
      · exact ⟨lit "Expected start of doctype name", by simp [step, h, hcode, h1, h2]⟩
      · exact ⟨lit "Expected doctype name character, whitespace, or doctype end",
          by simp [step, h, hcode, h1, h3, h91]⟩
    obtain ⟨reason, hstep⟩ := hstep
    have hp := parseDoctype_fails_at (index_le_of_codeAt hcode) hreach hstep
    exact ⟨_, ondoctype_error parser b hp, rfl⟩
  · intro value r hr hmem hsur
    have := name_of_accepted hr c hmem
    rw [(surrogate_in_no_class hsur).2.2] at this
    cases this

/-- C20, at the high surrogate U+D83E, the first code unit of U+1F914, and the
body ` a` followed by that character: the loop reads the surrogate at index 2,
inside the name. -/
theorem name_classes_iff_xml_witness :
    (0xD83E < 65536) ∧ IsSurrogate 0xD83E ∧
    (isSpace (some 0xD83E) = false ∧ isNameStartChar (some 0xD83E) = false ∧
      isNameChar (some 0xD83E) = false) ∧
    ∃ m, ondoctype ⟨0, 14, 14⟩ (lit " a" ++ [0xD83E, 0xDD14]) (Builder.initial ⟨0, 0, 0⟩ 0) =
        .thrown (.message m) (Builder.initial ⟨0, 0, 0⟩ 0) ∧
      m.origin = lit "xast-util-from-xml:doctype-name" :=
  ⟨by decide, by decide, (name_classes_iff_xml 0xD83E (by decide)).2.2.2.2.1 (by decide),
    (name_classes_iff_xml 0xD83E (by decide)).2.2.2.2.2.1 ⟨0, 14, 14⟩
      (lit " a" ++ [0xD83E, 0xDD14]) (Builder.initial ⟨0, 0, 0⟩ 0) 2
      { Vars.initial with state := State.IN_NAME, start := some 1 }
      (by decide) rfl (Or.inr rfl) rfl⟩

/-- C19: when `ondoctype` accepts a body, the doctype node it has appended has a
`system` field whenever it has a `public` field; and a body of the form
`S+ Name S+ 'PUBLIC' S+ PubidLiteral S*`, where the input ends directly after
the public literal or after whitespace that follows it, is rejected: `ondoctype`
throws a message with the identifier `xast-util-from-xml:doctype-system-literal`
and adds no node. -/
theorem ondoctype_public_needs_system (parser : Cursor) (value : Str) (b : Builder)
    (top : Node) (below cs : List Node)
    (hs : b.stack = top :: below) (hc : top.children = some cs) :
    (∀ b2, ondoctype parser value b = .ok b2 →
      ∃ name pub sys,
        b2.stack =
          top.pushChild (.mk .doctype (some name) none pub sys none none
            (some { start := b.position, «end» := some (now parser) })) :: below ∧
        (pub ≠ none → sys ≠ none)) ∧
    (∀ s1 n s2 s3 pl pub s4, value = s1 ++ n ++ s2 ++ lit "PUBLIC" ++ s3 ++ pl ++ s4 →
      Spaces1 s1 → IsName n → Spaces1 s2 → Spaces1 s3 → IsPubidLiteral pl pub → Spaces s4 →
      ∃ m, ondoctype parser value b = .thrown (.message m) b ∧
        m.origin = lit "xast-util-from-xml:doctype-system-literal") := by
  constructor
  · intro b2 h
    cases hp : parseDoctype value with
    | error f =>
      rw [ondoctype_error parser b hp] at h
      cases h
    | ok v =>
      rw [ondoctype_ok parser b top below cs hs hc hp] at h
      refine ⟨v.node.name, v.node.«public», v.node.system, ?_, ?_⟩
      · rw [← Result.ok.inj h]
      · rcases parseDoctype_complete hp with ⟨n, _, hv⟩ | ⟨n, s, _, hv⟩ | ⟨n, p, s, _, hv⟩ <;>
          rw [hv] <;> simp
  · intro s1 n s2 s3 pl pub s4 hv h1 hn h2 h3 hpl h4
    obtain ⟨f, hf, hid⟩ := public_without_system hv h1 hn h2 h3 hpl h4
    refine ⟨_, ondoctype_error parser b hf, ?_⟩
    show lit "xast-util-from-xml:" ++ f.id = _
    rw [hid]
    rfl

/-- C19, on the initial builder: the body ` a PUBLIC "x" "y"` is accepted and
its node has both fields, and the body ` a PUBLIC "x" ` is rejected after the
whitespace that follows the public literal. -/
theorem ondoctype_public_needs_system_witness :
    (∃ name pub sys,
      [(Node.mk .root none none none none none (some []) none).pushChild
        (.mk .doctype (some (lit "a")) none (some (lit "x")) (some (lit "y")) none none
          (some { start := now ⟨0, 0, 0⟩, «end» := some (now ⟨0, 27, 27⟩) }))] =
        [(Node.mk .root none none none none none (some []) none).pushChild
          (.mk .doctype (some name) none pub sys none none
            (some { start := now ⟨0, 0, 0⟩, «end» := some (now ⟨0, 27, 27⟩) }))] ∧
      (pub ≠ none → sys ≠ none)) ∧
    ∃ m, ondoctype ⟨0, 24, 24⟩ (lit " a PUBLIC \"x\" ") (Builder.initial ⟨0, 0, 0⟩ 0) =
        .thrown (.message m) (Builder.initial ⟨0, 0, 0⟩ 0) ∧
      m.origin = lit "xast-util-from-xml:doctype-system-literal" :=
  ⟨(ondoctype_public_needs_system ⟨0, 27, 27⟩ (lit " a PUBLIC \"x\" \"y\"")
      (Builder.initial ⟨0, 0, 0⟩ 0) (.mk .root none none none none none (some []) none) [] []
      rfl rfl).1
      { stack :=
          [(Node.mk .root none none none none none (some []) none).pushChild
            (.mk .doctype (some (lit "a")) none (some (lit "x")) (some (lit "y")) none none
              (some { start := now ⟨0, 0, 0⟩, «end» := some (now ⟨0, 27, 27⟩) }))]
        position := now ⟨0, 27, 27⟩
        searchLastIndex := 0 } rfl,
    (ondoctype_public_needs_system ⟨0, 24, 24⟩ (lit " a PUBLIC \"x\" ")
      (Builder.initial ⟨0, 0, 0⟩ 0) (.mk .root none none none none none (some []) none) [] []
      rfl rfl).2 (lit " ") (lit "a") (lit " ") (lit " ") (lit "\"x\"") (lit "x") (lit " ") rfl
      ⟨by decide, by decide⟩ ⟨97, [], rfl, by decide, by simp⟩ ⟨by decide, by decide⟩
      ⟨by decide, by decide⟩ ⟨34, Or.inl rfl, rfl, by decide⟩ (by decide)⟩

/-- C11: the stack of `fromXml` starts as `[root]`; through an event stream in
which every exit event (element-close or CDATA-close) has an enter event
(element-open or CDATA-open) that is not yet closed, after every start of the
stream the stack is not empty and has a root at its bottom, whether the handlers
have returned or one has thrown; the handler of a leaf event (doctype,
instruction, comment, text) leaves the stack as deep as it was; when the stream
has run, the depth is one more than the number of enter events left open; and
when none is left open the stack is `[root]`, and that root is what `fromXml`
returns. -/
theorem stack_discipline (start : Cursor) (lastIndex : Nat)
    (events : List (Cursor × Event)) :
    (Builder.initial start lastIndex).stack =
      [.mk .root none none none none none (some []) none] ∧
    (nesting 0 events ≠ none → ∀ pre post, events = pre ++ post →
      RootAtBottom (run pre (Builder.initial start lastIndex)).builder.stack) ∧
    (∀ parser e b, e.isLeaf = true →
      (handle parser e b).builder.stack.length = b.stack.length) ∧
    (∀ d b, nesting 0 events = some d →
      run events (Builder.initial start lastIndex) = .ok b → b.stack.length = d + 1) ∧
    (nesting 0 events = some 0 → ∀ b,
      run events (Builder.initial start lastIndex) = .ok b →
      ∃ root, b.stack = [root] ∧ root.type = .root ∧
        fromXml start lastIndex events = .ok (some root)) := by
  have hlen : ∀ d b, nesting 0 events = some d →
      run events (Builder.initial start lastIndex) = .ok b → b.stack.length = d + 1 := by
    intro d b hd hb
    obtain ⟨d2, h1, h2⟩ := (run_shape events 0 (Builder.initial start lastIndex)
      (initial_rootAtBottom start lastIndex) rfl (by rw [hd]; simp)).2 b hb
    rw [hd] at h1
    cases h1
    exact h2
  refine ⟨rfl, ?_, leaf_keeps_depth, hlen, ?_⟩
  · rintro hn pre post rfl
    refine (run_shape pre 0 (Builder.initial start lastIndex)
      (initial_rootAtBottom start lastIndex) rfl ?_).1
    intro hpre
    rw [nesting_append, hpre] at hn
    exact hn rfl
  · intro hd b hb
    have h1 := hlen 0 b hd hb
    have h2 := (run_shape events 0 (Builder.initial start lastIndex)
      (initial_rootAtBottom start lastIndex) rfl (by rw [hd]; simp)).1
    rw [hb] at h2
    obtain ⟨above, root, hs, hr, _, _⟩ := h2
    simp only [Result.builder] at hs
    rw [hs] at h1
    cases above with
    | nil =>
      refine ⟨root, hs, hr, ?_⟩
      simp only [fromXml, hb, Builder.root, hs]
      rfl
    | cons a above => simp at h1

/-- C11, on the events of `<a>x</a>`: element-open, text, element-close; no
enter event is left open, the stack ends as `[root]` and `fromXml` returns that
root. -/
theorem stack_discipline_witness :
    nesting 0 [(⟨0, 3, 3⟩, Event.opentag (lit "a") []), (⟨0, 5, 5⟩, Event.text (lit "x")),
      (⟨0, 8, 8⟩, Event.closetag)] = some 0 ∧
    ∃ root, root.type = .root ∧
      fromXml ⟨0, 0, 0⟩ 0 [(⟨0, 3, 3⟩, Event.opentag (lit "a") []),
        (⟨0, 5, 5⟩, Event.text (lit "x")), (⟨0, 8, 8⟩, Event.closetag)] = .ok (some root) := by
  refine ⟨rfl, ?_⟩
  obtain ⟨root, _, hr, hx⟩ := (stack_discipline ⟨0, 0, 0⟩ 0
    [(⟨0, 3, 3⟩, Event.opentag (lit "a") []), (⟨0, 5, 5⟩, Event.text (lit "x")),
      (⟨0, 8, 8⟩, Event.closetag)]).2.2.2.2 rfl _ rfl
  exact ⟨root, hr, hx⟩

/-- C14: on a builder whose stack top can take children, a CDATA-open event,
then any number of chunks, then the CDATA-close event leave the stack as it
was but for one new last child of the top: a CDATA node whose value is the
chunks joined in the order of their arrival (the empty string when there is
none), positioned from the baseline to the clock of the close event. -/
theorem cdata_chunks (parser close : Cursor) (chunks : List (Cursor × Str)) (b : Builder)
    (top : Node) (below cs : List Node)
    (hs : b.stack = top :: below) (hc : top.children = some cs) :
    run ((parser, Event.opencdata) ::
          ((chunks.map fun c => (c.1, Event.cdata c.2)) ++ [(close, Event.closecdata)])) b =
      .ok { stack :=
              .mk top.type top.name top.attributes top.«public» top.system top.value
                (some (cs ++ [.mk .cdata none none none none
                  (some (chunks.map Prod.snd).flatten) none
                  (some { start := b.position, «end» := some (now close) })]))
                top.position :: below
            position := now close
            searchLastIndex := b.searchLastIndex } := by
  obtain ⟨stack, position, li⟩ := b
  obtain ⟨t, n, a, p, s, v, c, pos⟩ := top
  simp only at hs
  subst hs
  simp only [Node.children] at hc
  subst hc
  simp only [run, handle, oncdataopen, enter, Node.children, Result.andThen, Node.setPosition]
  rw [run_append, run_chunks]
  simp [run, handle, exit, Result.andThen, Node.position, Node.setEnd, Node.setPosition,
    Node.pushChild, Node.type, Node.name, Node.attributes, Node.«public», Node.system,
    Node.value]

/-- C14, on the initial builder with the chunks `ab` and `cd`: the root gets
one CDATA node with the value `abcd`. -/
theorem cdata_chunks_witness :
    run [(⟨0, 9, 9⟩, Event.opencdata), (⟨0, 11, 11⟩, Event.cdata (lit "ab")),
        (⟨0, 13, 13⟩, Event.cdata (lit "cd")), (⟨0, 16, 16⟩, Event.closecdata)]
        (Builder.initial ⟨0, 0, 0⟩ 0) =
      .ok { stack :=
              [.mk .root none none none none none
                (some [.mk .cdata none none none none (some (lit "abcd")) none
                  (some { start := now ⟨0, 0, 0⟩, «end» := some (now ⟨0, 16, 16⟩) })])
                none]
            position := now ⟨0, 16, 16⟩
            searchLastIndex := 0 } :=
  cdata_chunks ⟨0, 9, 9⟩ ⟨0, 16, 16⟩ [(⟨0, 11, 11⟩, lit "ab"), (⟨0, 13, 13⟩, lit "cd")]
    (Builder.initial ⟨0, 0, 0⟩ 0) (.mk .root none none none none none (some []) none) [] []
    rfl rfl

/-- C18: the result of `fromXml`, tree with all positions or exception, is the
same whatever value an earlier call has left in `search.lastIndex`, the one
state that outlives a call; and so is the end that the scan of `ontext`
computes for a text. -/
theorem fromXml_independent (start : Cursor) (events : List (Cursor × Event))
    (lastIndex lastIndex2 : Nat) :
    fromXml start lastIndex events = fromXml start lastIndex2 events ∧
    ∀ (value : Str) (position : Point),
      (scanText value position lastIndex).actualEnd =
        (scanText value position lastIndex2).actualEnd := by
  refine ⟨?_, fun value position => scanText_lastIndex value position _ _⟩
  have h := run_visible events [.mk .root none none none none none (some []) none] (now start)
    lastIndex lastIndex2
  simp only [fromXml, Builder.initial]
  cases h1 : run events ⟨[.mk .root none none none none none (some []) none], now start,
      lastIndex⟩ with
  | ok b1 =>
    cases h2 : run events ⟨[.mk .root none none none none none (some []) none], now start,
        lastIndex2⟩ with
    | ok b2 =>
      rw [h1, h2] at h
      simp only [Result.visible, Except.ok.injEq, Prod.mk.injEq] at h
      simp only [Builder.root, h.1]
    | thrown err b2 => rw [h1, h2] at h; cases h
  | thrown err b1 =>
    cases h2 : run events ⟨[.mk .root none none none none none (some []) none], now start,
        lastIndex2⟩ with
    | ok b2 => rw [h1, h2] at h; cases h
    | thrown err2 b2 =>
      rw [h1, h2] at h
      simp only [Result.visible, Except.error.injEq] at h
      simp only [h]

/-- C13: when no enter event is left open at the end of the events and
`fromXml` returns, the tree is the root, which has no position, and every node
under it has both `position.start` and `position.end`; `exit()` throws exactly
when the stack is empty or the popped node has no position, and what it throws
is `Error('Expected tail')`. -/
theorem nodes_sealed (start : Cursor) (lastIndex : Nat) (events : List (Cursor × Event))
    (tree : Node) (hbal : nesting 0 events = some 0)
    (hrun : fromXml start lastIndex events = .ok (some tree)) :
    (tree.type = .root ∧ tree.position = none) ∧
    (∀ m, Descendant tree m →
      ∃ s e, m.position = some { start := s, «end» := some e }) ∧
    (∀ parser b, (∃ err b2, exit parser b = .thrown err b2) ↔
      (b.stack = [] ∨ ∃ tail rest, b.stack = tail :: rest ∧ tail.position = none)) ∧
    (∀ parser b err b2, exit parser b = .thrown err b2 → err = .error (lit "Expected tail")) := by
  obtain ⟨hty, hpos, hk⟩ := tree_sealed hbal hrun
  refine ⟨⟨hty, hpos⟩, fun m hm => ?_, fun parser b => ⟨?_, ?_⟩, ?_⟩
  · cases sealed_of_kids hm hk with
    | mk hp _ => exact hp
  · rintro ⟨err, b2, h⟩
    rcases (exit_thrown h).2 with ⟨hs, _⟩ | ⟨tail, rest, hs, hp, _⟩
    · exact Or.inl hs
    · exact Or.inr ⟨tail, rest, hs, hp⟩
  · rintro (hs | ⟨tail, rest, hs, hp⟩)
    · exact ⟨.error (lit "Expected tail"), b, by simp only [exit, hs]⟩
    · exact ⟨.error (lit "Expected tail"), { b with stack := rest },
        by simp only [exit, hs, hp]⟩
  · intro parser b err b2 h
    exact (exit_thrown h).1

/-- C13, on the events of `<a>x</a>`: the element under the root and the text
under the element have a start and an end. -/
theorem nodes_sealed_witness :
    nesting 0 [(⟨0, 3, 3⟩, Event.opentag (lit "a") []), (⟨0, 5, 5⟩, Event.text (lit "x")),
      (⟨0, 8, 8⟩, Event.closetag)] = some 0 ∧
    fromXml ⟨0, 0, 0⟩ 0 [(⟨0, 3, 3⟩, Event.opentag (lit "a") []),
        (⟨0, 5, 5⟩, Event.text (lit "x")), (⟨0, 8, 8⟩, Event.closetag)] =
      .ok (some (.mk .root none none none none none
        (some [.mk .element (some (lit "a")) (some []) none none none
          (some [.mk .text none none none none (some (lit "x")) none
            (some { start := ⟨1, 4, 3⟩, «end» := some ⟨1, 5, 4⟩ })])
          (some { start := ⟨1, 1, 0⟩, «end» := some ⟨1, 9, 8⟩ })]) none)) ∧
    ∃ s e, (Node.mk .text none none none none (some (lit "x")) none
      (some { start := ⟨1, 4, 3⟩, «end» := some ⟨1, 5, 4⟩ })).position =
        some { start := s, «end» := some e } :=
  ⟨rfl, rfl,
    (nodes_sealed ⟨0, 0, 0⟩ 0 [(⟨0, 3, 3⟩, Event.opentag (lit "a") []),
      (⟨0, 5, 5⟩, Event.text (lit "x")), (⟨0, 8, 8⟩, Event.closetag)] _ rfl rfl).2.1 _
      (Descendant.deeper (List.Mem.head _) (Descendant.child (List.Mem.head _)))⟩

/-- C16 as the specification states it fails on a comment and a processing
instruction that arrive at the same tokenizer offset 5: the offsets never
decrease, and the instruction starts at the corrected end of the comment,
offset 6, and ends at the clock, offset 5. -/
theorem offsets_never_decrease_fails :
    offsetsNeverDecrease [(⟨0, 5, 5⟩, Event.comment (lit "a")),
      (⟨0, 5, 5⟩, Event.processinginstruction (lit "a") (lit "b"))] = true ∧
    ∃ tree m s e,
      fromXml ⟨0, 0, 0⟩ 0 [(⟨0, 5, 5⟩, Event.comment (lit "a")),
        (⟨0, 5, 5⟩, Event.processinginstruction (lit "a") (lit "b"))] = .ok (some tree) ∧
      Descendant tree m ∧ m.position = some { start := s, «end» := some e } ∧
      s.offset = 6 ∧ e.offset = 5 ∧ ¬ s.offset ≤ e.offset :=
  ⟨rfl,
    .mk .root none none none none none
      (some [.mk .comment none none none none (some (lit "a")) none
          (some { start := ⟨1, 1, 0⟩, «end» := some ⟨1, 7, 6⟩ }),
        .mk .instruction (some (lit "a")) none none none (some (lit "b")) none
          (some { start := ⟨1, 7, 6⟩, «end» := some ⟨1, 6, 5⟩ })]) none,
    .mk .instruction (some (lit "a")) none none none (some (lit "b")) none
      (some { start := ⟨1, 7, 6⟩, «end» := some ⟨1, 6, 5⟩ }),
    ⟨1, 7, 6⟩, ⟨1, 6, 5⟩, rfl, Descendant.child (List.Mem.tail _ (List.Mem.head _)), rfl,
    rfl, rfl, by decide⟩

/-- C16, amended: in the tree `fromXml` returns, every text node ends
`value.length` offsets after it starts; and when at every event the tokenizer's
offset is not less than the offset of the clock baseline, every node that has
an end starts at an offset no greater than the offset it ends at. -/
theorem offsets_ordered (start : Cursor) (lastIndex : Nat) (events : List (Cursor × Event))
    (tree : Node) (hrun : fromXml start lastIndex events = .ok (some tree)) :
    (∀ m, Descendant tree m → m.type = .text →
      ∃ s e value, m.position = some { start := s, «end» := some e } ∧
        m.value = some value ∧ s.offset ≤ e.offset ∧
        e.offset - s.offset = value.length) ∧
    (ahead offsetLe events (Builder.initial start lastIndex) = true →
      ∀ m, Descendant tree m →
        ∀ s e, m.position = some { start := s, «end» := some e } → s.offset ≤ e.offset) := by
  constructor
  · intro m hm ht
    have ho := @tree_ordered (fun _ _ => true) (fun _ _ _ _ _ => rfl) (fun _ => rfl)
      (fun _ _ => rfl) start lastIndex events tree (ahead_of_total (fun _ _ => rfl) _ _) hrun
    cases ordered_descendant hm ho with
    | mk _ htext _ _ _ =>
      obtain ⟨s, value, hv, hp⟩ := htext ht
      refine ⟨s, textEnd s value, value, hp, hv, ?_, ?_⟩ <;> simp [textEnd]
  · intro ha m hm s e hp
    have ho := tree_ordered offsetLe_trans offsetLe_next offsetLe_text ha hrun
    cases ordered_descendant hm ho with
    | mk hse _ _ _ _ =>
      have := hse s e hp
      simpa [offsetLe] using this

/-- C16 amended, on the events of `<a>x</a>`: the clock is never behind the
baseline, the text is one offset long, and the element starts at offset 0 and
ends at offset 8. -/
theorem offsets_ordered_witness :
    ahead offsetLe [(⟨0, 3, 3⟩, Event.opentag (lit "a") []), (⟨0, 5, 5⟩, Event.text (lit "x")),
      (⟨0, 8, 8⟩, Event.closetag)] (Builder.initial ⟨0, 0, 0⟩ 0) = true ∧
    fromXml ⟨0, 0, 0⟩ 0 [(⟨0, 3, 3⟩, Event.opentag (lit "a") []),
        (⟨0, 5, 5⟩, Event.text (lit "x")), (⟨0, 8, 8⟩, Event.closetag)] =
      .ok (some (.mk .root none none none none none
        (some [.mk .element (some (lit "a")) (some []) none none none
          (some [.mk .text none none none none (some (lit "x")) none
            (some { start := ⟨1, 4, 3⟩, «end» := some ⟨1, 5, 4⟩ })])
          (some { start := ⟨1, 1, 0⟩, «end» := some ⟨1, 9, 8⟩ })]) none)) ∧
    ({ line := 1, column := 1, offset := 0 } : Point).offset ≤
      ({ line := 1, column := 9, offset := 8 } : Point).offset :=
  ⟨rfl, rfl,
    (offsets_ordered ⟨0, 0, 0⟩ 0 [(⟨0, 3, 3⟩, Event.opentag (lit "a") []),
      (⟨0, 5, 5⟩, Event.text (lit "x")), (⟨0, 8, 8⟩, Event.closetag)] _ rfl).2 rfl _
      (Descendant.child (List.Mem.head _)) ⟨1, 1, 0⟩ ⟨1, 9, 8⟩ rfl⟩

/-- C17 as the specification states it fails on the events of the document
`<r><a/>`, line break, `<b/></r>`, in which the clock is never behind the
baseline: under `r` the text of the line break starts in line 1, column 8, and
its next sibling `b` starts in line 2, column 1. -/
theorem sibling_columns_fail :
    ahead lineColumnLe
      [(⟨0, 3, 3⟩, Event.opentag (lit "r") []), (⟨0, 7, 7⟩, Event.opentag (lit "a") []),
        (⟨0, 7, 7⟩, Event.closetag), (⟨1, 1, 9⟩, Event.text [10]),
        (⟨1, 4, 12⟩, Event.opentag (lit "b") []), (⟨1, 4, 12⟩, Event.closetag),
        (⟨1, 8, 16⟩, Event.closetag)] (Builder.initial ⟨0, 0, 0⟩ 0) = true ∧
    ∃ tree r a x y px py,
      fromXml ⟨0, 0, 0⟩ 0
        [(⟨0, 3, 3⟩, Event.opentag (lit "r") []), (⟨0, 7, 7⟩, Event.opentag (lit "a") []),
          (⟨0, 7, 7⟩, Event.closetag), (⟨1, 1, 9⟩, Event.text [10]),
          (⟨1, 4, 12⟩, Event.opentag (lit "b") []), (⟨1, 4, 12⟩, Event.closetag),
          (⟨1, 8, 16⟩, Event.closetag)] = .ok (some tree) ∧
      tree.kids = [r] ∧ r.kids = [a, x, y] ∧
      x.position = some px ∧ y.position = some py ∧
      px.start.column = 8 ∧ py.start.column = 1 ∧ ¬ px.start.column ≤ py.start.column :=
  ⟨rfl,
    .mk .root none none none none none
      (some [.mk .element (some (lit "r")) (some []) none none none
        (some [.mk .element (some (lit "a")) (some []) none none none (some [])
            (some { start := ⟨1, 4, 3⟩, «end» := some ⟨1, 8, 7⟩ }),
          .mk .text none none none none (some [10]) none
            (some { start := ⟨1, 8, 7⟩, «end» := some ⟨2, 1, 8⟩ }),
          .mk .element (some (lit "b")) (some []) none none none (some [])
            (some { start := ⟨2, 1, 8⟩, «end» := some ⟨2, 5, 12⟩ })])
        (some { start := ⟨1, 1, 0⟩, «end» := some ⟨2, 9, 16⟩ })]) none,
    .mk .element (some (lit "r")) (some []) none none none
      (some [.mk .element (some (lit "a")) (some []) none none none (some [])
          (some { start := ⟨1, 4, 3⟩, «end» := some ⟨1, 8, 7⟩ }),
        .mk .text none none none none (some [10]) none
          (some { start := ⟨1, 8, 7⟩, «end» := some ⟨2, 1, 8⟩ }),
        .mk .element (some (lit "b")) (some []) none none none (some [])
          (some { start := ⟨2, 1, 8⟩, «end» := some ⟨2, 5, 12⟩ })])
      (some { start := ⟨1, 1, 0⟩, «end» := some ⟨2, 9, 16⟩ }),
    .mk .element (some (lit "a")) (some []) none none none (some [])
      (some { start := ⟨1, 4, 3⟩, «end» := some ⟨1, 8, 7⟩ }),
    .mk .text none none none none (some [10]) none
      (some { start := ⟨1, 8, 7⟩, «end» := some ⟨2, 1, 8⟩ }),
    .mk .element (some (lit "b")) (some []) none none none (some [])
      (some { start := ⟨2, 1, 8⟩, «end» := some ⟨2, 5, 12⟩ }),
    { start := ⟨1, 8, 7⟩, «end» := some ⟨2, 1, 8⟩ },
    { start := ⟨2, 1, 8⟩, «end» := some ⟨2, 5, 12⟩ },
    rfl, rfl, rfl, rfl, rfl, rfl, rfl, by decide⟩

/-- C17, amended: when at every event the clock is not behind the baseline in
document order (line, then column), in the tree `fromXml` returns the children
of every node have a position, and across them in the order of the list the
start lines never decrease and, between two siblings that start in one line,
the start columns never decrease. -/
theorem siblings_ordered (start : Cursor) (lastIndex : Nat) (events : List (Cursor × Event))
    (tree : Node)
    (hahead : ahead lineColumnLe events (Builder.initial start lastIndex) = true)
    (hrun : fromXml start lastIndex events = .ok (some tree)) :
    ∀ n, n = tree ∨ Descendant tree n →
      n.kids.Pairwise fun x y =>
        ∃ px py, x.position = some px ∧ y.position = some py ∧
          px.start.line ≤ py.start.line ∧
          (px.start.line = py.start.line → px.start.column ≤ py.start.column) := by
  intro n hn
  have ho := tree_ordered lineColumnLe_trans lineColumnLe_next lineColumnLe_text hahead hrun
  have hon : Ordered lineColumnLe n := by
    rcases hn with rfl | hn
    · exact ho
    · exact ordered_descendant hn ho
  cases hon with
  | mk _ _ hpos hpw _ =>
    refine List.Pairwise.imp_of_mem (fun {x y} hx hy hxy => ?_) hpw
    cases hpx : x.position with
    | none => exact absurd hpx (hpos x hx)
    | some px =>
      cases hpy : y.position with
      | none => exact absurd hpy (hpos y hy)
      | some py =>
        have := hxy px py hpx hpy
        simp only [lineColumnLe, decide_eq_true_eq] at this
        exact ⟨px, py, rfl, rfl, by omega, by omega⟩

/-- C17 amended, on the events of `<r><a/>`, line break, `<b/></r>`: the
children of `r` start in (1, 4), (1, 8) and (2, 1). -/
theorem siblings_ordered_witness :
    ahead lineColumnLe
      [(⟨0, 3, 3⟩, Event.opentag (lit "r") []), (⟨0, 7, 7⟩, Event.opentag (lit "a") []),
        (⟨0, 7, 7⟩, Event.closetag), (⟨1, 1, 9⟩, Event.text [10]),
        (⟨1, 4, 12⟩, Event.opentag (lit "b") []), (⟨1, 4, 12⟩, Event.closetag),
        (⟨1, 8, 16⟩, Event.closetag)] (Builder.initial ⟨0, 0, 0⟩ 0) = true ∧
    [Node.mk .element (some (lit "a")) (some []) none none none (some [])
        (some { start := ⟨1, 4, 3⟩, «end» := some ⟨1, 8, 7⟩ }),
      .mk .text none none none none (some [10]) none
        (some { start := ⟨1, 8, 7⟩, «end» := some ⟨2, 1, 8⟩ }),
      .mk .element (some (lit "b")) (some []) none none none (some [])
        (some { start := ⟨2, 1, 8⟩, «end» := some ⟨2, 5, 12⟩ })].Pairwise
      (fun x y =>
        ∃ px py, x.position = some px ∧ y.position = some py ∧
          px.start.line ≤ py.start.line ∧
          (px.start.line = py.start.line → px.start.column ≤ py.start.column)) :=
  ⟨rfl,
    siblings_ordered ⟨0, 0, 0⟩ 0
      [(⟨0, 3, 3⟩, Event.opentag (lit "r") []), (⟨0, 7, 7⟩, Event.opentag (lit "a") []),
        (⟨0, 7, 7⟩, Event.closetag), (⟨1, 1, 9⟩, Event.text [10]),
        (⟨1, 4, 12⟩, Event.opentag (lit "b") []), (⟨1, 4, 12⟩, Event.closetag),
        (⟨1, 8, 16⟩, Event.closetag)] _ rfl rfl
      (.mk .element (some (lit "r")) (some []) none none none
        (some [.mk .element (some (lit "a")) (some []) none none none (some [])
            (some { start := ⟨1, 4, 3⟩, «end» := some ⟨1, 8, 7⟩ }),
          .mk .text none none none none (some [10]) none
            (some { start := ⟨1, 8, 7⟩, «end» := some ⟨2, 1, 8⟩ }),
          .mk .element (some (lit "b")) (some []) none none none (some [])
            (some { start := ⟨2, 1, 8⟩, «end» := some ⟨2, 5, 12⟩ })])
        (some { start := ⟨1, 1, 0⟩, «end» := some ⟨2, 9, 16⟩ }))
      (Or.inr (Descendant.child (List.Mem.head _)))⟩

/-- C12: when `enter(node)` returns, the stack had a top with children, the node
has been pushed with `position.start` at the baseline and no end, and in the
stack as the source holds it the old top has the node as its new last child,
after the children it had; hence through every run of events in which every
enter event has its exit event, the stack top keeps the children it had and
gets, after them and in the order of arrival, exactly the nodes entered while
it is the top (`Entered`), and nothing below the top changes; the relation
`Entered` describes every such run and only such runs, and in it the children
of an entered element are in turn the nodes entered under it; and whenever
`fromXml` returns a tree, with enter events left open or not, the children of
its root are the nodes entered under the root (`EnteredOpen`, which in turn
describes only runs that return such a tree). -/
theorem children_in_order :
    (∀ (parser : Cursor) (node : Node) (b b2 : Builder), enter parser node b = .ok b2 →
      ∃ top below cs under, b.stack = top :: below ∧ top.children = some cs ∧
        b2.stack =
          node.setPosition (some { start := b.position, «end» := none }) :: top :: below ∧
        b2.position = now parser ∧
        sourceStack b2.stack =
          node.setPosition (some { start := b.position, «end» := none }) ::
            top.pushChild (node.setPosition (some { start := b.position, «end» := none })) ::
              under ∧
        (top.pushChild (node.setPosition (some { start := b.position, «end» := none }))).children =
          some (cs ++ [node.setPosition (some { start := b.position, «end» := none })])) ∧
    (∀ (events : List (Cursor × Event)) (top : Node) (below : List Node) (p : Point) (li : Nat)
      (b2 : Builder),
      nesting 0 events = some 0 → run events ⟨top :: below, p, li⟩ = .ok b2 →
      ∃ ns top2 p2 li2, Entered top p li events ns top2 p2 li2 ∧
        b2 = ⟨top2 :: below, p2, li2⟩ ∧ top2.kids = top.kids ++ ns) ∧
    (∀ (events : List (Cursor × Event)) (top top2 : Node) (p p2 : Point) (li li2 : Nat)
      (ns : List Node), Entered top p li events ns top2 p2 li2 →
      top2.kids = top.kids ++ ns ∧
      ∀ below, run events ⟨top :: below, p, li⟩ = .ok ⟨top2 :: below, p2, li2⟩) ∧
    (∀ (start : Cursor) (lastIndex : Nat) (events : List (Cursor × Event)) (tree : Node),
      nesting 0 events = some 0 → fromXml start lastIndex events = .ok (some tree) →
      ∃ ns p2 li2,
        Entered (.mk .root none none none none none (some []) none) (now start) lastIndex
          events ns tree p2 li2 ∧
        tree.kids = ns) ∧
    (∀ (start : Cursor) (lastIndex : Nat) (events : List (Cursor × Event)) (tree : Node),
      fromXml start lastIndex events = .ok (some tree) →
      ∃ ns,
        EnteredOpen (.mk .root none none none none none (some []) none) (now start) lastIndex
          events ns tree ∧
        tree.kids = ns) ∧
    (∀ (events : List (Cursor × Event)) (top tree : Node) (p : Point) (li : Nat)
      (ns : List Node), EnteredOpen top p li events ns tree →
      tree.kids = top.kids ++ ns ∧
      ∀ below, ∃ frames p2 li2,
        run events ⟨top :: below, p, li⟩ = .ok ⟨frames ++ below, p2, li2⟩ ∧
        (sourceStack frames).getLast? = some tree) := by
  refine ⟨?_, ?_, ?_, ?_, ?_, ?_⟩
  · intro parser node b b2 h
    obtain ⟨top, below, cs, hs, hc, rfl⟩ := enter_ok h
    refine ⟨top, below, cs, _, hs, hc, by rw [hs], rfl, by rw [hs]; rfl, ?_⟩
    simp [hc]
  · intro events top below p li b2 hn hr
    obtain ⟨ns, top2, p2, li2, hent, hb⟩ :=
      entered_complete events.length events (Nat.le_refl _) top below p li b2 hn hr
    exact ⟨ns, top2, p2, li2, hent, hb, entered_kids hent⟩
  · intro events top top2 p p2 li li2 ns hent
    exact ⟨entered_kids hent, entered_sound hent⟩
  · intro start lastIndex events tree hn hrun
    obtain ⟨b, hr, ht⟩ := fromXml_ok hrun
    obtain ⟨ns, top2, p2, li2, hent, rfl⟩ :=
      entered_complete events.length events (Nat.le_refl _) _ [] _ _ b hn hr
    simp only [Builder.root, sourceStack, adopt, List.getLast?_singleton,
      Option.some.injEq] at ht
    subst ht
    refine ⟨ns, p2, li2, hent, ?_⟩
    have := entered_kids hent
    simpa [Node.kids] using this
  · intro start lastIndex events tree hrun
    obtain ⟨b, hr, ht⟩ := fromXml_ok hrun
    have hn := run_ok_nesting events 0 (Builder.initial start lastIndex) b
      (initial_rootAtBottom start lastIndex) rfl hr
    cases hd : nesting 0 events with
    | none => exact absurd hd hn
    | some d =>
      obtain ⟨ns, tree2, frames, p2, li2, hopen, rfl, hlast⟩ :=
        enteredOpen_complete d events _ [] _ _ b hd hr
      simp only [Builder.root, List.append_nil] at ht
      rw [hlast] at ht
      cases ht
      refine ⟨ns, hopen, ?_⟩
      have := enteredOpen_kids hopen
      simpa [Node.kids] using this
  · intro events top tree p li ns hopen
    exact ⟨enteredOpen_kids hopen, enteredOpen_sound hopen⟩

/-- C12, on the events of `<a>x</a>`: the element is the one node entered under
the root, and the text the one node entered under the element; and on the
events of `<a>x` alone, where the element is left open. -/
theorem children_in_order_witness :
    (∃ ns p2 li2,
      Entered (.mk .root none none none none none (some []) none) (now ⟨0, 0, 0⟩) 0
        [(⟨0, 3, 3⟩, Event.opentag (lit "a") []), (⟨0, 5, 5⟩, Event.text (lit "x")),
          (⟨0, 8, 8⟩, Event.closetag)] ns
        (.mk .root none none none none none
          (some [.mk .element (some (lit "a")) (some []) none none none
            (some [.mk .text none none none none (some (lit "x")) none
              (some { start := ⟨1, 4, 3⟩, «end» := some ⟨1, 5, 4⟩ })])
            (some { start := ⟨1, 1, 0⟩, «end» := some ⟨1, 9, 8⟩ })]) none) p2 li2 ∧
      (Node.mk .root none none none none none
        (some [.mk .element (some (lit "a")) (some []) none none none
          (some [.mk .text none none none none (some (lit "x")) none
            (some { start := ⟨1, 4, 3⟩, «end» := some ⟨1, 5, 4⟩ })])
          (some { start := ⟨1, 1, 0⟩, «end» := some ⟨1, 9, 8⟩ })]) none).kids = ns) ∧
    ∃ ns,
      EnteredOpen (.mk .root none none none none none (some []) none) (now ⟨0, 0, 0⟩) 0
        [(⟨0, 3, 3⟩, Event.opentag (lit "a") []), (⟨0, 5, 5⟩, Event.text (lit "x"))] ns
        (.mk .root none none none none none
          (some [.mk .element (some (lit "a")) (some []) none none none
            (some [.mk .text none none none none (some (lit "x")) none
              (some { start := ⟨1, 4, 3⟩, «end» := some ⟨1, 5, 4⟩ })])
            (some { start := ⟨1, 1, 0⟩, «end» := none })]) none) ∧
      (Node.mk .root none none none none none
        (some [.mk .element (some (lit "a")) (some []) none none none
          (some [.mk .text none none none none (some (lit "x")) none
            (some { start := ⟨1, 4, 3⟩, «end» := some ⟨1, 5, 4⟩ })])
          (some { start := ⟨1, 1, 0⟩, «end» := none })]) none).kids = ns :=
  ⟨children_in_order.2.2.2.1 ⟨0, 0, 0⟩ 0
      [(⟨0, 3, 3⟩, Event.opentag (lit "a") []), (⟨0, 5, 5⟩, Event.text (lit "x")),
        (⟨0, 8, 8⟩, Event.closetag)] _ rfl rfl,
    children_in_order.2.2.2.2.1 ⟨0, 0, 0⟩ 0
      [(⟨0, 3, 3⟩, Event.opentag (lit "a") []), (⟨0, 5, 5⟩, Event.text (lit "x"))] _ rfl⟩

end FromXml
